import Mathlib

/-!
# TimerQueue (src/net/TimerQueue.cc)

A shallow embedding of the timer queue of the event loop: the ordered set of
pending timers, the set of timers cancelled during an expiry pass, the
reentrancy flag, the timerfd deadline, and the operations `insert`,
`addTimerInLoop`, `cancelInLoop`, `getExpired`, `reset` and `handleRead`.

Timestamps are integer microseconds since the epoch.  A `TimerPtr` is the
address held by a `std::shared_ptr<Timer>`; address `0` is the null pointer.
An `Entry` is the `std::pair<Timestamp, TimerPtr>` stored in the `std::set`
`timers_`, ordered as `std::pair` orders it: by timestamp first, by pointer
second.  A `std::set` is a list kept strictly ascending in that order.

A call made on the loop thread reaches the queue at once, since `runInLoop`
calls its task at once there; a call made on another thread leaves its task in
the queue of the loop, which the loop thread runs later.  A callback is seen
through the calls it makes on the queue.
-/

namespace muduo.net

/-- Microseconds since the epoch (`Timestamp::microSecondsSinceEpoch()`). -/
abbrev Timestamp := Int

/-- The address held by a `TimerPtr` (`std::shared_ptr<Timer>`); `0` is null. -/
abbrev TimerPtr := Nat

/-- The element type of `timers_`: `std::pair<Timestamp, TimerPtr>`. -/
abbrev Entry := Timestamp × TimerPtr

/-- Modelled from the spec: the `Timer` value object of `Timer.h`, which is not
among the sources: its next expiration, its repeat interval (zero for a
one-shot timer) and its sequence number. The callback is kept apart, see
`Call`. -/
structure Timer where
  expiration : Timestamp
  interval : Int
  sequence : Nat
  deriving DecidableEq, Repr

/-- Modelled from the spec: `Timer::repeat()` of `Timer.h`; a timer repeats
when its interval is non-zero. -/
def Timer.repeat (t : Timer) : Bool := t.interval != 0

/-- Modelled from the spec: `Timer::restart(now)` of `Timer.h`; a repeating
timer gets the expiration `now + interval`, a one-shot timer is terminal and
is never reinserted. -/
def Timer.restart (t : Timer) (now : Timestamp) : Timer :=
  if t.repeat then { t with expiration := now + t.interval } else t

/-- The handle `TimerId`: its member `value_` is a weak reference to the
timer. -/
structure TimerId where
  value_ : TimerPtr
  deriving DecidableEq, Repr

/-- The two declarations of `Timestamp.h` that `reset` uses and that are not
among the sources: the default-constructed timestamp and
`Timestamp::valid()`. -/
structure TimestampDecl where
  dflt : Timestamp
  valid : Timestamp → Bool

/-- The declarations as the muduo base library has them: the default timestamp
is `0` and a timestamp is valid when it is positive. -/
def muduoTimestamp : TimestampDecl := ⟨0, fun t => decide (0 < t)⟩

/-- What stops an operation: a failed `assert`, a pointer that is dereferenced
without an object behind it, or an allocation at an address already in use. -/
inductive Fault where
  | assertion
  | dangling
  | badAlloc
  deriving DecidableEq, Repr

/-- The order `std::pair` gives entries: timestamp first, then the pointer. -/
def entryLt (a b : Entry) : Prop := a.1 < b.1 ∨ (a.1 = b.1 ∧ a.2 < b.2)

instance : DecidableRel entryLt := fun a b => by unfold entryLt; infer_instance

/-- The member `std::set<Entry>::insert`: the new set and whether the entry
was inserted (`false` when an equal entry was there already). -/
def setInsert (e : Entry) : List Entry → List Entry × Bool
  | [] => ([e], true)
  | x :: xs =>
    if entryLt e x then (e :: x :: xs, true)
    else if entryLt x e then ((x :: (setInsert e xs).1), (setInsert e xs).2)
    else (x :: xs, false)

/-- The member `std::set<Entry>::erase(key)`: the new set and the number of
entries removed. -/
def setErase (e : Entry) (xs : List Entry) : List Entry × Nat :=
  (xs.filter (fun x => decide (x ≠ e)), xs.length - (xs.filter (fun x => decide (x ≠ e))).length)

/-- The comparator handed to `std::lower_bound` in `getExpired`:
`[](const Entry& a, const Entry& b) { return a.first <= b.first; }`. -/
def expiredComp (a b : Entry) : Bool := decide (a.1 ≤ b.1)

/-- The loop of `std::lower_bound` over the range `[first, first + len)` of
`xs`: halve `len`, look at the middle element, keep the right half when
`comp middle val` holds and the left half otherwise.  The first argument
bounds the number of iterations. -/
def lowerBoundLoop (comp : Entry → Entry → Bool) (xs : List Entry) (val : Entry) :
    Nat → Nat → Nat → Nat
  | 0, first, _ => first
  | fuel + 1, first, len =>
    if len = 0 then first
    else
      let half := len / 2
      let middle := first + half
      match xs[middle]? with
      | none => first
      | some m =>
        if comp m val then lowerBoundLoop comp xs val fuel (middle + 1) (len - half - 1)
        else lowerBoundLoop comp xs val fuel first half

/-- The call `std::lower_bound(xs.begin(), xs.end(), val, comp)`, as the
position of the returned iterator. -/
def lowerBound (comp : Entry → Entry → Bool) (xs : List Entry) (val : Entry) : Nat :=
  lowerBoundLoop comp xs val xs.length 0 xs.length

/-- A task `TimerQueue` hands to `loop_->runInLoop`: the bound call
`std::bind(&TimerQueue::addTimerInLoop, this, timer)` of `addTimer`, which holds
the `TimerPtr` it binds, or the bound call
`std::bind(&TimerQueue::cancelInLoop, this, timerId)` of `cancel`, which holds
only the weak reference of the handle. -/
inductive LoopTask where
  | addTimerInLoop (timer : TimerPtr)
  | cancelInLoop (timerId : TimerId)
  deriving DecidableEq, Repr

/-- The state of a `TimerQueue` together with the timer objects it refers to.
`heap` holds the `Timer` objects by address and `numCreated` the counter the
sequence numbers come from; `timerfd_` is the last deadline passed to
`resetTimerfd`, if any; `expired` is the vector local to `handleRead`, which
owns the timers it holds while the pass runs; `ran` lists, oldest first, the
timers whose callback was invoked; `queued` lists, oldest first, the tasks
that `runInLoop` left in the queue of the loop and that have not run yet. -/
structure TimerQueue where
  heap : TimerPtr → Option Timer
  numCreated : Nat
  timers_ : List Entry
  cancelingTimers_ : List Entry
  callingExpiredTimers_ : Bool
  timerfd_ : Option Timestamp
  expired : List Entry
  ran : List TimerPtr
  queued : List LoopTask

/-- A call a callback makes on the queue from the loop thread. -/
inductive Call where
  | addTimer (ptr : TimerPtr) (when : Timestamp) (interval : Int)
  | cancel (timerId : TimerId)
  deriving DecidableEq, Repr

namespace TimerQueue

/-- The queue right after construction. -/
def empty : TimerQueue :=
  { heap := fun _ => none, numCreated := 0, timers_ := [], cancelingTimers_ := [],
    callingExpiredTimers_ := false, timerfd_ := none, expired := [], ran := [],
    queued := [] }

/-- The timers some `shared_ptr` of the queue refers to: those of `timers_`,
of `cancelingTimers_` and of the vector `expired`. -/
def owned (s : TimerQueue) : List TimerPtr :=
  (s.timers_ ++ s.cancelingTimers_ ++ s.expired).map Prod.snd

/-- The timer objects kept alive from outside the queue: a task
`addTimerInLoop` that waits in the queue of the loop owns the timer that
`addTimer` created and bound to it, until the task has run. -/
def held (s : TimerQueue) : List TimerPtr :=
  s.queued.filterMap fun task =>
    match task with
    | .addTimerInLoop timer => if (s.heap timer).isSome then some timer else none
    | .cancelInLoop _ => none

/-- The call `timerId.value_.lock()`: the timer when an owner keeps it alive,
be it a `shared_ptr` of the queue or the one bound in a waiting task. -/
def lock (s : TimerQueue) (timerId : TimerId) : Option TimerPtr :=
  if timerId.value_ ∈ s.owned ∨ timerId.value_ ∈ s.held then some timerId.value_ else none

/-- Writes the object at address `p`. -/
def store (s : TimerQueue) (p : TimerPtr) (t : Timer) : TimerQueue :=
  { s with heap := fun q => if q = p then some t else s.heap q }

/-- The function `resetTimerfd(timerfd_, expiration)`. -/
def resetTimerfd (s : TimerQueue) (expiration : Timestamp) : TimerQueue :=
  { s with timerfd_ := some expiration }

/-- The method `TimerQueue::insert`: whether the earliest expiration changed,
and the new state. -/
def insert (s : TimerQueue) (timer : TimerPtr) : Except Fault (Bool × TimerQueue) :=
  match s.heap timer with
  | none => .error Fault.dangling
  | some t =>
    let when := t.expiration
    let earliestChanged : Bool :=
      match s.timers_ with
      | [] => true
      | it :: _ => decide (when < it.1)
    let result := setInsert (when, timer) s.timers_
    if result.2 then .ok (earliestChanged, { s with timers_ := result.1 })
    else .error Fault.assertion

/-- The method `TimerQueue::addTimerInLoop`. -/
def addTimerInLoop (s : TimerQueue) (timer : TimerPtr) : Except Fault TimerQueue :=
  match s.insert timer with
  | .error f => .error f
  | .ok (earliestChanged, s1) =>
    if earliestChanged then
      match s1.heap timer with
      | none => .error Fault.dangling
      | some t => .ok (s1.resetTimerfd t.expiration)
    else .ok s1

/-- The method `TimerQueue::addTimer` called on the loop thread: `new Timer`
puts a timer with the next sequence number at the unused address `ptr`, and
`runInLoop` calls `addTimerInLoop`. -/
def addTimer (s : TimerQueue) (ptr : TimerPtr) (when : Timestamp) (interval : Int) :
    Except Fault TimerQueue :=
  if ptr = 0 ∨ (s.heap ptr).isSome then .error Fault.badAlloc
  else
    addTimerInLoop
      { s.store ptr ⟨when, interval, s.numCreated + 1⟩ with numCreated := s.numCreated + 1 } ptr

/-- The method `TimerQueue::cancelInLoop`. -/
def cancelInLoop (s : TimerQueue) (timerId : TimerId) : Except Fault TimerQueue :=
  match s.lock timerId with
  | some canceltimer =>
    match s.heap canceltimer with
    | none => .error Fault.dangling
    | some t =>
      let timerEntry : Entry := (t.expiration, canceltimer)
      if timerEntry ∈ s.timers_ then
        let r := setErase timerEntry s.timers_
        if r.2 = 1 then .ok { s with timers_ := r.1 } else .error Fault.assertion
      else if s.callingExpiredTimers_ then
        .ok { s with cancelingTimers_ := (setInsert timerEntry s.cancelingTimers_).1 }
      else .ok s
  | none => .ok s

/-- The method `TimerQueue::getExpired`: the vector it returns and the new
state. -/
def getExpired (s : TimerQueue) (now : Timestamp) : Except Fault (List Entry × TimerQueue) :=
  let sentry : Entry := (now, 0)
  let it := lowerBound expiredComp s.timers_ sentry
  let checked : Bool :=
    match s.timers_[it]? with
    | none => decide (it = s.timers_.length)
    | some e => decide (now < e.1)
  if checked then .ok (s.timers_.take it, { s with timers_ := s.timers_.drop it })
  else .error Fault.assertion

/-- One call of a callback, run at once by `runInLoop`. -/
def call (s : TimerQueue) : Call → Except Fault TimerQueue
  | .addTimer ptr when interval => s.addTimer ptr when interval
  | .cancel timerId => s.cancelInLoop timerId

/-- The calls of one callback, in order. -/
def calls : List Call → TimerQueue → Except Fault TimerQueue
  | [], s => .ok s
  | c :: cs, s =>
    match s.call c with
    | .error f => .error f
    | .ok s1 => calls cs s1

/-- The method `Timer::run()` on the timer at `p`: the callback is invoked and
makes the calls `cb`. -/
def run (s : TimerQueue) (p : TimerPtr) (cb : List Call) : Except Fault TimerQueue :=
  calls cb { s with ran := s.ran ++ [p] }

/-- The loop of `handleRead` over `expired`; `cbs p` lists the calls the
callback of the timer at `p` makes in this pass. -/
def runExpired (cbs : TimerPtr → List Call) : List Entry → TimerQueue → Except Fault TimerQueue
  | [], s => .ok s
  | it :: rest, s =>
    match s.run it.2 (cbs it.2) with
    | .error f => .error f
    | .ok s1 => runExpired cbs rest s1

/-- The loop of `reset` over `expired`. -/
def resetLoop (now : Timestamp) : List Entry → TimerQueue → Except Fault TimerQueue
  | [], s => .ok s
  | it :: rest, s =>
    match s.heap it.2 with
    | none => .error Fault.dangling
    | some t =>
      if t.repeat && !(decide (it ∈ s.cancelingTimers_)) then
        match (s.store it.2 (t.restart now)).insert it.2 with
        | .error f => .error f
        | .ok r => resetLoop now rest r.2
      else resetLoop now rest s

/-- The value of `nextExpire` in `reset` once the loop is done. -/
def nextExpire (ts : TimestampDecl) (s : TimerQueue) : Except Fault Timestamp :=
  match s.timers_ with
  | [] => .ok ts.dflt
  | b :: _ =>
    match s.heap b.2 with
    | none => .error Fault.dangling
    | some t => .ok t.expiration

/-- The method `TimerQueue::reset`. -/
def reset (ts : TimestampDecl) (s : TimerQueue) (expired : List Entry) (now : Timestamp) :
    Except Fault TimerQueue :=
  match resetLoop now expired s with
  | .error f => .error f
  | .ok s1 =>
    match nextExpire ts s1 with
    | .error f => .error f
    | .ok n => if ts.valid n then .ok (s1.resetTimerfd n) else .ok s1

/-- The method `TimerQueue::handleRead` when `Timestamp::now()` gives `now`.
The call of `readTimerfd` only drains the descriptor and writes to the log, so
it leaves the state alone; the vector `expired` is released when the method
returns. -/
def handleRead (ts : TimestampDecl) (s : TimerQueue) (now : Timestamp)
    (cbs : TimerPtr → List Call) : Except Fault TimerQueue :=
  match s.getExpired now with
  | .error f => .error f
  | .ok (expired, s1) =>
    match runExpired cbs expired
        { s1 with callingExpiredTimers_ := true, cancelingTimers_ := [], expired := expired } with
    | .error f => .error f
    | .ok s2 =>
      match reset ts { s2 with callingExpiredTimers_ := false } expired now with
      | .error f => .error f
      | .ok s3 => .ok { s3 with expired := [] }

/-- The call a task makes when the loop runs it. -/
def runTask (s : TimerQueue) : LoopTask → Except Fault TimerQueue
  | .addTimerInLoop timer => s.addTimerInLoop timer
  | .cancelInLoop timerId => s.cancelInLoop timerId

/-- Modelled from the spec: the operation `run_in_loop(task)` of the
dispatcher (`EventLoop::runInLoop`, whose file is not among the sources):
the task is executed immediately if the caller is already on the loop
thread, else it is enqueued for later execution in submission order. -/
def runInLoop (s : TimerQueue) (inLoopThread : Bool) (task : LoopTask) :
    Except Fault TimerQueue :=
  if inLoopThread then s.runTask task else .ok { s with queued := s.queued ++ [task] }

/-- Modelled from the spec: the loop thread executes the oldest task that was
enqueued, so that enqueued tasks run in submission order; the tasks behind
it stay in the queue, and with them the timers they own. -/
def runQueued (s : TimerQueue) : Except Fault TimerQueue :=
  match s.queued with
  | [] => .ok s
  | task :: rest => runTask { s with queued := rest } task

/-- The method `TimerQueue::addTimer` called on any thread: `new Timer` puts a
timer with the next sequence number at the unused address `ptr`, and the task
`addTimerInLoop` bound to it goes to `runInLoop`.  On the loop thread this is
`addTimer`. -/
def addTimerFrom (s : TimerQueue) (inLoopThread : Bool) (ptr : TimerPtr) (when : Timestamp)
    (interval : Int) : Except Fault TimerQueue :=
  if ptr = 0 ∨ (s.heap ptr).isSome then .error Fault.badAlloc
  else
    runInLoop
      { s.store ptr ⟨when, interval, s.numCreated + 1⟩ with numCreated := s.numCreated + 1 }
      inLoopThread (.addTimerInLoop ptr)

/-- The method `TimerQueue::cancel` called on any thread: the task
`cancelInLoop` bound to the handle goes to `runInLoop`. -/
def cancel (s : TimerQueue) (inLoopThread : Bool) (timerId : TimerId) :
    Except Fault TimerQueue :=
  s.runInLoop inLoopThread (.cancelInLoop timerId)

/-- The timer at `p` is neither pending nor in the vector `expired`, and its
object exists. -/
def Retired (p : TimerPtr) (s : TimerQueue) : Prop :=
  p ∉ s.timers_.map Prod.snd ∧ p ∉ s.expired.map Prod.snd ∧ s.heap p ≠ none

/-- Every entry of `timers_` is keyed by the expiration of its timer. -/
def KeysAgree (s : TimerQueue) : Prop :=
  ∀ e ∈ s.timers_, ∃ t, s.heap e.2 = some t ∧ t.expiration = e.1

/-- A well-formed queue: `timers_` is ascending and keyed by the expirations
of its timers, every timer a `shared_ptr` of the queue refers to has its
object, and the timers of the vector `expired` are pairwise distinct and not
pending. -/
def WF (s : TimerQueue) : Prop :=
  s.timers_.Pairwise entryLt ∧ s.KeysAgree ∧ (∀ p ∈ s.owned, s.heap p ≠ none) ∧
    (s.expired.map Prod.snd).Nodup ∧ ∀ e ∈ s.expired, e.2 ∉ s.timers_.map Prod.snd

end TimerQueue

/-- The addresses at which the calls of a callback create timers. -/
def allocs : List Call → List TimerPtr
  | [] => []
  | .addTimer ptr _ _ :: cs => ptr :: allocs cs
  | .cancel _ :: cs => allocs cs

/-- The addresses at which the callbacks of the timers of `es` create timers,
in the order of the pass. -/
def passAllocs (cbs : TimerPtr → List Call) : List Entry → List TimerPtr
  | [] => []
  | e :: es => allocs (cbs e.2) ++ passAllocs cbs es

/-- An operation the loop thread performs on the queue between two polls. -/
inductive Op where
  | addTimer (ptr : TimerPtr) (when : Timestamp) (interval : Int)
  | cancel (timerId : TimerId)
  | handleRead (now : Timestamp) (cbs : TimerPtr → List Call)

namespace TimerQueue

/-- One operation of the loop thread. -/
def step (ts : TimestampDecl) (s : TimerQueue) : Op → Except Fault TimerQueue
  | .addTimer ptr when interval => s.addTimer ptr when interval
  | .cancel timerId => s.cancelInLoop timerId
  | .handleRead now cbs => handleRead ts s now cbs

/-- A sequence of operations of the loop thread. -/
def steps (ts : TimestampDecl) : List Op → TimerQueue → Except Fault TimerQueue
  | [], s => .ok s
  | o :: os, s =>
    match s.step ts o with
    | .error f => .error f
    | .ok s1 => steps ts os s1

end TimerQueue

/-- What happens to the queue, one thing at a time: a call of `addTimer` or of
`cancel` on the loop thread outside a pass (`inLoopThread` is `true`) or on
another thread (`false`), the loop running the oldest task of its queue, or a
pass of `handleRead`.  The calls the callbacks make inside a pass are part of
the pass.  A call on another thread only creates its timer and appends its
task to the queue of the loop; one that arrives while a pass runs is placed
before the pass, where every callback that can hold its handle finds the
timer alive, as it does after the arrival. -/
inductive Event where
  | addTimer (inLoopThread : Bool) (ptr : TimerPtr) (when : Timestamp) (interval : Int)
  | cancel (inLoopThread : Bool) (timerId : TimerId)
  | runQueued
  | handleRead (now : Timestamp) (cbs : TimerPtr → List Call)

/-- An operation of the loop thread, as an event. -/
def Op.toEvent : Op → Event
  | .addTimer ptr when interval => .addTimer true ptr when interval
  | .cancel timerId => .cancel true timerId
  | .handleRead now cbs => .handleRead now cbs

namespace TimerQueue

/-- One event. -/
def occur (ts : TimestampDecl) (s : TimerQueue) : Event → Except Fault TimerQueue
  | .addTimer inLoopThread ptr when interval => s.addTimerFrom inLoopThread ptr when interval
  | .cancel inLoopThread timerId => s.cancel inLoopThread timerId
  | .runQueued => s.runQueued
  | .handleRead now cbs => handleRead ts s now cbs

/-- An interleaving: a sequence of events. -/
def play (ts : TimestampDecl) : List Event → TimerQueue → Except Fault TimerQueue
  | [], s => .ok s
  | ev :: evs, s =>
    match s.occur ts ev with
    | .error f => .error f
    | .ok s1 => play ts evs s1

/-- The timer at `p` is out of the queue for good: it is neither pending nor
in the vector `expired`, its object exists, and no task that would insert it
waits in the queue of the loop. -/
def Gone (p : TimerPtr) (s : TimerQueue) : Prop :=
  s.Retired p ∧ LoopTask.addTimerInLoop p ∉ s.queued

/-- Outside a pass: the reentrancy flag is off and the vector `expired` is
gone. -/
def Idle (s : TimerQueue) : Prop :=
  s.callingExpiredTimers_ = false ∧ s.expired = []

/-- The tasks that wait to insert a timer: no timer has two of them, and a
timer that has one is not pending and has its object. -/
def Waiting (s : TimerQueue) : Prop :=
  s.queued.Pairwise
      (fun a b => ∀ p, a = LoopTask.addTimerInLoop p → b ≠ LoopTask.addTimerInLoop p) ∧
    ∀ p, LoopTask.addTimerInLoop p ∈ s.queued → p ∉ s.timers_.map Prod.snd ∧ s.heap p ≠ none

/-- What every queue reached from the empty queue is: well-formed, outside a
pass, and with the waiting insertions in order. -/
def Sound (s : TimerQueue) : Prop :=
  s.WF ∧ s.Idle ∧ s.Waiting

end TimerQueue

/-- In the queue of tasks every task that inserts the timer at `p` has a task
that cancels its handle behind it. -/
def cancelBehind (p : TimerPtr) : List LoopTask → Prop
  | [] => True
  | task :: rest =>
    (task = LoopTask.addTimerInLoop p → LoopTask.cancelInLoop ⟨p⟩ ∈ rest) ∧ cancelBehind p rest

/-- The value an `int64_t` holds for the mathematical result `x`. -/
def wrap64 (x : Int) : Int := (x + 2 ^ 63) % 2 ^ 64 - 2 ^ 63

/-- The function `howMuchTimeFromNow(when)` when `Timestamp::now()` gives
`cur`: the fields `tv_sec` and `tv_nsec` of the result.  The constant
`Timestamp::kMicroSecondsPerSecond` of `Timestamp.h`, which is not among the
sources, is the first argument.  The subtraction and the product are done in
`int64_t`, the division and the remainder truncate. -/
def howMuchTimeFromNow (kMicroSecondsPerSecond : Int) (when cur : Timestamp) : Int × Int :=
  let microseconds := wrap64 (when - cur)
  let microseconds := if microseconds < 100 then 100 else microseconds
  (Int.tdiv microseconds kMicroSecondsPerSecond,
    wrap64 (Int.tmod microseconds kMicroSecondsPerSecond * 1000))

/-! ## Sample states -/

/-- A queue holding four one-shot timers, two of them due at the same time. -/
def sampleFour : TimerQueue :=
  { TimerQueue.empty with
    heap := fun p =>
      if p = 1 then some ⟨5, 0, 1⟩ else if p = 2 then some ⟨10, 0, 2⟩
      else if p = 3 then some ⟨10, 0, 3⟩ else if p = 4 then some ⟨20, 0, 4⟩ else none
    numCreated := 4
    timers_ := [(5, 1), (10, 2), (10, 3), (20, 4)] }

/-- The sample queue with one more timer object, at address `5`, that no
`shared_ptr` of the queue refers to yet. -/
def sampleFresh : TimerQueue :=
  { sampleFour with
    heap := fun p => if p = 5 then some ⟨100, 0, 5⟩ else sampleFour.heap p
    numCreated := 5 }

/-- A queue holding a timer at address `1` that repeats every 7 microseconds
and a one-shot timer at address `2`. -/
def sampleRepeat : TimerQueue :=
  { TimerQueue.empty with
    heap := fun p => if p = 1 then some ⟨10, 7, 1⟩ else if p = 2 then some ⟨20, 0, 2⟩ else none
    numCreated := 2
    timers_ := [(10, 1), (20, 2)] }

/-- Callbacks of which the one of the timer at address `1` cancels its own
timer. -/
def selfCancel : TimerPtr → List Call :=
  fun p => if p = 1 then [Call.cancel ⟨1⟩] else []

/-- The queue `sampleRepeat` as `reset` finds it in a pass in which the timer
at address `1` fired and no callback made a call. -/
def sampleFired : TimerQueue :=
  { sampleRepeat with timers_ := [(20, 2)], expired := [(10, 1)] }

/-- The result of a sequence of operations on the empty queue, the empty
queue itself when an operation is stopped. -/
def after (ops : List Op) : TimerQueue :=
  match TimerQueue.steps muduoTimestamp ops TimerQueue.empty with
  | .ok s => s
  | .error _ => TimerQueue.empty

/-- Two timers for the same time `100`: the first is created at address `2`,
the second at address `1`. -/
def sampleTie : TimerQueue :=
  after [Op.addTimer 2 100 0, Op.addTimer 1 100 0]

/-- A queue in which the timer with the earliest expiration, `-5`, was
cancelled, so that the pending timer expires at `0` while the last deadline
of the timerfd is `-5`. -/
def sampleInvalid : TimerQueue :=
  after [Op.addTimer 1 (-5) 0, Op.addTimer 2 0 0, Op.cancel ⟨1⟩]

/-- The queue `sampleRepeat` after the pass at `12` in which the timer at
address `1` cancelled itself. -/
def sampleCancelled : TimerQueue :=
  after [Op.addTimer 1 10 7, Op.addTimer 2 20 0, Op.handleRead 12 selfCancel]

/-- The queue `sampleInvalid` for any declaration of `Timestamp.h`: the
cancelled timer expires one microsecond before the default-constructed
timestamp, the pending timer at the default-constructed timestamp. -/
def skewed (ts : TimestampDecl) : TimerQueue :=
  match TimerQueue.steps ts
      [Op.addTimer 1 (ts.dflt - 1) 0, Op.addTimer 2 ts.dflt 0, Op.cancel ⟨1⟩]
      TimerQueue.empty with
  | .ok s => s
  | .error _ => TimerQueue.empty

/-- A queue as `reset` finds it at the end of a pass in which three timers
fired: the timer at `1` repeats and was cancelled by a callback, the timer at
`3` repeats every 5 microseconds, the timer at `4` is one-shot; the timer at
`2` is pending. -/
def sampleMixed : TimerQueue :=
  { TimerQueue.empty with
    heap := fun p =>
      if p = 1 then some ⟨10, 7, 1⟩ else if p = 2 then some ⟨20, 0, 2⟩
      else if p = 3 then some ⟨11, 5, 3⟩ else if p = 4 then some ⟨12, 0, 4⟩ else none
    numCreated := 4
    timers_ := [(20, 2)]
    cancelingTimers_ := [(10, 1)]
    expired := [(10, 1), (11, 3), (12, 4)] }

/-- A queue holding two repeating timers, due at `10` and at `11`. -/
def samplePair : TimerQueue :=
  { TimerQueue.empty with
    heap := fun p => if p = 1 then some ⟨10, 7, 1⟩ else if p = 2 then some ⟨11, 5, 2⟩ else none
    numCreated := 2
    timers_ := [(10, 1), (11, 2)] }

/-- Callbacks of which the one of the timer at address `1` cancels the timer
at address `2`. -/
def cancelOther : TimerPtr → List Call :=
  fun p => if p = 1 then [Call.cancel ⟨2⟩] else []

/-- Callbacks of which the one of the timer at address `1` cancels the timer
at address `5`. -/
def cancelWaiting : TimerPtr → List Call :=
  fun p => if p = 1 then [Call.cancel ⟨5⟩] else []

/-- Callbacks that make no call. -/
def quiet : TimerPtr → List Call :=
  fun _ => []

/-! ## The ordered set -/

/-- The set order is stronger than the order of the timestamps. -/
theorem entryLt_fst_le {a b : Entry} (h : entryLt a b) : a.1 ≤ b.1 := by
  rcases h with h | ⟨h, _⟩
  · exact le_of_lt h
  · exact le_of_eq h

/-- A list ascending by timestamp splits into the entries due at `now`
followed by the entries not yet due. -/
theorem due_split (now : Timestamp) (xs : List Entry)
    (h : xs.Pairwise (fun a b => a.1 ≤ b.1)) :
    xs = xs.filter (fun e => decide (e.1 ≤ now)) ++ xs.filter (fun e => !decide (e.1 ≤ now)) := by
  induction xs with
  | nil => simp
  | cons x xs ih =>
    rw [List.pairwise_cons] at h
    by_cases hx : x.1 ≤ now
    · have h1 : (x :: xs).filter (fun e => decide (e.1 ≤ now))
          = x :: xs.filter (fun e => decide (e.1 ≤ now)) := by simp [List.filter_cons, hx]
      have h2 : (x :: xs).filter (fun e => !decide (e.1 ≤ now))
          = xs.filter (fun e => !decide (e.1 ≤ now)) := by simp [List.filter_cons, hx]
      rw [h1, h2, List.cons_append, ← ih h.2]
    · have hall : ∀ e ∈ xs, ¬ e.1 ≤ now := fun e he hle => hx (le_trans (h.1 e he) hle)
      have h1 : (x :: xs).filter (fun e => decide (e.1 ≤ now)) = [] := by
        rw [List.filter_eq_nil_iff]
        intro e he
        rcases List.mem_cons.1 he with rfl | he
        · simpa using hx
        · simpa using hall e he
      have h2 : (x :: xs).filter (fun e => !decide (e.1 ≤ now)) = x :: xs := by
        rw [List.filter_eq_self]
        intro e he
        rcases List.mem_cons.1 he with rfl | he
        · simpa using hx
        · simpa using hall e he
      rw [h1, h2, List.nil_append]

/-- On a range split into a part where `comp · val` holds followed by a part
where it fails, the loop of `std::lower_bound` stops at the split, given
enough iterations. -/
theorem lowerBoundLoop_eq (comp : Entry → Entry → Bool) (val : Entry) (l1 l2 : List Entry)
    (h1 : ∀ a ∈ l1, comp a val = true) (h2 : ∀ a ∈ l2, comp a val = false) :
    ∀ (fuel first len : Nat), len ≤ fuel → first ≤ l1.length → l1.length ≤ first + len →
      first + len ≤ (l1 ++ l2).length →
      lowerBoundLoop comp (l1 ++ l2) val fuel first len = l1.length := by
  intro fuel
  induction fuel with
  | zero =>
    intro first len hf hlo hhi _
    simp only [lowerBoundLoop]
    omega
  | succ fuel ih =>
    intro first len hf hlo hhi hlen
    simp only [lowerBoundLoop]
    by_cases h0 : len = 0
    · simp only [h0, if_true]; omega
    · simp only [h0, if_false]
      have hmid : first + len / 2 < (l1 ++ l2).length := by
        have : len / 2 < len := Nat.div_lt_self (Nat.pos_of_ne_zero h0) (by decide)
        omega
      rw [List.getElem?_eq_getElem hmid]
      simp only
      by_cases hm : first + len / 2 < l1.length
      · have hmem : (l1 ++ l2)[first + len / 2] ∈ l1 := by
          rw [List.getElem_append_left hm]
          exact List.getElem_mem _
        rw [if_pos (h1 _ hmem)]
        apply ih
        · have : len / 2 < len := Nat.div_lt_self (Nat.pos_of_ne_zero h0) (by decide)
          omega
        · omega
        · have : len / 2 < len := Nat.div_lt_self (Nat.pos_of_ne_zero h0) (by decide)
          omega
        · have : len / 2 < len := Nat.div_lt_self (Nat.pos_of_ne_zero h0) (by decide)
          omega
      · have hge : l1.length ≤ first + len / 2 := Nat.le_of_not_lt hm
        have hmem : (l1 ++ l2)[first + len / 2] ∈ l2 := by
          rw [List.getElem_append_right hge]
          exact List.getElem_mem _
        rw [h2 _ hmem]
        simp only [Bool.false_eq_true, if_false]
        apply ih
        · have : len / 2 < len := Nat.div_lt_self (Nat.pos_of_ne_zero h0) (by decide)
          omega
        · omega
        · omega
        · have : len / 2 ≤ len := Nat.div_le_self _ _
          omega

/-- On a set in ascending order `std::lower_bound` with the comparator of
`getExpired` returns the position after the last entry due at `now`. -/
theorem lowerBound_due (now : Timestamp) (p : TimerPtr) (xs : List Entry)
    (h : xs.Pairwise entryLt) :
    lowerBound expiredComp xs (now, p) = (xs.filter (fun e => decide (e.1 ≤ now))).length := by
  have hs := due_split now xs (h.imp (fun hab => entryLt_fst_le hab))
  unfold lowerBound
  have key := lowerBoundLoop_eq expiredComp (now, p)
    (xs.filter (fun e => decide (e.1 ≤ now))) (xs.filter (fun e => !decide (e.1 ≤ now)))
    (by
      intro a ha
      have := (List.mem_filter.1 ha).2
      simpa [expiredComp] using this)
    (by
      intro a ha
      have := (List.mem_filter.1 ha).2
      simpa [expiredComp] using this)
    xs.length 0 xs.length (le_refl _) (Nat.zero_le _)
    (by
      rw [Nat.zero_add]
      exact List.length_filter_le _ _)
    (by rw [← hs, Nat.zero_add])
  rw [← hs] at key
  exact key

/-- Two entries neither of which is below the other are equal. -/
theorem entry_eq_of_not_lt {a b : Entry} (h1 : ¬ entryLt a b) (h2 : ¬ entryLt b a) : a = b := by
  unfold entryLt at h1 h2
  have hk : a.1 = b.1 := by
    rcases lt_trichotomy a.1 b.1 with h | h | h
    · exact absurd (Or.inl h) h1
    · exact h
    · exact absurd (Or.inl h) h2
  have hp : a.2 = b.2 := by
    rcases Nat.lt_trichotomy a.2 b.2 with h | h | h
    · exact absurd (Or.inr ⟨hk, h⟩) h1
    · exact h
    · exact absurd (Or.inr ⟨hk.symm, h⟩) h2
  exact Prod.ext hk hp

/-- No entry is below itself. -/
theorem entryLt_irrefl (a : Entry) : ¬ entryLt a a := by
  unfold entryLt
  intro h
  rcases h with h | ⟨_, h⟩
  · exact lt_irrefl _ h
  · exact Nat.lt_irrefl _ h

/-- The set order is transitive. -/
theorem entryLt_trans {a b c : Entry} (h1 : entryLt a b) (h2 : entryLt b c) : entryLt a c := by
  unfold entryLt at *
  rcases h1 with h1 | ⟨h1, h1'⟩ <;> rcases h2 with h2 | ⟨h2, h2'⟩
  · exact Or.inl (lt_trans h1 h2)
  · exact Or.inl (h2 ▸ h1)
  · exact Or.inl (h1 ▸ h2)
  · exact Or.inr ⟨h1.trans h2, Nat.lt_trans h1' h2'⟩

/-- The set order is asymmetric. -/
theorem entryLt_asymm {a b : Entry} (h1 : entryLt a b) (h2 : entryLt b a) : False :=
  entryLt_irrefl a (entryLt_trans h1 h2)

/-- After `insert` the set holds the new entry and the entries it held. -/
theorem mem_setInsert (e x : Entry) (xs : List Entry) :
    x ∈ (setInsert e xs).1 ↔ x = e ∨ x ∈ xs := by
  induction xs with
  | nil => simp [setInsert]
  | cons y ys ih =>
    unfold setInsert
    by_cases h1 : entryLt e y
    · simp [h1]
    · by_cases h2 : entryLt y e
      · simp only [h1, h2, if_false, if_true, List.mem_cons, ih]
        tauto
      · have := entry_eq_of_not_lt h1 h2
        subst this
        simp only [h1, if_false, List.mem_cons]
        tauto

/-- An entry that is not in the set is inserted. -/
theorem setInsert_snd_of_not_mem (e : Entry) (xs : List Entry) (h : e ∉ xs) :
    (setInsert e xs).2 = true := by
  induction xs with
  | nil => simp [setInsert]
  | cons y ys ih =>
    unfold setInsert
    by_cases h1 : entryLt e y
    · simp [h1]
    · by_cases h2 : entryLt y e
      · simp only [h1, h2, if_false, if_true]
        exact ih (fun hm => h (List.mem_cons_of_mem _ hm))
      · exact absurd (entry_eq_of_not_lt h1 h2 ▸ List.mem_cons_self _ _) h

/-- An entry that is in an ascending set is not inserted again. -/
theorem setInsert_snd_of_mem (e : Entry) (xs : List Entry) (hs : xs.Pairwise entryLt)
    (h : e ∈ xs) : (setInsert e xs).2 = false := by
  induction xs with
  | nil => cases h
  | cons y ys ih =>
    rw [List.pairwise_cons] at hs
    unfold setInsert
    rcases List.mem_cons.1 h with rfl | hm
    · simp [entryLt_irrefl]
    · have hlt := hs.1 e hm
      have h1 : ¬ entryLt e y := fun h' => entryLt_asymm h' hlt
      simp only [h1, hlt, if_false, if_true]
      exact ih hs.2 hm

/-- The member `insert` keeps the set ascending. -/
theorem setInsert_sorted (e : Entry) (xs : List Entry) (hs : xs.Pairwise entryLt) :
    (setInsert e xs).1.Pairwise entryLt := by
  induction xs with
  | nil => simp [setInsert]
  | cons y ys ih =>
    have hs' := List.pairwise_cons.1 hs
    unfold setInsert
    by_cases h1 : entryLt e y
    · simp only [h1, if_true]
      refine List.pairwise_cons.2 ⟨?_, hs⟩
      intro a ha
      rcases List.mem_cons.1 ha with rfl | ha
      · exact h1
      · exact entryLt_trans h1 (hs'.1 a ha)
    · by_cases h2 : entryLt y e
      · simp only [h1, h2, if_false, if_true]
        refine List.pairwise_cons.2 ⟨?_, ih hs'.2⟩
        intro a ha
        rcases (mem_setInsert e a ys).1 ha with rfl | ha
        · exact h2
        · exact hs'.1 a ha
      · simp only [h1, h2, if_false]
        exact hs

/-- An ascending set has no entry twice. -/
theorem sorted_nodup (xs : List Entry) (hs : xs.Pairwise entryLt) : xs.Nodup :=
  List.Pairwise.imp (fun {a b} (hab : entryLt a b) (heq : a = b) =>
    entryLt_irrefl a (by rw [← heq] at hab; exact hab)) hs

/-- The member `erase` removes exactly one entry when the key is in an
ascending set. -/
theorem setErase_count (e : Entry) (xs : List Entry) (hs : xs.Pairwise entryLt) (h : e ∈ xs) :
    (setErase e xs).2 = 1 := by
  have key : (xs.filter (fun x => decide (x ≠ e))).length + 1 = xs.length := by
    induction xs with
    | nil => cases h
    | cons y ys ih =>
      rw [List.pairwise_cons] at hs
      by_cases hy : y = e
      · subst hy
        have hall : ∀ a ∈ ys, decide (a ≠ y) = true := by
          intro a ha
          have hlt := hs.1 a ha
          have : a ≠ y := fun h' => entryLt_irrefl y (by rw [h'] at hlt; exact hlt)
          simpa using this
        have hf : (y :: ys).filter (fun x => decide (x ≠ y)) = ys := by
          rw [List.filter_cons]
          simp only [ne_eq, not_true_eq_false, decide_False, Bool.false_eq_true, if_false]
          exact List.filter_eq_self.2 hall
        rw [hf, List.length_cons]
      · have hm : e ∈ ys := by
          rcases List.mem_cons.1 h with h' | h'
          · exact absurd h'.symm hy
          · exact h'
        have hf : (y :: ys).filter (fun x => decide (x ≠ e))
            = y :: ys.filter (fun x => decide (x ≠ e)) := by
          rw [List.filter_cons]
          simp [hy]
        rw [hf, List.length_cons, List.length_cons, ih hs.2 hm]
  unfold setErase
  simp only
  omega

/-- In an ascending set an entry stands before every entry above it. -/
theorem sorted_split {xs : List Entry} (hs : xs.Pairwise entryLt) {a b : Entry}
    (ha : a ∈ xs) (hb : b ∈ xs) (hab : entryLt a b) :
    ∃ l1 l2 l3, xs = l1 ++ a :: (l2 ++ b :: l3) := by
  obtain ⟨l1, r, rfl⟩ := List.append_of_mem ha
  rw [List.pairwise_append] at hs
  rcases List.mem_append.1 hb with hb | hb
  · exact absurd (hs.2.2 b hb a (List.mem_cons_self _ _)) (fun h => entryLt_asymm hab h)
  · rcases List.mem_cons.1 hb with rfl | hb
    · exact absurd hab (entryLt_irrefl _)
    · obtain ⟨l2, l3, rfl⟩ := List.append_of_mem hb
      exact ⟨l1, l2, l3, rfl⟩

/-- Taking, dropping and indexing at the length of the left part. -/
theorem split_at_left (xs l1 l2 : List Entry) (h : xs = l1 ++ l2) :
    xs.take l1.length = l1 ∧ xs.drop l1.length = l2 ∧ xs[l1.length]? = l2[0]? := by
  subst h
  refine ⟨List.take_left _ _, List.drop_left _ _, ?_⟩
  rw [List.getElem?_append_right (le_refl _), Nat.sub_self]

/-- On a set in ascending order `getExpired` passes its assertion, returns the
entries due at `now` and leaves the others. -/
theorem getExpired_eq (s : TimerQueue) (now : Timestamp) (h : s.timers_.Pairwise entryLt) :
    s.getExpired now = .ok (s.timers_.filter (fun e => decide (e.1 ≤ now)),
      { s with timers_ := s.timers_.filter (fun e => !decide (e.1 ≤ now)) }) := by
  have hs := due_split now s.timers_ (h.imp (fun hab => entryLt_fst_le hab))
  have hlb := lowerBound_due now 0 s.timers_ h
  obtain ⟨htake, hdrop, hget⟩ := split_at_left s.timers_ _ _ hs
  unfold TimerQueue.getExpired
  simp only [hlb, htake, hdrop, hget]
  cases hrest : s.timers_.filter (fun e => !decide (e.1 ≤ now)) with
  | nil =>
    have hlen : (s.timers_.filter (fun e => decide (e.1 ≤ now))).length = s.timers_.length := by
      conv_rhs => rw [hs]
      rw [hrest, List.append_nil]
    simp [hlen]
  | cons e rest =>
    have he : e ∈ s.timers_.filter (fun e => !decide (e.1 ≤ now)) := by
      rw [hrest]; exact List.mem_cons_self _ _
    have hlt : now < e.1 := by
      have := (List.mem_filter.1 he).2
      simpa using this
    simp [hlt]

/-! ## The operations, one by one -/

/-- What a successful `insert` did. -/
theorem insert_ok {s : TimerQueue} {timer : TimerPtr} {r : Bool × TimerQueue}
    (h : s.insert timer = .ok r) :
    ∃ t, s.heap timer = some t ∧ (setInsert (t.expiration, timer) s.timers_).2 = true ∧
      r.2 = { s with timers_ := (setInsert (t.expiration, timer) s.timers_).1 } ∧
      r.1 = (match s.timers_ with
        | [] => true
        | it :: _ => decide (t.expiration < it.1)) := by
  unfold TimerQueue.insert at h
  cases ht : s.heap timer with
  | none => simp [ht] at h
  | some t =>
    simp only [ht] at h
    by_cases hr : (setInsert (t.expiration, timer) s.timers_).2 = true
    · simp only [hr, if_true, Except.ok.injEq] at h
      subst h
      exact ⟨t, rfl, hr, rfl, rfl⟩
    · simp [hr] at h

/-- The method `insert` succeeds on a timer whose entry is not in the set. -/
theorem insert_eq {s : TimerQueue} {timer : TimerPtr} {t : Timer}
    (ht : s.heap timer = some t) (hn : (t.expiration, timer) ∉ s.timers_) :
    s.insert timer = .ok ((match s.timers_ with
        | [] => true
        | it :: _ => decide (t.expiration < it.1)),
      { s with timers_ := (setInsert (t.expiration, timer) s.timers_).1 }) := by
  unfold TimerQueue.insert
  simp only [ht, setInsert_snd_of_not_mem _ _ hn, if_true]

/-- What a successful `addTimerInLoop` did. -/
theorem addTimerInLoop_ok {s s' : TimerQueue} {timer : TimerPtr}
    (h : s.addTimerInLoop timer = .ok s') :
    ∃ t, s.heap timer = some t ∧ (setInsert (t.expiration, timer) s.timers_).2 = true ∧
      s'.heap = s.heap ∧ s'.numCreated = s.numCreated ∧
      s'.timers_ = (setInsert (t.expiration, timer) s.timers_).1 ∧
      s'.cancelingTimers_ = s.cancelingTimers_ ∧
      s'.callingExpiredTimers_ = s.callingExpiredTimers_ ∧
      s'.expired = s.expired ∧ s'.ran = s.ran ∧
      s'.timerfd_ = (if (match s.timers_ with
          | [] => true
          | it :: _ => decide (t.expiration < it.1)) = true
        then some t.expiration else s.timerfd_) := by
  unfold TimerQueue.addTimerInLoop at h
  cases hi : s.insert timer with
  | error f => simp [hi] at h
  | ok r =>
    obtain ⟨t, ht, hr, hs, hb⟩ := insert_ok hi
    obtain ⟨b, s1⟩ := r
    simp only at hs hb
    subst hs
    simp only [hi] at h
    refine ⟨t, ht, hr, ?_⟩
    by_cases hbt : b = true
    · simp only [hbt, if_true, ht] at h
      injection h with h
      subst h
      rw [← hb, hbt]
      simp [TimerQueue.resetTimerfd]
    · simp only [hbt, if_false] at h
      injection h with h
      subst h
      rw [← hb]
      simp [hbt]

/-- What a successful `addTimer` did. -/
theorem addTimer_ok {s s' : TimerQueue} {ptr : TimerPtr} {when : Timestamp} {interval : Int}
    (h : s.addTimer ptr when interval = .ok s') :
    ptr ≠ 0 ∧ s.heap ptr = none ∧ (setInsert (when, ptr) s.timers_).2 = true ∧
      s'.heap = (fun q => if q = ptr then some ⟨when, interval, s.numCreated + 1⟩ else s.heap q) ∧
      s'.numCreated = s.numCreated + 1 ∧
      s'.timers_ = (setInsert (when, ptr) s.timers_).1 ∧
      s'.cancelingTimers_ = s.cancelingTimers_ ∧
      s'.callingExpiredTimers_ = s.callingExpiredTimers_ ∧
      s'.expired = s.expired ∧ s'.ran = s.ran := by
  unfold TimerQueue.addTimer at h
  by_cases hp : ptr = 0 ∨ (s.heap ptr).isSome = true
  · simp [hp] at h
  · rw [if_neg hp] at h
    obtain ⟨t, ht, hr, hheap, hnum, htim, hcan, hcal, hexp, hran, _⟩ := addTimerInLoop_ok h
    have hp0 : ptr ≠ 0 := fun h0 => hp (Or.inl h0)
    have hnone : s.heap ptr = none := by
      cases hh : s.heap ptr with
      | none => rfl
      | some x => exact absurd (Or.inr (by simp [hh])) hp
    simp only [TimerQueue.store, if_true, Option.some.injEq] at ht
    subst ht
    exact ⟨hp0, hnone, hr, hheap, hnum, htim, hcan, hcal, hexp, hran⟩

/-- The weak reference of a handle locks when an owner keeps the timer
alive. -/
theorem lock_alive {s : TimerQueue} {timerId : TimerId}
    (h : timerId.value_ ∈ s.owned ∨ timerId.value_ ∈ s.held) :
    s.lock timerId = some timerId.value_ := by
  unfold TimerQueue.lock
  rw [if_pos h]

/-- The weak reference of a handle does not lock when no owner is left. -/
theorem lock_dead {s : TimerQueue} {timerId : TimerId}
    (h : ¬ (timerId.value_ ∈ s.owned ∨ timerId.value_ ∈ s.held)) :
    s.lock timerId = none := by
  unfold TimerQueue.lock
  rw [if_neg h]

/-- A timer a waiting task keeps alive has its object, and the task is in the
queue of the loop. -/
theorem mem_held {s : TimerQueue} {p : TimerPtr} :
    p ∈ s.held ↔ LoopTask.addTimerInLoop p ∈ s.queued ∧ (s.heap p).isSome = true := by
  unfold TimerQueue.held
  rw [List.mem_filterMap]
  constructor
  · rintro ⟨task, hq, ht⟩
    cases task with
    | addTimerInLoop timer =>
      by_cases hh : (s.heap timer).isSome = true
      · simp only [hh, if_true] at ht
        injection ht with ht
        subst ht
        exact ⟨hq, hh⟩
      · simp [hh] at ht
    | cancelInLoop timerId => simp at ht
  · rintro ⟨hq, hh⟩
    exact ⟨_, hq, by simp [hh]⟩

/-- What a successful `cancelInLoop` did: nothing, or it erased the entry of
the timer from `timers_`, or, inside an expiry pass, it put the entry of a
timer that is not pending into `cancelingTimers_`. -/
theorem cancelInLoop_ok {s s' : TimerQueue} {timerId : TimerId}
    (h : s.cancelInLoop timerId = .ok s') :
    s' = s ∨
    (∃ t, (timerId.value_ ∈ s.owned ∨ timerId.value_ ∈ s.held) ∧
      s.heap timerId.value_ = some t ∧
      (t.expiration, timerId.value_) ∈ s.timers_ ∧
      s' = { s with timers_ :=
        s.timers_.filter (fun x => decide (x ≠ (t.expiration, timerId.value_))) }) ∨
    (∃ t, (timerId.value_ ∈ s.owned ∨ timerId.value_ ∈ s.held) ∧
      s.heap timerId.value_ = some t ∧
      (t.expiration, timerId.value_) ∉ s.timers_ ∧ s.callingExpiredTimers_ = true ∧
      s' = { s with cancelingTimers_ :=
        (setInsert (t.expiration, timerId.value_) s.cancelingTimers_).1 }) := by
  unfold TimerQueue.cancelInLoop at h
  by_cases ho : timerId.value_ ∈ s.owned ∨ timerId.value_ ∈ s.held
  · rw [lock_alive ho] at h
    cases ht : s.heap timerId.value_ with
    | none => simp [ht] at h
    | some t =>
      simp only [ht] at h
      by_cases hm : (t.expiration, timerId.value_) ∈ s.timers_
      · simp only [hm, if_true] at h
        by_cases hn : (setErase (t.expiration, timerId.value_) s.timers_).2 = 1
        · simp only [hn, if_true] at h
          injection h with h
          exact Or.inr (Or.inl ⟨t, ho, rfl, hm, by rw [← h]; rfl⟩)
        · simp [hn] at h
      · simp only [hm, if_false] at h
        by_cases hc : s.callingExpiredTimers_ = true
        · rw [if_pos hc] at h
          injection h with h
          exact Or.inr (Or.inr ⟨t, ho, rfl, hm, hc, h.symm⟩)
        · rw [if_neg hc] at h
          injection h with h
          exact Or.inl h.symm
  · rw [lock_dead ho] at h
    injection h with h
    exact Or.inl h.symm

/-- What a successful `getExpired` did: it cut `timers_` in two. -/
theorem getExpired_ok {s : TimerQueue} {now : Timestamp} {r : List Entry × TimerQueue}
    (h : s.getExpired now = .ok r) :
    ∃ n, r.1 = s.timers_.take n ∧ r.2 = { s with timers_ := s.timers_.drop n } := by
  unfold TimerQueue.getExpired at h
  simp only at h
  split at h
  · injection h with h
    exact ⟨_, by rw [← h], by rw [← h]⟩
  · cases h

/-! ## What the calls of a callback leave alone -/

/-- A call of a callback changes neither the record of callbacks run, nor the
vector `expired`, nor the reentrancy flag. -/
theorem call_frame {s s' : TimerQueue} {c : Call} (h : s.call c = .ok s') :
    s'.ran = s.ran ∧ s'.expired = s.expired ∧
      s'.callingExpiredTimers_ = s.callingExpiredTimers_ := by
  cases c with
  | addTimer ptr when interval =>
    obtain ⟨_, _, _, _, _, _, _, hcal, hexp, hran⟩ := addTimer_ok h
    exact ⟨hran, hexp, hcal⟩
  | cancel timerId =>
    rcases cancelInLoop_ok h with h | ⟨t, _, _, _, h⟩ | ⟨t, _, _, _, _, h⟩ <;> subst h <;>
      exact ⟨rfl, rfl, rfl⟩

/-- A property every call keeps is kept by the calls of a callback. -/
theorem calls_keep (P : TimerQueue → Prop)
    (hcall : ∀ s c s', P s → s.call c = .ok s' → P s') :
    ∀ (cs : List Call) (s s' : TimerQueue), P s → TimerQueue.calls cs s = .ok s' → P s' := by
  intro cs
  induction cs with
  | nil =>
    intro s s' hP h
    simp only [TimerQueue.calls] at h
    injection h with h
    exact h ▸ hP
  | cons c cs ih =>
    intro s s' hP h
    simp only [TimerQueue.calls] at h
    cases hc : s.call c with
    | error f => simp [hc] at h
    | ok s1 =>
      simp only [hc] at h
      exact ih s1 s' (hcall s c s1 hP hc) h

/-- A property that every call keeps and that does not look at the record of
callbacks run is kept by the loop of `handleRead`. -/
theorem runExpired_keep (P : TimerQueue → Prop)
    (hcall : ∀ s c s', P s → s.call c = .ok s' → P s')
    (hran : ∀ (s : TimerQueue) (l : List TimerPtr), P s → P { s with ran := l })
    (cbs : TimerPtr → List Call) :
    ∀ (es : List Entry) (s s' : TimerQueue), P s →
      TimerQueue.runExpired cbs es s = .ok s' → P s' := by
  intro es
  induction es with
  | nil =>
    intro s s' hP h
    simp only [TimerQueue.runExpired] at h
    injection h with h
    exact h ▸ hP
  | cons e es ih =>
    intro s s' hP h
    simp only [TimerQueue.runExpired] at h
    cases hr : s.run e.2 (cbs e.2) with
    | error f => simp [hr] at h
    | ok s1 =>
      simp only [hr] at h
      exact ih s1 s' (calls_keep P hcall _ _ _ (hran s _ hP) hr) h

/-- The calls of a callback change neither the record of callbacks run, nor
the vector `expired`, nor the reentrancy flag. -/
theorem calls_frame {cs : List Call} {s s' : TimerQueue} (h : TimerQueue.calls cs s = .ok s') :
    s'.ran = s.ran ∧ s'.expired = s.expired ∧
      s'.callingExpiredTimers_ = s.callingExpiredTimers_ :=
  calls_keep (fun x => x.ran = s.ran ∧ x.expired = s.expired ∧
      x.callingExpiredTimers_ = s.callingExpiredTimers_)
    (fun a c b hP hc => by
      obtain ⟨h1, h2, h3⟩ := call_frame hc
      exact ⟨h1.trans hP.1, h2.trans hP.2.1, h3.trans hP.2.2⟩)
    cs s s' ⟨rfl, rfl, rfl⟩ h

/-- The loop of `handleRead` invokes the callbacks of the timers of `expired`
in the order of the vector, and nothing else is invoked meanwhile. -/
theorem runExpired_ran (cbs : TimerPtr → List Call) :
    ∀ (es : List Entry) (s s' : TimerQueue), TimerQueue.runExpired cbs es s = .ok s' →
      s'.ran = s.ran ++ es.map Prod.snd := by
  intro es
  induction es with
  | nil =>
    intro s s' h
    simp only [TimerQueue.runExpired] at h
    injection h with h
    simp [← h]
  | cons e es ih =>
    intro s s' h
    simp only [TimerQueue.runExpired] at h
    cases hr : s.run e.2 (cbs e.2) with
    | error f => simp [hr] at h
    | ok s1 =>
      simp only [hr] at h
      have h1 := (calls_frame hr).1
      rw [ih s1 s' h, h1]
      simp

/-- The loop of `reset` changes only the timer objects and `timers_`. -/
theorem resetLoop_frame (now : Timestamp) :
    ∀ (es : List Entry) (s s' : TimerQueue), TimerQueue.resetLoop now es s = .ok s' →
      s'.ran = s.ran ∧ s'.expired = s.expired ∧
      s'.callingExpiredTimers_ = s.callingExpiredTimers_ ∧
      s'.cancelingTimers_ = s.cancelingTimers_ ∧ s'.timerfd_ = s.timerfd_ ∧
      s'.numCreated = s.numCreated := by
  intro es
  induction es with
  | nil =>
    intro s s' h
    simp only [TimerQueue.resetLoop] at h
    injection h with h
    subst h
    exact ⟨rfl, rfl, rfl, rfl, rfl, rfl⟩
  | cons e es ih =>
    intro s s' h
    simp only [TimerQueue.resetLoop] at h
    cases ht : s.heap e.2 with
    | none => simp [ht] at h
    | some t =>
      simp only [ht] at h
      split at h
      · cases hi : (s.store e.2 (t.restart now)).insert e.2 with
        | error f => simp [hi] at h
        | ok r =>
          simp only [hi] at h
          obtain ⟨t', _, _, hr, _⟩ := insert_ok hi
          have := ih r.2 s' h
          rw [hr] at this
          exact this
      · exact ih s s' h

/-- The method `reset` changes only the timer objects, `timers_` and the
deadline of the timerfd. -/
theorem reset_frame {ts : TimestampDecl} {s s' : TimerQueue} {es : List Entry} {now : Timestamp}
    (h : TimerQueue.reset ts s es now = .ok s') :
    s'.ran = s.ran ∧ s'.expired = s.expired ∧
      s'.callingExpiredTimers_ = s.callingExpiredTimers_ ∧
      s'.cancelingTimers_ = s.cancelingTimers_ ∧ s'.numCreated = s.numCreated := by
  unfold TimerQueue.reset at h
  cases hl : TimerQueue.resetLoop now es s with
  | error f => simp [hl] at h
  | ok s1 =>
    simp only [hl] at h
    obtain ⟨h1, h2, h3, h4, _, h6⟩ := resetLoop_frame now es s s1 hl
    cases hn : TimerQueue.nextExpire ts s1 with
    | error f => simp [hn] at h
    | ok n =>
      simp only [hn] at h
      split at h <;> injection h with h <;> subst h <;>
        exact ⟨h1, h2, h3, h4, h6⟩

/-- The steps of a successful `handleRead`: the cut of `timers_`, the state
after the callbacks and the state after `reset`. -/
theorem handleRead_ok {ts : TimestampDecl} {s s' : TimerQueue} {now : Timestamp}
    {cbs : TimerPtr → List Call} (h : TimerQueue.handleRead ts s now cbs = .ok s') :
    ∃ n s2 s3, s.getExpired now = .ok (s.timers_.take n, { s with timers_ := s.timers_.drop n }) ∧
      TimerQueue.runExpired cbs (s.timers_.take n)
        { s with timers_ := s.timers_.drop n, callingExpiredTimers_ := true,
                 cancelingTimers_ := [], expired := s.timers_.take n } = .ok s2 ∧
      TimerQueue.reset ts { s2 with callingExpiredTimers_ := false } (s.timers_.take n) now
        = .ok s3 ∧
      s' = { s3 with expired := [] } := by
  unfold TimerQueue.handleRead at h
  cases hg : s.getExpired now with
  | error f => simp [hg] at h
  | ok r =>
    obtain ⟨n, hr1, hr2⟩ := getExpired_ok hg
    obtain ⟨es, s1⟩ := r
    simp only at hr1 hr2
    subst hr1 hr2
    simp only [hg] at h
    cases hrun : TimerQueue.runExpired cbs (s.timers_.take n)
        { s with timers_ := s.timers_.drop n, callingExpiredTimers_ := true,
                 cancelingTimers_ := [], expired := s.timers_.take n } with
    | error f => simp [hrun] at h
    | ok s2 =>
      simp only [hrun] at h
      cases hres : TimerQueue.reset ts { s2 with callingExpiredTimers_ := false }
          (s.timers_.take n) now with
      | error f => simp [hres] at h
      | ok s3 =>
        simp only [hres] at h
        injection h with h
        exact ⟨n, s2, s3, rfl, hrun, hres, h.symm⟩

/-- The callbacks one `handleRead` invokes are those of the entries
`getExpired` cut off, in the order of `timers_`. -/
theorem handleRead_ran {ts : TimestampDecl} {s s' : TimerQueue} {now : Timestamp}
    {cbs : TimerPtr → List Call} (h : TimerQueue.handleRead ts s now cbs = .ok s') :
    ∃ n, s.getExpired now = .ok (s.timers_.take n, { s with timers_ := s.timers_.drop n }) ∧
      s'.ran = s.ran ++ (s.timers_.take n).map Prod.snd := by
  obtain ⟨n, s2, s3, hg, hrun, hres, hs'⟩ := handleRead_ok h
  refine ⟨n, hg, ?_⟩
  have h1 := runExpired_ran cbs _ _ _ hrun
  have h2 := (reset_frame hres).1
  subst hs'
  simp only at h1 h2 ⊢
  rw [h2, h1]

/-! ## Timers that are gone stay gone -/

/-- A call of a callback keeps the timer objects there are, puts only entries
of new objects into `timers_`, and keeps `timers_` ascending. -/
theorem call_effect {s s' : TimerQueue} {c : Call} (h : s.call c = .ok s') :
    (∀ p t, s.heap p = some t → s'.heap p = some t) ∧
    (∀ x ∈ s'.timers_, x ∈ s.timers_ ∨ s.heap x.2 = none) ∧
    (s.timers_.Pairwise entryLt → s'.timers_.Pairwise entryLt) := by
  cases c with
  | addTimer ptr when interval =>
    obtain ⟨_, hnone, _, hheap, _, htim, _, _, _, _⟩ := addTimer_ok h
    refine ⟨?_, ?_, ?_⟩
    · intro p t hp
      rw [hheap]
      have : p ≠ ptr := fun hpp => by rw [hpp, hnone] at hp; cases hp
      simp only [this, if_false]
      exact hp
    · intro x hx
      rw [htim] at hx
      rcases (mem_setInsert _ _ _).1 hx with rfl | hx
      · exact Or.inr hnone
      · exact Or.inl hx
    · intro hs
      rw [htim]
      exact setInsert_sorted _ _ hs
  | cancel timerId =>
    rcases cancelInLoop_ok h with h | ⟨t, _, _, _, h⟩ | ⟨t, _, _, _, _, h⟩ <;> subst h
    · exact ⟨fun _ _ hp => hp, fun _ hx => Or.inl hx, fun hs => hs⟩
    · exact ⟨fun _ _ hp => hp, fun _ hx => Or.inl (List.mem_filter.1 hx).1,
        fun hs => hs.sublist (List.filter_sublist _)⟩
    · exact ⟨fun _ _ hp => hp, fun _ hx => Or.inl hx, fun hs => hs⟩

/-- A call of a callback does not bring back a timer that is gone. -/
theorem call_retired (T : TimerPtr) (s : TimerQueue) (c : Call) (s' : TimerQueue)
    (hJ : TimerQueue.Retired T s) (h : s.call c = .ok s') : TimerQueue.Retired T s' := by
  obtain ⟨hheap, hmem, _⟩ := call_effect h
  obtain ⟨_, hexp, _⟩ := call_frame h
  obtain ⟨h1, h2, h3⟩ := hJ
  refine ⟨?_, by rw [hexp]; exact h2, ?_⟩
  · intro hT
    obtain ⟨x, hx, hxT⟩ := List.mem_map.1 hT
    rcases hmem x hx with hx' | hx'
    · exact h1 (List.mem_map.2 ⟨x, hx', hxT⟩)
    · rw [hxT] at hx'
      exact h3 hx'
  · cases hh : s.heap T with
    | none => exact absurd hh h3
    | some t => rw [hheap T t hh]; simp

/-- The loop of `reset` puts only timers of `expired` into `timers_` and keeps
the timer objects there are. -/
theorem resetLoop_mem (now : Timestamp) :
    ∀ (es : List Entry) (s s' : TimerQueue), TimerQueue.resetLoop now es s = .ok s' →
      (∀ x ∈ s'.timers_, x ∈ s.timers_ ∨ x.2 ∈ es.map Prod.snd) ∧
      (∀ p, s.heap p ≠ none → s'.heap p ≠ none) := by
  intro es
  induction es with
  | nil =>
    intro s s' h
    simp only [TimerQueue.resetLoop] at h
    injection h with h
    subst h
    exact ⟨fun _ hx => Or.inl hx, fun _ hp => hp⟩
  | cons e es ih =>
    intro s s' h
    simp only [TimerQueue.resetLoop] at h
    cases ht : s.heap e.2 with
    | none => simp [ht] at h
    | some t =>
      simp only [ht] at h
      split at h
      · cases hi : (s.store e.2 (t.restart now)).insert e.2 with
        | error f => simp [hi] at h
        | ok r =>
          simp only [hi] at h
          obtain ⟨t', _, _, hr, _⟩ := insert_ok hi
          obtain ⟨ihm, ihh⟩ := ih r.2 s' h
          rw [hr] at ihm ihh
          refine ⟨?_, ?_⟩
          · intro x hx
            rcases ihm x hx with hx' | hx'
            · rcases (mem_setInsert _ _ _).1 hx' with rfl | hx''
              · exact Or.inr (by simp)
              · exact Or.inl hx''
            · exact Or.inr (List.mem_cons_of_mem _ hx')
          · intro p hp
            apply ihh
            simp only [TimerQueue.store]
            by_cases hpe : p = e.2
            · simp [hpe]
            · simp only [hpe, if_false]
              exact hp
      · obtain ⟨ihm, ihh⟩ := ih s s' h
        refine ⟨?_, ihh⟩
        intro x hx
        rcases ihm x hx with hx' | hx'
        · exact Or.inl hx'
        · exact Or.inr (List.mem_cons_of_mem _ hx')

/-- Restarting keeps the interval, and restarting twice at the same time is
restarting once. -/
theorem restart_facts (t : Timer) (now : Timestamp) :
    (t.restart now).interval = t.interval ∧ (t.restart now).repeat = t.repeat ∧
      (t.restart now).restart now = t.restart now ∧
      (t.repeat = true → (t.restart now).expiration = now + t.interval) := by
  unfold Timer.restart
  by_cases hr : t.repeat = true
  · have hr' : ({ t with expiration := now + t.interval } : Timer).repeat = true := hr
    simp [hr, hr']
  · simp [hr]

/-- What the loop of `reset` did.  The entries of `timers_` afterwards are the
entries before and, for each entry of `expired` whose timer repeats and that
is not in `cancelingTimers_`, the timer keyed by `now` plus its interval; the
objects of those timers are restarted and no other object changes; `timers_`
stays ascending. -/
theorem resetLoop_spec (now : Timestamp) :
    ∀ (es : List Entry) (s s' : TimerQueue), TimerQueue.resetLoop now es s = .ok s' →
      (∀ x, x ∈ s'.timers_ ↔ x ∈ s.timers_ ∨ ∃ e ∈ es, ∃ t, s.heap e.2 = some t ∧
          t.repeat = true ∧ e ∉ s.cancelingTimers_ ∧ x = (now + t.interval, e.2)) ∧
      (∀ p t, s.heap p = some t → t.repeat = true →
          (∃ e ∈ es, e.2 = p ∧ e ∉ s.cancelingTimers_) → s'.heap p = some (t.restart now)) ∧
      (∀ p, (¬ ∃ e ∈ es, e.2 = p ∧ e ∉ s.cancelingTimers_ ∧
          ∃ t, s.heap p = some t ∧ t.repeat = true) → s'.heap p = s.heap p) ∧
      (s.timers_.Pairwise entryLt → s'.timers_.Pairwise entryLt) := by
  intro es
  induction es with
  | nil =>
    intro s s' h
    simp only [TimerQueue.resetLoop] at h
    injection h with h
    subst h
    refine ⟨fun x => by simp, fun p t _ _ h => by simp at h, fun _ _ => rfl, fun hs => hs⟩
  | cons e es ih =>
    intro s s' h
    simp only [TimerQueue.resetLoop] at h
    cases ht : s.heap e.2 with
    | none => simp [ht] at h
    | some t =>
      simp only [ht] at h
      by_cases hc : (t.repeat && !(decide (e ∈ s.cancelingTimers_))) = true
      · rw [if_pos hc] at h
        have hrep : t.repeat = true := by
          simp only [Bool.and_eq_true] at hc; exact hc.1
        have hnc : e ∉ s.cancelingTimers_ := by
          simp only [Bool.and_eq_true, Bool.not_eq_true', decide_eq_false_iff_not] at hc
          exact hc.2
        cases hi : (s.store e.2 (t.restart now)).insert e.2 with
        | error f => simp [hi] at h
        | ok r =>
          simp only [hi] at h
          obtain ⟨t', ht', _, hr, _⟩ := insert_ok hi
          simp only [TimerQueue.store, if_true, Option.some.injEq] at ht'
          subst ht'
          obtain ⟨rf1, rf2, rf3, rf4⟩ := restart_facts t now
          obtain ⟨im, ih1, ih2, ihs⟩ := ih r.2 s' h
          rw [hr] at im ih1 ih2 ihs
          simp only [TimerQueue.store] at im ih1 ih2 ihs
          have hheq : ∀ (q : TimerPtr), q ≠ e.2 →
              (if q = e.2 then some (t.restart now) else s.heap q) = s.heap q :=
            fun q hq => by simp [hq]
          refine ⟨?_, ?_, ?_, ?_⟩
          · intro x
            rw [im x, mem_setInsert]
            constructor
            · rintro ((hx | hx) | ⟨e', he', t', ht', hr', hc', hx⟩)
              · exact Or.inr ⟨e, List.mem_cons_self _ _, t, ht, hrep, hnc,
                  by rw [hx, rf4 hrep]⟩
              · exact Or.inl hx
              · by_cases hq : e'.2 = e.2
                · rw [hq] at ht'
                  simp only [if_true, Option.some.injEq] at ht'
                  subst ht'
                  refine Or.inr ⟨e, List.mem_cons_self _ _, t, ht, hrep, hnc, ?_⟩
                  rw [hx, rf1, hq]
                · rw [hheq _ hq] at ht'
                  exact Or.inr ⟨e', List.mem_cons_of_mem _ he', t', ht', hr', hc', hx⟩
            · rintro (hx | ⟨e', he', t', ht', hr', hc', hx⟩)
              · exact Or.inl (Or.inr hx)
              · rcases List.mem_cons.1 he' with rfl | he''
                · rw [ht] at ht'
                  injection ht' with ht'
                  subst ht'
                  exact Or.inl (Or.inl (by rw [hx, rf4 hrep]))
                · by_cases hq : e'.2 = e.2
                  · rw [hq, ht] at ht'
                    injection ht' with ht'
                    subst ht'
                    exact Or.inl (Or.inl (by rw [hx, rf4 hrep, hq]))
                  · refine Or.inr ⟨e', he'', t', ?_, hr', hc', hx⟩
                    rw [hheq _ hq]; exact ht'
          · intro p u hu hur hex
            by_cases hq : p = e.2
            · subst hq
              rw [ht] at hu
              injection hu with hu
              subst hu
              by_cases hex' : ∃ e' ∈ es, e'.2 = e.2 ∧ e' ∉ s.cancelingTimers_
              · have := ih1 e.2 (t.restart now) (by simp) (by rw [rf2]; exact hrep) hex'
                rw [this, rf3]
              · have := ih2 e.2 (by
                  rintro ⟨e', he', h1, h2, _⟩
                  exact hex' ⟨e', he', h1, h2⟩)
                rw [this]; simp
            · obtain ⟨e', he', h1, h2⟩ := hex
              rcases List.mem_cons.1 he' with rfl | he''
              · exact absurd h1.symm hq
              · exact ih1 p u (by rw [hheq _ hq]; exact hu) hur ⟨e', he'', h1, h2⟩
          · intro p hp
            have hq : p ≠ e.2 := by
              intro hq
              exact hp ⟨e, List.mem_cons_self _ _, hq.symm, hnc, t, by rw [hq]; exact ht, hrep⟩
            rw [ih2 p, hheq _ hq]
            rintro ⟨e', he', h1, h2, u, hu, hur⟩
            rw [hheq _ hq] at hu
            exact hp ⟨e', List.mem_cons_of_mem _ he', h1, h2, u, hu, hur⟩
          · intro hs
            exact ihs (setInsert_sorted _ _ hs)
      · rw [if_neg hc] at h
        obtain ⟨im, ih1, ih2, ihs⟩ := ih s s' h
        have hskip : ¬ (t.repeat = true ∧ e ∉ s.cancelingTimers_) := by
          intro hh
          apply hc
          simp only [Bool.and_eq_true, Bool.not_eq_true', decide_eq_false_iff_not]
          exact hh
        refine ⟨?_, ?_, ?_, ihs⟩
        · intro x
          rw [im x]
          constructor
          · rintro (hx | ⟨e', he', rest⟩)
            · exact Or.inl hx
            · exact Or.inr ⟨e', List.mem_cons_of_mem _ he', rest⟩
          · rintro (hx | ⟨e', he', t', ht', hr', hc', hx⟩)
            · exact Or.inl hx
            · rcases List.mem_cons.1 he' with rfl | he''
              · rw [ht] at ht'
                injection ht' with ht'
                subst ht'
                exact absurd ⟨hr', hc'⟩ hskip
              · exact Or.inr ⟨e', he'', t', ht', hr', hc', hx⟩
        · intro p u hu hur hex
          obtain ⟨e', he', h1, h2⟩ := hex
          rcases List.mem_cons.1 he' with rfl | he''
          · rw [h1] at ht
            rw [ht] at hu
            injection hu with hu
            subst hu
            exact absurd ⟨hur, h2⟩ hskip
          · exact ih1 p u hu hur ⟨e', he'', h1, h2⟩
        · intro p hp
          apply ih2
          rintro ⟨e', he', rest⟩
          exact hp ⟨e', List.mem_cons_of_mem _ he', rest⟩

/-- What a successful `reset` did: the loop, then at most a new deadline. -/
theorem reset_ok {ts : TimestampDecl} {s s' : TimerQueue} {es : List Entry} {now : Timestamp}
    (h : TimerQueue.reset ts s es now = .ok s') :
    ∃ s1 n, TimerQueue.resetLoop now es s = .ok s1 ∧ TimerQueue.nextExpire ts s1 = .ok n ∧
      s' = (if ts.valid n = true then s1.resetTimerfd n else s1) := by
  unfold TimerQueue.reset at h
  cases hl : TimerQueue.resetLoop now es s with
  | error f => simp [hl] at h
  | ok s1 =>
    simp only [hl] at h
    cases hn : TimerQueue.nextExpire ts s1 with
    | error f => simp [hn] at h
    | ok n =>
      simp only [hn] at h
      refine ⟨s1, n, rfl, hn, ?_⟩
      split at h <;> injection h with h <;> subst h
      · rename_i hv; rw [if_pos hv]
      · rename_i hv; rw [if_neg hv]

/-- A pass of `handleRead` neither brings back a timer that is gone nor
invokes its callback. -/
theorem handleRead_retired (ts : TimestampDecl) (T : TimerPtr) (s s' : TimerQueue)
    (now : Timestamp) (cbs : TimerPtr → List Call) (hJ : TimerQueue.Retired T s)
    (h : TimerQueue.handleRead ts s now cbs = .ok s') :
    TimerQueue.Retired T s' ∧ ∃ l, s'.ran = s.ran ++ l ∧ T ∉ l := by
  obtain ⟨n, s2, s3, hg, hrun, hres, hs'⟩ := handleRead_ok h
  obtain ⟨h1, h2, h3⟩ := hJ
  have htake : T ∉ (s.timers_.take n).map Prod.snd := fun hT =>
    h1 ((List.map_take Prod.snd s.timers_ n ▸ hT : T ∈ (s.timers_.map Prod.snd).take n)
      |> List.mem_of_mem_take)
  have hdrop : T ∉ (s.timers_.drop n).map Prod.snd := fun hT =>
    h1 ((List.map_drop Prod.snd s.timers_ n ▸ hT : T ∈ (s.timers_.map Prod.snd).drop n)
      |> List.mem_of_mem_drop)
  have hJ2 : TimerQueue.Retired T s2 := by
    refine runExpired_keep (TimerQueue.Retired T) (call_retired T) (fun _ _ hP => hP) cbs
      _ _ _ ?_ hrun
    exact ⟨hdrop, htake, h3⟩
  obtain ⟨s4, m, hloop, _, hs3⟩ := reset_ok hres
  obtain ⟨hmem, hheap⟩ := resetLoop_mem now _ _ _ hloop
  have ht4 : T ∉ s4.timers_.map Prod.snd := by
    intro hT
    obtain ⟨x, hx, hxT⟩ := List.mem_map.1 hT
    rcases hmem x hx with hx' | hx'
    · exact hJ2.1 (List.mem_map.2 ⟨x, hx', hxT⟩)
    · rw [hxT] at hx'
      exact htake hx'
  have hh4 : s4.heap T ≠ none := hheap T hJ2.2.2
  have hJ3 : s3.timers_ = s4.timers_ ∧ s3.heap = s4.heap := by
    rw [hs3]
    split <;> exact ⟨rfl, rfl⟩
  refine ⟨?_, ?_⟩
  · subst hs'
    refine ⟨by simp only; rw [hJ3.1]; exact ht4, by simp, by simp only; rw [hJ3.2]; exact hh4⟩
  · obtain ⟨n', hg', hran⟩ := handleRead_ran h
    rw [hg] at hg'
    injection hg' with hg'
    have : s.timers_.take n = s.timers_.take n' := congrArg Prod.fst hg'
    exact ⟨_, hran, by rw [← this]; exact htake⟩

/-- No sequence of operations brings back a timer that is gone or invokes its
callback. -/
theorem steps_retired (ts : TimestampDecl) (T : TimerPtr) :
    ∀ (ops : List Op) (s s' : TimerQueue), TimerQueue.Retired T s →
      TimerQueue.steps ts ops s = .ok s' →
      TimerQueue.Retired T s' ∧ ∃ l, s'.ran = s.ran ++ l ∧ T ∉ l := by
  intro ops
  induction ops with
  | nil =>
    intro s s' hJ h
    simp only [TimerQueue.steps] at h
    injection h with h
    subst h
    exact ⟨hJ, [], by simp, by simp⟩
  | cons o os ih =>
    intro s s' hJ h
    simp only [TimerQueue.steps] at h
    cases ho : s.step ts o with
    | error f => simp [ho] at h
    | ok s1 =>
      simp only [ho] at h
      have key : TimerQueue.Retired T s1 ∧ ∃ l, s1.ran = s.ran ++ l ∧ T ∉ l := by
        cases o with
        | addTimer ptr when interval =>
          have hc : s.call (.addTimer ptr when interval) = .ok s1 := ho
          exact ⟨call_retired T s _ s1 hJ hc, [], by simp [(call_frame hc).1], by simp⟩
        | cancel timerId =>
          have hc : s.call (.cancel timerId) = .ok s1 := ho
          exact ⟨call_retired T s _ s1 hJ hc, [], by simp [(call_frame hc).1], by simp⟩
        | handleRead now cbs => exact handleRead_retired ts T s s1 now cbs hJ ho
      obtain ⟨hJ1, l1, hl1, hT1⟩ := key
      obtain ⟨hJ', l2, hl2, hT2⟩ := ih s1 s' hJ1 h
      refine ⟨hJ', l1 ++ l2, by rw [hl2, hl1, List.append_assoc], ?_⟩
      intro hm
      rcases List.mem_append.1 hm with hm | hm
      · exact hT1 hm
      · exact hT2 hm

/-! ## Cancelling right after adding -/

/-- With `timers_` ascending and the object of the timer there,
`cancelInLoop` returns without a failed assertion. -/
theorem cancelInLoop_total (s : TimerQueue) (T : TimerPtr) (t : Timer)
    (hs : s.timers_.Pairwise entryLt) (hT : s.heap T = some t) :
    ∃ s', s.cancelInLoop ⟨T⟩ = .ok s' := by
  unfold TimerQueue.cancelInLoop TimerQueue.lock
  by_cases ho : T ∈ s.owned ∨ T ∈ s.held
  · simp only [ho, if_true, hT]
    by_cases hm : (t.expiration, T) ∈ s.timers_
    · simp only [hm, if_true, setErase_count _ _ hs hm]
      exact ⟨_, rfl⟩
    · simp only [hm, if_false]
      by_cases hc : s.callingExpiredTimers_ = true
      · rw [if_pos hc]; exact ⟨_, rfl⟩
      · rw [if_neg hc]; exact ⟨_, rfl⟩
  · simp only [ho, if_false]
    exact ⟨_, rfl⟩

/-- While the timer at `T` is pending or cancelled, calls of callbacks keep its
object, keep `timers_` ascending, and leave no entry for `T` other than the
one keyed by its expiration. -/
theorem calls_pending (T : TimerPtr) (t : Timer) (cs : List Call) (s s' : TimerQueue)
    (hP : s.heap T = some t ∧ s.timers_.Pairwise entryLt ∧
      (∀ x ∈ s.timers_, x.2 = T → x = (t.expiration, T)) ∧ T ∉ s.expired.map Prod.snd)
    (h : TimerQueue.calls cs s = .ok s') :
    s'.heap T = some t ∧ s'.timers_.Pairwise entryLt ∧
      (∀ x ∈ s'.timers_, x.2 = T → x = (t.expiration, T)) ∧ T ∉ s'.expired.map Prod.snd := by
  refine calls_keep (fun z => z.heap T = some t ∧ z.timers_.Pairwise entryLt ∧
      (∀ x ∈ z.timers_, x.2 = T → x = (t.expiration, T)) ∧ T ∉ z.expired.map Prod.snd)
    ?_ cs s s' hP h
  intro a c b hPa hc
  obtain ⟨hheap, hmem, hsorted⟩ := call_effect hc
  obtain ⟨_, hexp, _⟩ := call_frame hc
  obtain ⟨h1, h2, h3, h4⟩ := hPa
  refine ⟨hheap T t h1, hsorted h2, ?_, by rw [hexp]; exact h4⟩
  intro x hx hxT
  rcases hmem x hx with hx' | hx'
  · exact h3 x hx' hxT
  · rw [hxT, h1] at hx'
    cases hx'

/-! ## Cancelling from inside a pass -/

/-- In a queue keyed by the expirations of its timers a timer has one entry. -/
theorem keys_unique {s : TimerQueue} (hk : s.KeysAgree) {a b : Entry}
    (ha : a ∈ s.timers_) (hb : b ∈ s.timers_) (h : a.2 = b.2) : a = b := by
  obtain ⟨ta, hta, ea⟩ := hk a ha
  obtain ⟨tb, htb, eb⟩ := hk b hb
  rw [h, htb] at hta
  injection hta with hta
  subst hta
  exact Prod.ext (ea.symm.trans eb) h

/-- In such a queue no timer is pending twice. -/
theorem ptr_nodup {s : TimerQueue} (hs : s.timers_.Pairwise entryLt) (hk : s.KeysAgree) :
    (s.timers_.map Prod.snd).Nodup := by
  unfold List.Nodup
  rw [List.pairwise_map]
  refine List.Pairwise.imp_of_mem ?_ hs
  intro a b ha hb hab heq
  have := keys_unique hk ha hb heq
  subst this
  exact entryLt_irrefl a hab

/-- Inside a pass, `cancelInLoop` on the handle of a timer that is in the
vector `expired` and not pending puts its entry into `cancelingTimers_`. -/
theorem cancelInLoop_firing (z : TimerQueue) (T : TimerPtr) (t : Timer)
    (h1 : z.heap T = some t) (h2 : T ∉ z.timers_.map Prod.snd)
    (h3 : z.callingExpiredTimers_ = true) (h4 : T ∈ z.expired.map Prod.snd) :
    z.cancelInLoop ⟨T⟩ = .ok { z with cancelingTimers_ :=
      (setInsert (t.expiration, T) z.cancelingTimers_).1 } := by
  have ho : T ∈ z.owned ∨ T ∈ z.held := by
    unfold TimerQueue.owned
    simp only [List.map_append, List.mem_append]
    exact Or.inl (Or.inr h4)
  have hm : (t.expiration, T) ∉ z.timers_ := fun hm => h2 (List.mem_map.2 ⟨_, hm, rfl⟩)
  unfold TimerQueue.cancelInLoop TimerQueue.lock
  simp only [ho, if_true, h1, hm, if_false]
  rw [if_pos h3]

/-- A call of a callback inside a pass keeps a firing timer firing and keeps
what is in `cancelingTimers_`. -/
theorem call_firing (T : TimerPtr) (t : Timer) (e : Entry) (z : TimerQueue) (c : Call)
    (z' : TimerQueue)
    (hM : z.heap T = some t ∧ T ∉ z.timers_.map Prod.snd ∧ z.callingExpiredTimers_ = true ∧
      T ∈ z.expired.map Prod.snd)
    (h : z.call c = .ok z') :
    (z'.heap T = some t ∧ T ∉ z'.timers_.map Prod.snd ∧ z'.callingExpiredTimers_ = true ∧
      T ∈ z'.expired.map Prod.snd) ∧
    (e ∈ z.cancelingTimers_ → e ∈ z'.cancelingTimers_) := by
  obtain ⟨hheap, hmem, _⟩ := call_effect h
  obtain ⟨_, hexp, hcal⟩ := call_frame h
  obtain ⟨h1, h2, h3, h4⟩ := hM
  refine ⟨⟨hheap T t h1, ?_, by rw [hcal]; exact h3, by rw [hexp]; exact h4⟩, ?_⟩
  · intro hT
    obtain ⟨x, hx, hxT⟩ := List.mem_map.1 hT
    rcases hmem x hx with hx' | hx'
    · exact h2 (List.mem_map.2 ⟨x, hx', hxT⟩)
    · rw [hxT, h1] at hx'
      cases hx'
  · intro he
    cases c with
    | addTimer ptr when interval =>
      obtain ⟨_, _, _, _, _, _, hcan, _⟩ := addTimer_ok h
      rw [hcan]; exact he
    | cancel timerId =>
      rcases cancelInLoop_ok h with h | ⟨u, _, _, _, h⟩ | ⟨u, _, _, _, _, h⟩ <;> subst h
      · exact he
      · exact he
      · exact (mem_setInsert _ _ _).2 (Or.inr he)

/-- The calls of a callback inside a pass, one of which cancels the firing
timer `T`, leave the entry of `T` in `cancelingTimers_`. -/
theorem calls_firing (T : TimerPtr) (t : Timer) :
    ∀ (cs : List Call) (z z' : TimerQueue),
      (z.heap T = some t ∧ T ∉ z.timers_.map Prod.snd ∧ z.callingExpiredTimers_ = true ∧
        T ∈ z.expired.map Prod.snd) →
      TimerQueue.calls cs z = .ok z' →
      (z'.heap T = some t ∧ T ∉ z'.timers_.map Prod.snd ∧ z'.callingExpiredTimers_ = true ∧
        T ∈ z'.expired.map Prod.snd) ∧
      ((t.expiration, T) ∈ z.cancelingTimers_ ∨ Call.cancel ⟨T⟩ ∈ cs →
        (t.expiration, T) ∈ z'.cancelingTimers_) := by
  intro cs
  induction cs with
  | nil =>
    intro z z' hM h
    simp only [TimerQueue.calls] at h
    injection h with h
    subst h
    refine ⟨hM, ?_⟩
    rintro (h | h)
    · exact h
    · cases h
  | cons c cs ih =>
    intro z z' hM h
    simp only [TimerQueue.calls] at h
    cases hc : z.call c with
    | error f => simp [hc] at h
    | ok z1 =>
      simp only [hc] at h
      obtain ⟨hM1, hkeep⟩ := call_firing T t (t.expiration, T) z c z1 hM hc
      obtain ⟨hM', hcan'⟩ := ih z1 z' hM1 h
      refine ⟨hM', ?_⟩
      rintro (hin | hin)
      · exact hcan' (Or.inl (hkeep hin))
      · rcases List.mem_cons.1 hin with hin | hin
        · subst hin
          have hc' : z.cancelInLoop ⟨T⟩ = .ok z1 := hc
          rw [cancelInLoop_firing z T t hM.1 hM.2.1 hM.2.2.1 hM.2.2.2] at hc'
          injection hc' with hc'
          apply hcan'
          left
          rw [← hc']
          exact (mem_setInsert _ _ _).2 (Or.inl rfl)
        · exact hcan' (Or.inr hin)

/-- The loop of `handleRead` over entries one of which belongs to the firing
timer `T`, whose callback cancels `T`, leaves the entry of `T` in
`cancelingTimers_`. -/
theorem runExpired_firing (cbs : TimerPtr → List Call) (T : TimerPtr) (t : Timer)
    (hcb : Call.cancel ⟨T⟩ ∈ cbs T) :
    ∀ (es : List Entry) (z z' : TimerQueue),
      (z.heap T = some t ∧ T ∉ z.timers_.map Prod.snd ∧ z.callingExpiredTimers_ = true ∧
        T ∈ z.expired.map Prod.snd) →
      TimerQueue.runExpired cbs es z = .ok z' →
      (z'.heap T = some t ∧ T ∉ z'.timers_.map Prod.snd ∧ z'.callingExpiredTimers_ = true ∧
        T ∈ z'.expired.map Prod.snd) ∧
      ((t.expiration, T) ∈ z.cancelingTimers_ ∨ T ∈ es.map Prod.snd →
        (t.expiration, T) ∈ z'.cancelingTimers_) := by
  intro es
  induction es with
  | nil =>
    intro z z' hM h
    simp only [TimerQueue.runExpired] at h
    injection h with h
    subst h
    refine ⟨hM, ?_⟩
    rintro (h | h)
    · exact h
    · cases h
  | cons e es ih =>
    intro z z' hM h
    simp only [TimerQueue.runExpired] at h
    cases hr : z.run e.2 (cbs e.2) with
    | error f => simp [hr] at h
    | ok z1 =>
      simp only [hr] at h
      obtain ⟨hM1, hcan1⟩ :=
        calls_firing T t (cbs e.2) { z with ran := z.ran ++ [e.2] } z1 hM hr
      obtain ⟨hM', hcan'⟩ := ih z1 z' hM1 h
      refine ⟨hM', ?_⟩
      rintro (hin | hin)
      · exact hcan' (Or.inl (hcan1 (Or.inl hin)))
      · rcases List.mem_cons.1 hin with hin | hin
        · rw [← hin] at hcan1
          exact hcan' (Or.inl (hcan1 (Or.inr hcb)))
        · exact hcan' (Or.inr hin)

/-! ## The method `reset` -/

/-- The loop of `reset` runs to its end when the timers of `expired` have
their objects, are pairwise distinct and are not pending. -/
theorem resetLoop_total (now : Timestamp) :
    ∀ (es : List Entry) (s : TimerQueue), (∀ x ∈ es, s.heap x.2 ≠ none) →
      (es.map Prod.snd).Nodup → (∀ x ∈ es, x.2 ∉ s.timers_.map Prod.snd) →
      ∃ s', TimerQueue.resetLoop now es s = .ok s' := by
  intro es
  induction es with
  | nil =>
    intro s _ _ _
    exact ⟨s, rfl⟩
  | cons e es ih =>
    intro s hheap hnd hdisj
    simp only [List.map_cons, List.nodup_cons] at hnd
    simp only [TimerQueue.resetLoop]
    cases ht : s.heap e.2 with
    | none => exact absurd ht (hheap e (List.mem_cons_self _ _))
    | some t =>
      simp only
      split
      · have ht0 : (s.store e.2 (t.restart now)).heap e.2 = some (t.restart now) := by
          simp [TimerQueue.store]
        have hn0 : ((t.restart now).expiration, e.2) ∉ (s.store e.2 (t.restart now)).timers_ :=
          fun hm => hdisj e (List.mem_cons_self _ _) (List.mem_map.2 ⟨_, hm, rfl⟩)
        rw [insert_eq ht0 hn0]
        simp only
        apply ih
        · intro x hx
          simp only [TimerQueue.store]
          by_cases hq : x.2 = e.2
          · simp [hq]
          · simp only [hq, if_false]
            exact hheap x (List.mem_cons_of_mem _ hx)
        · exact hnd.2
        · intro x hx hm
          obtain ⟨y, hy, hyx⟩ := List.mem_map.1 hm
          rcases (mem_setInsert _ _ _).1 hy with hy | hy
          · apply hnd.1
            rw [hy] at hyx
            simp only at hyx
            rw [hyx]
            exact List.mem_map.2 ⟨x, hx, rfl⟩
          · exact hdisj x (List.mem_cons_of_mem _ hx) (List.mem_map.2 ⟨y, hy, hyx⟩)
      · exact ih s (fun x hx => hheap x (List.mem_cons_of_mem _ hx)) hnd.2
          (fun x hx => hdisj x (List.mem_cons_of_mem _ hx))

/-- The method `reset` returns when, in addition, the pending timers have
their objects. -/
theorem reset_total (ts : TimestampDecl) (s : TimerQueue) (es : List Entry) (now : Timestamp)
    (hheap : ∀ x ∈ es, s.heap x.2 ≠ none) (hnd : (es.map Prod.snd).Nodup)
    (hdisj : ∀ x ∈ es, x.2 ∉ s.timers_.map Prod.snd)
    (hpend : ∀ x ∈ s.timers_, s.heap x.2 ≠ none) :
    ∃ s', TimerQueue.reset ts s es now = .ok s' := by
  obtain ⟨s1, h1⟩ := resetLoop_total now es s hheap hnd hdisj
  obtain ⟨hmem, _, _, _⟩ := resetLoop_spec now es s s1 h1
  obtain ⟨_, hkeep⟩ := resetLoop_mem now es s s1 h1
  have hn : ∃ m, TimerQueue.nextExpire ts s1 = .ok m := by
    unfold TimerQueue.nextExpire
    cases hl : s1.timers_ with
    | nil => exact ⟨_, rfl⟩
    | cons b rest =>
      simp only
      have hb : b ∈ s1.timers_ := by rw [hl]; exact List.mem_cons_self _ _
      have hbh : s1.heap b.2 ≠ none := by
        rcases (hmem b).1 hb with hb' | ⟨e', he', t', _, _, _, hbe⟩
        · exact hkeep _ (hpend b hb')
        · rw [hbe]
          exact hkeep _ (hheap e' he')
      cases hh : s1.heap b.2 with
      | none => exact absurd hh hbh
      | some u => exact ⟨_, rfl⟩
  obtain ⟨m, hm⟩ := hn
  unfold TimerQueue.reset
  simp only [h1, hm]
  split <;> exact ⟨_, rfl⟩

/-! ## The deadline `reset` leaves -/

/-- The loop of `reset` keeps `timers_` keyed by the expirations of the timers
when no timer of `expired` is pending. -/
theorem resetLoop_keys (now : Timestamp) (es : List Entry) (s s' : TimerQueue)
    (hk : s.KeysAgree) (hdisj : ∀ x ∈ es, x.2 ∉ s.timers_.map Prod.snd)
    (h : TimerQueue.resetLoop now es s = .ok s') : s'.KeysAgree := by
  obtain ⟨hmem, hre, hsame, _⟩ := resetLoop_spec now es s s' h
  intro x hx
  rcases (hmem x).1 hx with hx' | ⟨e, he, t, ht, hrep, hc, hxe⟩
  · obtain ⟨t, ht, hte⟩ := hk x hx'
    refine ⟨t, ?_, hte⟩
    rw [hsame x.2, ht]
    rintro ⟨e, he, he2, _⟩
    exact hdisj e he (by rw [he2]; exact List.mem_map.2 ⟨x, hx', rfl⟩)
  · refine ⟨t.restart now, ?_, ?_⟩
    · rw [hxe]
      exact hre e.2 t ht hrep ⟨e, he, rfl, hc⟩
    · rw [hxe]
      exact (restart_facts t now).2.2.2 hrep

/-! ## The method `cancelInLoop` -/

/-- Erasing an entry from an ascending set takes it out of its place and
leaves the entries before and after it as they are. -/
theorem filter_ne_of_sorted (e : Entry) (l1 l2 : List Entry)
    (hs : (l1 ++ e :: l2).Pairwise entryLt) :
    (l1 ++ e :: l2).filter (fun x => decide (x ≠ e)) = l1 ++ l2 ∧ e ∉ l1 ++ l2 := by
  have hnd := sorted_nodup _ hs
  have hnd' := List.nodup_append.1 hnd
  have hcons := List.nodup_cons.1 hnd'.2.1
  have h1 : e ∉ l1 := fun hin => hnd'.2.2 hin (List.mem_cons_self _ _)
  have h2 : e ∉ l2 := hcons.1
  refine ⟨?_, fun hm => (List.mem_append.1 hm).elim h1 h2⟩
  rw [List.filter_append, List.filter_cons]
  simp only [ne_eq, not_true_eq_false, decide_False, Bool.false_eq_true, if_false]
  rw [List.filter_eq_self.2, List.filter_eq_self.2]
  · intro a ha
    have : a ≠ e := fun h => h2 (h ▸ ha)
    simpa using this
  · intro a ha
    have : a ≠ e := fun h => h1 (h ▸ ha)
    simpa using this

/-! ## Well-formed queues -/

/-- Membership in `owned`, by the three owners. -/
theorem mem_owned {s : TimerQueue} {p : TimerPtr} :
    p ∈ s.owned ↔ p ∈ s.timers_.map Prod.snd ∨ p ∈ s.cancelingTimers_.map Prod.snd ∨
      p ∈ s.expired.map Prod.snd := by
  unfold TimerQueue.owned
  simp only [List.map_append, List.mem_append]
  tauto

/-- The empty queue is well-formed. -/
theorem empty_wf : TimerQueue.empty.WF := by
  refine ⟨List.Pairwise.nil, ?_, ?_, List.Pairwise.nil, ?_⟩
  · intro e he; cases he
  · intro p hp
    rw [mem_owned] at hp
    rcases hp with hp | hp | hp <;> cases hp
  · intro e he; cases he

/-- Well-formedness does not look at the record of callbacks run, the
reentrancy flag or the deadline of the timerfd. -/
theorem wf_congr {s z : TimerQueue} (h1 : z.heap = s.heap) (h2 : z.timers_ = s.timers_)
    (h3 : z.cancelingTimers_ = s.cancelingTimers_) (h4 : z.expired = s.expired)
    (hw : s.WF) : z.WF := by
  unfold TimerQueue.WF TimerQueue.KeysAgree TimerQueue.owned at *
  rw [h1, h2, h3, h4]
  exact hw

/-- A successful call of a callback keeps the queue well-formed. -/
theorem call_wf (s : TimerQueue) (c : Call) (s' : TimerQueue) (hw : s.WF)
    (h : s.call c = .ok s') : s'.WF := by
  obtain ⟨hs, hk, ho, hnd, hdisj⟩ := hw
  cases c with
  | addTimer ptr when interval =>
    obtain ⟨_, hnone, _, hheap, _, htim, hcan, _, hexp, _⟩ := addTimer_ok h
    have hne : ∀ q, s.heap q ≠ none → q ≠ ptr := fun q hq hqp => hq (hqp ▸ hnone)
    have hkeep : ∀ q, s.heap q ≠ none → s'.heap q = s.heap q := by
      intro q hq
      rw [hheap]
      simp [hne q hq]
    have hptr : s'.heap ptr = some ⟨when, interval, s.numCreated + 1⟩ := by
      rw [hheap]; simp
    refine ⟨by rw [htim]; exact setInsert_sorted _ _ hs, ?_, ?_, by rw [hexp]; exact hnd, ?_⟩
    · intro x hx
      rw [htim] at hx
      rcases (mem_setInsert _ _ _).1 hx with rfl | hx
      · exact ⟨_, hptr, rfl⟩
      · obtain ⟨t, ht, hte⟩ := hk x hx
        exact ⟨t, by rw [hkeep x.2 (by rw [ht]; simp)]; exact ht, hte⟩
    · intro p hp
      rw [mem_owned, htim, hcan, hexp] at hp
      have hold : p ∈ s.owned → s'.heap p ≠ none := fun hp' => by
        rw [hkeep p (ho p hp')]; exact ho p hp'
      rcases hp with hp | hp | hp
      · obtain ⟨x, hx, hxp⟩ := List.mem_map.1 hp
        rcases (mem_setInsert _ _ _).1 hx with rfl | hx
        · rw [← hxp, hptr]; simp
        · exact hold (mem_owned.2 (Or.inl (List.mem_map.2 ⟨x, hx, hxp⟩)))
      · exact hold (mem_owned.2 (Or.inr (Or.inl hp)))
      · exact hold (mem_owned.2 (Or.inr (Or.inr hp)))
    · intro e he hm
      rw [hexp] at he
      rw [htim] at hm
      obtain ⟨x, hx, hxe⟩ := List.mem_map.1 hm
      rcases (mem_setInsert _ _ _).1 hx with rfl | hx
      · exact hne e.2 (ho e.2 (mem_owned.2 (Or.inr (Or.inr (List.mem_map.2 ⟨e, he, rfl⟩)))))
          hxe.symm
      · exact hdisj e he (List.mem_map.2 ⟨x, hx, hxe⟩)
  | cancel timerId =>
    rcases cancelInLoop_ok h with h | ⟨t, _, _, _, h⟩ | ⟨t, hown, ht, _, _, h⟩ <;> subst h
    · exact ⟨hs, hk, ho, hnd, hdisj⟩
    · refine ⟨hs.sublist (List.filter_sublist _), ?_, ?_, hnd, ?_⟩
      · intro x hx
        exact hk x (List.mem_filter.1 hx).1
      · intro p hp
        apply ho
        rw [mem_owned] at hp ⊢
        rcases hp with hp | hp | hp
        · obtain ⟨x, hx, hxp⟩ := List.mem_map.1 hp
          exact Or.inl (List.mem_map.2 ⟨x, (List.mem_filter.1 hx).1, hxp⟩)
        · exact Or.inr (Or.inl hp)
        · exact Or.inr (Or.inr hp)
      · intro e he hm
        obtain ⟨x, hx, hxe⟩ := List.mem_map.1 hm
        exact hdisj e he (List.mem_map.2 ⟨x, (List.mem_filter.1 hx).1, hxe⟩)
    · refine ⟨hs, hk, ?_, hnd, hdisj⟩
      intro p hp
      rw [mem_owned] at hp
      rcases hp with hp | hp | hp
      · exact ho p (mem_owned.2 (Or.inl hp))
      · obtain ⟨x, hx, hxp⟩ := List.mem_map.1 hp
        rcases (mem_setInsert _ _ _).1 hx with rfl | hx
        · show s.heap p ≠ none
          rw [← hxp]
          show s.heap timerId.value_ ≠ none
          rw [ht]
          exact fun hcon => Option.noConfusion hcon
        · exact ho p (mem_owned.2 (Or.inr (Or.inl (List.mem_map.2 ⟨x, hx, hxp⟩))))
      · exact ho p (mem_owned.2 (Or.inr (Or.inr hp)))

/-- In a well-formed queue a call of a callback returns, provided an
`addTimer` creates its timer at a non-null address that is not in use. -/
theorem call_total (s : TimerQueue) (c : Call) (hw : s.WF)
    (hfresh : ∀ p ∈ allocs [c], p ≠ 0 ∧ s.heap p = none) :
    ∃ s', s.call c = .ok s' := by
  obtain ⟨hs, hk, ho, _, _⟩ := hw
  cases c with
  | addTimer ptr when interval =>
    obtain ⟨hp0, hnone⟩ := hfresh ptr (by simp [allocs])
    have hnm : (when, ptr) ∉ s.timers_ := by
      intro hm
      obtain ⟨t, ht, _⟩ := hk _ hm
      simp only at ht
      rw [hnone] at ht
      cases ht
    have hnot : ¬ (ptr = 0 ∨ (s.heap ptr).isSome = true) := by
      rintro (h | h)
      · exact hp0 h
      · rw [hnone] at h; cases h
    show ∃ s', s.addTimer ptr when interval = .ok s'
    unfold TimerQueue.addTimer
    rw [if_neg hnot]
    unfold TimerQueue.addTimerInLoop
    have ht0 : ({ s.store ptr ⟨when, interval, s.numCreated + 1⟩ with
        numCreated := s.numCreated + 1 } : TimerQueue).heap ptr
        = some ⟨when, interval, s.numCreated + 1⟩ := by
      simp [TimerQueue.store]
    rw [insert_eq ht0 hnm]
    simp only
    split
    · simp only [TimerQueue.store, if_true]; exact ⟨_, rfl⟩
    · exact ⟨_, rfl⟩
  | cancel timerId =>
    show ∃ s', s.cancelInLoop timerId = .ok s'
    by_cases hown : timerId.value_ ∈ s.owned ∨ timerId.value_ ∈ s.held
    · cases ht : s.heap timerId.value_ with
      | none =>
        rcases hown with hown | hown
        · exact absurd ht (ho _ hown)
        · have hh := (mem_held.1 hown).2
          rw [ht] at hh
          cases hh
      | some t => exact cancelInLoop_total s timerId.value_ t hs ht
    · unfold TimerQueue.cancelInLoop
      rw [lock_dead hown]
      exact ⟨_, rfl⟩

/-- The timer objects a call of a callback leaves absent: all that were
absent, but the one it creates. -/
theorem call_heap_none {s s' : TimerQueue} {c : Call} (h : s.call c = .ok s')
    (q : TimerPtr) (hq : s.heap q = none) (hn : q ∉ allocs [c]) : s'.heap q = none := by
  cases c with
  | addTimer ptr when interval =>
    obtain ⟨_, _, _, hheap, _⟩ := addTimer_ok h
    have : q ≠ ptr := fun hqp => hn (by simp [allocs, hqp])
    rw [hheap]
    simp [this, hq]
  | cancel timerId =>
    rcases cancelInLoop_ok h with h | ⟨t, _, _, _, h⟩ | ⟨t, _, _, _, _, h⟩ <;> subst h <;>
      exact hq

/-- The addresses of a first call and of the calls after it. -/
theorem allocs_cons (c : Call) (cs : List Call) : allocs (c :: cs) = allocs [c] ++ allocs cs := by
  cases c <;> simp [allocs]

/-- In a well-formed queue the calls of a callback return, provided they
create their timers at pairwise distinct non-null addresses that are not in
use; the queue stays well-formed and no other timer object appears. -/
theorem calls_total :
    ∀ (cs : List Call) (s : TimerQueue), s.WF → (allocs cs).Nodup →
      (∀ p ∈ allocs cs, p ≠ 0 ∧ s.heap p = none) →
      ∃ s', TimerQueue.calls cs s = .ok s' ∧ s'.WF ∧
        ∀ q, s.heap q = none → q ∉ allocs cs → s'.heap q = none := by
  intro cs
  induction cs with
  | nil =>
    intro s hw _ _
    exact ⟨s, rfl, hw, fun _ hq _ => hq⟩
  | cons c cs ih =>
    intro s hw hnd hfresh
    rw [allocs_cons] at hnd hfresh
    obtain ⟨hnd1, hnd2, hdj⟩ := List.nodup_append.1 hnd
    obtain ⟨s1, h1⟩ := call_total s c hw
      (fun p hp => hfresh p (List.mem_append_left _ hp))
    have hw1 := call_wf s c s1 hw h1
    obtain ⟨s', h', hw', hnone'⟩ := ih s1 hw1 hnd2 (by
      intro p hp
      refine ⟨(hfresh p (List.mem_append_right _ hp)).1, ?_⟩
      exact call_heap_none h1 p (hfresh p (List.mem_append_right _ hp)).2
        (fun hp1 => hdj hp1 hp))
    refine ⟨s', ?_, hw', ?_⟩
    · simp only [TimerQueue.calls, h1]
      exact h'
    · intro q hq hn
      rw [allocs_cons] at hn
      exact hnone' q (call_heap_none h1 q hq (fun h => hn (List.mem_append_left _ h)))
        (fun h => hn (List.mem_append_right _ h))

/-- In a well-formed queue the loop of `handleRead` runs to its end, provided
the callbacks create their timers at pairwise distinct non-null addresses
that are not in use; the queue stays well-formed. -/
theorem runExpired_total (cbs : TimerPtr → List Call) :
    ∀ (es : List Entry) (s : TimerQueue), s.WF → (passAllocs cbs es).Nodup →
      (∀ p ∈ passAllocs cbs es, p ≠ 0 ∧ s.heap p = none) →
      ∃ s', TimerQueue.runExpired cbs es s = .ok s' ∧ s'.WF := by
  intro es
  induction es with
  | nil =>
    intro s hw _ _
    exact ⟨s, rfl, hw⟩
  | cons e es ih =>
    intro s hw hnd hfresh
    simp only [passAllocs] at hnd hfresh
    obtain ⟨hnd1, hnd2, hdj⟩ := List.nodup_append.1 hnd
    have hw0 : ({ s with ran := s.ran ++ [e.2] } : TimerQueue).WF :=
      wf_congr rfl rfl rfl rfl hw
    obtain ⟨s1, h1, hw1, hnone1⟩ := calls_total (cbs e.2) _ hw0 hnd1
      (fun p hp => hfresh p (List.mem_append_left _ hp))
    obtain ⟨s', h', hw'⟩ := ih s1 hw1 hnd2 (by
      intro p hp
      refine ⟨(hfresh p (List.mem_append_right _ hp)).1, ?_⟩
      exact hnone1 p (hfresh p (List.mem_append_right _ hp)).2 (fun hp1 => hdj hp1 hp))
    refine ⟨s', ?_, hw'⟩
    simp only [TimerQueue.runExpired]
    have h1' : s.run e.2 (cbs e.2) = .ok s1 := h1
    rw [h1']
    exact h'

/-- The state in which `handleRead` starts its loop is well-formed. -/
theorem pass_start_wf (s : TimerQueue) (n : Nat) (hs : s.timers_.Pairwise entryLt)
    (hk : s.KeysAgree) :
    ({ s with timers_ := s.timers_.drop n, callingExpiredTimers_ := true,
              cancelingTimers_ := [], expired := s.timers_.take n } : TimerQueue).WF := by
  have hnd := ptr_nodup hs hk
  have hsplit : s.timers_.map Prod.snd
      = (s.timers_.take n).map Prod.snd ++ (s.timers_.drop n).map Prod.snd := by
    rw [← List.map_append, List.take_append_drop]
  rw [hsplit] at hnd
  obtain ⟨hnd1, _, hdj⟩ := List.nodup_append.1 hnd
  refine ⟨hs.sublist (List.drop_sublist _ _), ?_, ?_, hnd1, ?_⟩
  · intro x hx
    exact hk x (List.mem_of_mem_drop hx)
  · intro p hp
    rw [mem_owned] at hp
    have hin : p ∈ s.timers_.map Prod.snd := by
      rw [hsplit]
      rcases hp with hp | hp | hp
      · exact List.mem_append_right _ hp
      · cases hp
      · exact List.mem_append_left _ hp
    obtain ⟨x, hx, hxp⟩ := List.mem_map.1 hin
    obtain ⟨t, ht, _⟩ := hk x hx
    show s.heap p ≠ none
    rw [← hxp, ht]; simp
  · intro e he hm
    exact hdj (List.mem_map.2 ⟨e, he, rfl⟩) hm

/-- The loop of `handleRead` keeps the queue well-formed and the vector
`expired` as it is. -/
theorem runExpired_wf (cbs : TimerPtr → List Call) (es : List Entry) (s s' : TimerQueue)
    (hw : s.WF) (h : TimerQueue.runExpired cbs es s = .ok s') :
    s'.WF ∧ s'.expired = s.expired := by
  refine runExpired_keep (fun z => z.WF ∧ z.expired = s.expired) ?_ ?_ cbs es s s' ⟨hw, rfl⟩ h
  · intro a c b hP hc
    exact ⟨call_wf a c b hP.1 hc, by rw [(call_frame hc).2.1]; exact hP.2⟩
  · intro a l hP
    exact ⟨wf_congr rfl rfl rfl rfl hP.1, hP.2⟩

/-- When `reset` returns on a well-formed queue and its vector `expired`, the
queue without the vector is well-formed. -/
theorem reset_wf (ts : TimestampDecl) (z s3 : TimerQueue) (now : Timestamp) (hw : z.WF)
    (h : TimerQueue.reset ts z z.expired now = .ok s3) :
    ({ s3 with expired := [] } : TimerQueue).WF := by
  obtain ⟨hs, hk, ho, hnd, hdisj⟩ := hw
  obtain ⟨s4, m, hloop, _, hs3⟩ := reset_ok h
  have hk4 := resetLoop_keys now _ z s4 hk hdisj hloop
  obtain ⟨_, _, _, hsorted⟩ := resetLoop_spec now _ z s4 hloop
  obtain ⟨_, hkeep⟩ := resetLoop_mem now _ z s4 hloop
  obtain ⟨_, _, _, hcan, _, _⟩ := resetLoop_frame now _ z s4 hloop
  have h34 : s3.timers_ = s4.timers_ ∧ s3.heap = s4.heap ∧
      s3.cancelingTimers_ = s4.cancelingTimers_ := by
    rw [hs3]
    split <;> exact ⟨rfl, rfl, rfl⟩
  refine ⟨by simp only; rw [h34.1]; exact hsorted hs, ?_, ?_, List.Pairwise.nil, ?_⟩
  · intro x hx
    simp only at hx ⊢
    rw [h34.1] at hx
    rw [h34.2.1]
    exact hk4 x hx
  · intro p hp
    rw [mem_owned] at hp
    simp only at hp ⊢
    rw [h34.2.1]
    rcases hp with hp | hp | hp
    · rw [h34.1] at hp
      obtain ⟨x, hx, hxp⟩ := List.mem_map.1 hp
      obtain ⟨t, ht, _⟩ := hk4 x hx
      rw [← hxp, ht]; simp
    · rw [h34.2.2, hcan] at hp
      exact hkeep p (ho p (mem_owned.2 (Or.inr (Or.inl hp))))
    · cases hp
  · intro e he; cases he

/-- A pass of `handleRead` that returns leaves a well-formed queue
well-formed. -/
theorem handleRead_wf (ts : TimestampDecl) (s s' : TimerQueue) (now : Timestamp)
    (cbs : TimerPtr → List Call) (hw : s.WF)
    (h : TimerQueue.handleRead ts s now cbs = .ok s') : s'.WF := by
  obtain ⟨n, s2, s3, _, hrun, hres, hs'⟩ := handleRead_ok h
  obtain ⟨hw2, hexp2⟩ := runExpired_wf cbs _ _ s2 (pass_start_wf s n hw.1 hw.2.1) hrun
  simp only at hexp2
  have hw2' : ({ s2 with callingExpiredTimers_ := false } : TimerQueue).WF :=
    wf_congr rfl rfl rfl rfl hw2
  rw [← hexp2] at hres
  rw [hs']
  exact reset_wf ts _ s3 now hw2' hres

/-- Every queue reached from a well-formed queue is well-formed. -/
theorem steps_wf (ts : TimestampDecl) :
    ∀ (ops : List Op) (s s' : TimerQueue), s.WF → TimerQueue.steps ts ops s = .ok s' →
      s'.WF := by
  intro ops
  induction ops with
  | nil =>
    intro s s' hw h
    simp only [TimerQueue.steps] at h
    injection h with h
    exact h ▸ hw
  | cons o os ih =>
    intro s s' hw h
    simp only [TimerQueue.steps] at h
    cases ho : s.step ts o with
    | error f => simp [ho] at h
    | ok s1 =>
      simp only [ho] at h
      refine ih s1 s' ?_ h
      cases o with
      | addTimer ptr when interval => exact call_wf s (.addTimer ptr when interval) s1 hw ho
      | cancel timerId => exact call_wf s (.cancel timerId) s1 hw ho
      | handleRead now cbs => exact handleRead_wf ts s s1 now cbs hw ho

/-- In a well-formed queue a pass of `handleRead` returns, provided the
callbacks of the timers due at `now` create their timers at pairwise
distinct non-null addresses that are not in use. -/
theorem handleRead_total (ts : TimestampDecl) (s : TimerQueue) (now : Timestamp)
    (cbs : TimerPtr → List Call) (hs : s.timers_.Pairwise entryLt) (hk : s.KeysAgree)
    (hnd : (passAllocs cbs (s.timers_.filter (fun e => decide (e.1 ≤ now)))).Nodup)
    (hfresh : ∀ p ∈ passAllocs cbs (s.timers_.filter (fun e => decide (e.1 ≤ now))),
      p ≠ 0 ∧ s.heap p = none) :
    ∃ s', TimerQueue.handleRead ts s now cbs = .ok s' := by
  have hg := getExpired_eq s now hs
  obtain ⟨n, hn1, hn2⟩ := getExpired_ok hg
  simp only at hn1 hn2
  have hR : s.timers_.filter (fun e => !decide (e.1 ≤ now)) = s.timers_.drop n :=
    congrArg (fun z => z.timers_) hn2
  have hw1 := pass_start_wf s n hs hk
  rw [hn1] at hnd hfresh
  obtain ⟨s2, hrun, hw2⟩ := runExpired_total cbs (s.timers_.take n) _ hw1 hnd hfresh
  obtain ⟨_, hexp2⟩ := runExpired_wf cbs _ _ s2 hw1 hrun
  simp only at hexp2
  obtain ⟨hs2, hk2, ho2, hnd2, hdisj2⟩ := hw2
  rw [hexp2] at hnd2 hdisj2
  have hres := reset_total ts { s2 with callingExpiredTimers_ := false } (s.timers_.take n) now
    (by
      intro x hx
      exact ho2 x.2 (mem_owned.2 (Or.inr (Or.inr (by
        rw [hexp2]; exact List.mem_map.2 ⟨x, hx, rfl⟩)))))
    hnd2 hdisj2
    (by
      intro x hx
      obtain ⟨t, ht, _⟩ := hk2 x hx
      show s2.heap x.2 ≠ none
      rw [ht]; simp)
  obtain ⟨s3, hres⟩ := hres
  unfold TimerQueue.handleRead
  rw [hg]
  simp only [hn1, hR, hrun, hres]
  exact ⟨_, rfl⟩

/-! ## A repeating timer through a whole pass -/

/-- Calls none of which cancels the handle of `T` put no entry of `T` into
`cancelingTimers_`. -/
theorem calls_uncancelled (T : TimerPtr) :
    ∀ (cs : List Call) (z z' : TimerQueue), Call.cancel ⟨T⟩ ∉ cs →
      (∀ x ∈ z.cancelingTimers_, x.2 ≠ T) → TimerQueue.calls cs z = .ok z' →
      ∀ x ∈ z'.cancelingTimers_, x.2 ≠ T := by
  intro cs
  induction cs with
  | nil =>
    intro z z' _ hz h
    simp only [TimerQueue.calls] at h
    injection h with h
    exact h ▸ hz
  | cons c cs ih =>
    intro z z' hn hz h
    simp only [TimerQueue.calls] at h
    cases hc : z.call c with
    | error f => simp [hc] at h
    | ok z1 =>
      simp only [hc] at h
      refine ih z1 z' (fun hm => hn (List.mem_cons_of_mem _ hm)) ?_ h
      cases c with
      | addTimer ptr when interval =>
        obtain ⟨_, _, _, _, _, _, hcan, _⟩ := addTimer_ok hc
        rw [hcan]; exact hz
      | cancel timerId =>
        have hid : timerId.value_ ≠ T := by
          intro hid
          apply hn
          have : timerId = ⟨T⟩ := by cases timerId; simp only at hid; rw [hid]
          rw [this]
          exact List.mem_cons_self _ _
        rcases cancelInLoop_ok hc with h' | ⟨t, _, _, _, h'⟩ | ⟨t, _, _, _, _, h'⟩ <;> subst h'
        · exact hz
        · exact hz
        · intro x hx
          rcases (mem_setInsert _ _ _).1 hx with rfl | hx
          · exact hid
          · exact hz x hx

/-- When no callback cancels the handle of `T`, the loop of `handleRead` puts
no entry of `T` into `cancelingTimers_`. -/
theorem runExpired_uncancelled (cbs : TimerPtr → List Call) (T : TimerPtr)
    (hq : ∀ p, Call.cancel ⟨T⟩ ∉ cbs p) :
    ∀ (es : List Entry) (z z' : TimerQueue), (∀ x ∈ z.cancelingTimers_, x.2 ≠ T) →
      TimerQueue.runExpired cbs es z = .ok z' → ∀ x ∈ z'.cancelingTimers_, x.2 ≠ T := by
  intro es
  induction es with
  | nil =>
    intro z z' hz h
    simp only [TimerQueue.runExpired] at h
    injection h with h
    exact h ▸ hz
  | cons e es ih =>
    intro z z' hz h
    simp only [TimerQueue.runExpired] at h
    cases hr : z.run e.2 (cbs e.2) with
    | error f => simp [hr] at h
    | ok z1 =>
      simp only [hr] at h
      exact ih z1 z' (calls_uncancelled T (cbs e.2) { z with ran := z.ran ++ [e.2] } z1
        (hq e.2) hz hr) h

/-- The calls of callbacks keep the timer objects there are, through the
whole loop of `handleRead`. -/
theorem runExpired_heap (cbs : TimerPtr → List Call) (T : TimerPtr) (t : Timer)
    (es : List Entry) (z z' : TimerQueue) (hT : z.heap T = some t)
    (h : TimerQueue.runExpired cbs es z = .ok z') : z'.heap T = some t :=
  runExpired_keep (fun x => x.heap T = some t)
    (fun _ _ _ hP hc => (call_effect hc).1 T t hP) (fun _ _ hP => hP) cbs es z z' hT h

/-- In a queue whose pending set is ascending and keyed by the expirations of
its timers, a repeating timer with interval `I` that is due at `now` and
whose handle no callback cancels is pending after the `handleRead` pass at
`now`, keyed by `now + I` and by nothing else, and `now + I` is its
expiration. -/
theorem handleRead_restarts (ts : TimestampDecl) (s s' : TimerQueue) (now : Timestamp)
    (cbs : TimerPtr → List Call) (e : Entry) (t : Timer)
    (hs : s.timers_.Pairwise entryLt) (hk : s.KeysAgree) (he : e ∈ s.timers_)
    (hdue : e.1 ≤ now) (ht : s.heap e.2 = some t) (hI : t.interval ≠ 0)
    (hq : ∀ p, Call.cancel ⟨e.2⟩ ∉ cbs p)
    (h : TimerQueue.handleRead ts s now cbs = .ok s') :
    (now + t.interval, e.2) ∈ s'.timers_ ∧
      (∀ x ∈ s'.timers_, x.2 = e.2 → x.1 = now + t.interval) ∧
      ∃ t', s'.heap e.2 = some t' ∧ t'.expiration = now + t.interval := by
  obtain ⟨n, s2, s3, hg, hrun, hres, hs'⟩ := handleRead_ok h
  rw [getExpired_eq s now hs] at hg
  injection hg with hg
  have hE : s.timers_.take n = s.timers_.filter (fun x => decide (x.1 ≤ now)) :=
    (congrArg Prod.fst hg).symm
  have heE : e ∈ s.timers_.take n := by
    rw [hE]; exact List.mem_filter.2 ⟨he, by simpa using hdue⟩
  obtain ⟨hw2, hexp2⟩ := runExpired_wf cbs _ _ s2 (pass_start_wf s n hs hk) hrun
  simp only at hexp2
  have hheap2 : s2.heap e.2 = some t := by
    refine runExpired_heap cbs e.2 t _ _ s2 ?_ hrun
    exact ht
  have hcan2 : e ∉ s2.cancelingTimers_ := by
    intro hm
    refine runExpired_uncancelled cbs e.2 hq _ _ s2 ?_ hrun e hm rfl
    intro x hx
    cases hx
  obtain ⟨_, _, _, _, hdisj2⟩ := hw2
  rw [hexp2] at hdisj2
  obtain ⟨s4, m, hloop, _, hs3⟩ := reset_ok hres
  obtain ⟨hmem, hre, _, _⟩ := resetLoop_spec now _ _ s4 hloop
  have hrep : t.repeat = true := by
    unfold Timer.repeat
    simpa using hI
  have h34 : s3.timers_ = s4.timers_ ∧ s3.heap = s4.heap := by
    rw [hs3]
    split <;> exact ⟨rfl, rfl⟩
  subst hs'
  simp only
  rw [h34.1, h34.2]
  refine ⟨(hmem _).2 (Or.inr ⟨e, heE, t, hheap2, hrep, hcan2, rfl⟩), ?_,
    t.restart now, hre e.2 t hheap2 hrep ⟨e, heE, rfl, hcan2⟩, (restart_facts t now).2.2.2 hrep⟩
  intro x hx hxe
  rcases (hmem x).1 hx with hx' | ⟨e', he', t', ht', _, _, hxe'⟩
  · exact absurd (List.mem_map.2 ⟨x, hx', hxe⟩) (hdisj2 e heE)
  · have h2 : e'.2 = e.2 := by rw [← hxe, hxe']
    rw [h2] at ht'
    have ht'' : s2.heap e.2 = some t' := ht'
    rw [hheap2] at ht''
    injection ht'' with ht''
    rw [hxe', ← ht'']

/-! ## No failed assertion in a well-formed queue -/

/-- In a well-formed queue a call of a callback is stopped only by an
allocation at an address in use. -/
theorem call_fault (s : TimerQueue) (c : Call) (f : Fault) (hw : s.WF)
    (h : s.call c = .error f) : f = Fault.badAlloc := by
  cases c with
  | addTimer ptr when interval =>
    by_cases hp : ptr = 0 ∨ (s.heap ptr).isSome = true
    · have h' : s.addTimer ptr when interval = .error f := h
      unfold TimerQueue.addTimer at h'
      rw [if_pos hp] at h'
      injection h' with h'
      exact h'.symm
    · have hnone : s.heap ptr = none := by
        cases hh : s.heap ptr with
        | none => rfl
        | some x => exact absurd (Or.inr (by simp [hh])) hp
      obtain ⟨s', h'⟩ := call_total s (.addTimer ptr when interval) hw (by
        intro p hp'
        simp only [allocs, List.mem_singleton] at hp'
        subst hp'
        exact ⟨fun h0 => hp (Or.inl h0), hnone⟩)
      rw [h] at h'
      cases h'
  | cancel timerId =>
    obtain ⟨s', h'⟩ := call_total s (.cancel timerId) hw (by
      intro p hp'
      simp [allocs] at hp')
    rw [h] at h'
    cases h'

/-- The calls of a callback keep the queue well-formed. -/
theorem calls_wf (cs : List Call) (s s' : TimerQueue) (hw : s.WF)
    (h : TimerQueue.calls cs s = .ok s') : s'.WF :=
  calls_keep TimerQueue.WF call_wf cs s s' hw h

/-- In a well-formed queue the calls of a callback are stopped only by an
allocation at an address in use. -/
theorem calls_fault :
    ∀ (cs : List Call) (s : TimerQueue) (f : Fault), s.WF →
      TimerQueue.calls cs s = .error f → f = Fault.badAlloc := by
  intro cs
  induction cs with
  | nil =>
    intro s f _ h
    simp only [TimerQueue.calls] at h
    cases h
  | cons c cs ih =>
    intro s f hw h
    simp only [TimerQueue.calls] at h
    cases hc : s.call c with
    | error g =>
      simp only [hc] at h
      injection h with h
      subst h
      exact call_fault s c g hw hc
    | ok s1 =>
      simp only [hc] at h
      exact ih s1 f (call_wf s c s1 hw hc) h

/-- In a well-formed queue the loop of `handleRead` is stopped only by an
allocation at an address in use. -/
theorem runExpired_fault (cbs : TimerPtr → List Call) :
    ∀ (es : List Entry) (s : TimerQueue) (f : Fault), s.WF →
      TimerQueue.runExpired cbs es s = .error f → f = Fault.badAlloc := by
  intro es
  induction es with
  | nil =>
    intro s f _ h
    simp only [TimerQueue.runExpired] at h
    cases h
  | cons e es ih =>
    intro s f hw h
    simp only [TimerQueue.runExpired] at h
    have hw0 : ({ s with ran := s.ran ++ [e.2] } : TimerQueue).WF :=
      wf_congr rfl rfl rfl rfl hw
    cases hr : s.run e.2 (cbs e.2) with
    | error g =>
      simp only [hr] at h
      injection h with h
      subst h
      exact calls_fault (cbs e.2) _ g hw0 hr
    | ok s1 =>
      simp only [hr] at h
      exact ih s1 f (calls_wf (cbs e.2) _ s1 hw0 hr) h

/-- In a queue whose pending set is ascending and keyed by the expirations of
its timers, a pass of `handleRead` is stopped only by an allocation at an
address in use: no assertion fails and no pointer dangles. -/
theorem handleRead_fault (ts : TimestampDecl) (s : TimerQueue) (now : Timestamp)
    (cbs : TimerPtr → List Call) (f : Fault) (hs : s.timers_.Pairwise entryLt)
    (hk : s.KeysAgree) (h : TimerQueue.handleRead ts s now cbs = .error f) :
    f = Fault.badAlloc := by
  have hg := getExpired_eq s now hs
  obtain ⟨n, hn1, hn2⟩ := getExpired_ok hg
  simp only at hn1 hn2
  have hR : s.timers_.filter (fun e => !decide (e.1 ≤ now)) = s.timers_.drop n :=
    congrArg (fun z => z.timers_) hn2
  have hw1 := pass_start_wf s n hs hk
  unfold TimerQueue.handleRead at h
  rw [hg] at h
  simp only [hn1, hR] at h
  cases hrun : TimerQueue.runExpired cbs (s.timers_.take n)
      { s with timers_ := s.timers_.drop n, callingExpiredTimers_ := true,
               cancelingTimers_ := [], expired := s.timers_.take n } with
  | error g =>
    simp only [hrun] at h
    injection h with h
    subst h
    exact runExpired_fault cbs _ _ g hw1 hrun
  | ok s2 =>
    simp only [hrun] at h
    obtain ⟨hw2, hexp2⟩ := runExpired_wf cbs _ _ s2 hw1 hrun
    simp only at hexp2
    obtain ⟨hs2, hk2, ho2, hnd2, hdisj2⟩ := hw2
    rw [hexp2] at hnd2 hdisj2
    obtain ⟨s3, hres⟩ := reset_total ts { s2 with callingExpiredTimers_ := false }
      (s.timers_.take n) now
      (by
        intro x hx
        exact ho2 x.2 (mem_owned.2 (Or.inr (Or.inr (by
          rw [hexp2]; exact List.mem_map.2 ⟨x, hx, rfl⟩)))))
      hnd2 hdisj2
      (by
        intro x hx
        obtain ⟨t, ht, _⟩ := hk2 x hx
        show s2.heap x.2 ≠ none
        rw [ht]; simp)
    simp only [hres] at h
    cases h

/-- In a well-formed queue an operation of the loop thread is stopped only by
an allocation at an address in use. -/
theorem step_fault (ts : TimestampDecl) (s : TimerQueue) (o : Op) (f : Fault) (hw : s.WF)
    (h : s.step ts o = .error f) : f = Fault.badAlloc := by
  cases o with
  | addTimer ptr when interval => exact call_fault s (.addTimer ptr when interval) f hw h
  | cancel timerId => exact call_fault s (.cancel timerId) f hw h
  | handleRead now cbs => exact handleRead_fault ts s now cbs f hw.1 hw.2.1 h

/-- In a queue whose pending set is ascending and keyed by the expirations of
its timers, `cancelInLoop` on the handle of a pending timer finds the entry
keyed by the expiration of the timer and erases it. -/
theorem cancelInLoop_pending (s : TimerQueue) (T : TimerPtr)
    (hs : s.timers_.Pairwise entryLt) (hk : s.KeysAgree)
    (hT : T ∈ s.timers_.map Prod.snd) :
    ∃ t, s.heap T = some t ∧ (t.expiration, T) ∈ s.timers_ ∧
      s.cancelInLoop ⟨T⟩ = .ok { s with timers_ :=
        (s.timers_.filter (fun x => decide (x ≠ (t.expiration, T)))) } ∧
      T ∉ (s.timers_.filter (fun x => decide (x ≠ (t.expiration, T)))).map Prod.snd := by
  obtain ⟨e, he, heT⟩ := List.mem_map.1 hT
  obtain ⟨t, ht, hte⟩ := hk e he
  rw [heT] at ht
  have hee : e = (t.expiration, T) := Prod.ext hte.symm heT
  subst hee
  have ho : T ∈ s.owned ∨ T ∈ s.held := Or.inl (mem_owned.2 (Or.inl hT))
  refine ⟨t, ht, he, ?_, ?_⟩
  · unfold TimerQueue.cancelInLoop TimerQueue.lock
    simp only [ho, if_true, ht, he, setErase_count _ _ hs he]
    rfl
  · intro hm
    obtain ⟨x, hx, hxT⟩ := List.mem_map.1 hm
    have hxf := List.mem_filter.1 hx
    have := keys_unique hk hxf.1 he hxT
    simp [this] at hxf

/-- A pass of `handleRead` leaves the objects of the timers that are pending
and not due as they are. -/
theorem handleRead_heap_pending (ts : TimestampDecl) (s s' : TimerQueue) (now : Timestamp)
    (cbs : TimerPtr → List Call) (hs : s.timers_.Pairwise entryLt) (hk : s.KeysAgree)
    (h : TimerQueue.handleRead ts s now cbs = .ok s') (x : Entry) (hx : x ∈ s.timers_)
    (hlate : now < x.1) : s'.heap x.2 = s.heap x.2 := by
  obtain ⟨n, s2, s3, hg, hrun, hres, hs'⟩ := handleRead_ok h
  rw [getExpired_eq s now hs] at hg
  injection hg with hg
  have hE : s.timers_.take n = s.timers_.filter (fun x => decide (x.1 ≤ now)) :=
    (congrArg Prod.fst hg).symm
  obtain ⟨t, ht, _⟩ := hk x hx
  have hheap2 : s2.heap x.2 = some t := by
    refine runExpired_heap cbs x.2 t _ _ s2 ?_ hrun
    exact ht
  obtain ⟨s4, m, hloop, _, hs3⟩ := reset_ok hres
  obtain ⟨_, _, hsame, _⟩ := resetLoop_spec now _ _ s4 hloop
  have h34 : s3.heap = s4.heap := by
    rw [hs3]
    split <;> rfl
  subst hs'
  simp only
  rw [h34, hsame x.2, ht]
  · exact hheap2
  · rintro ⟨e, he, he2, _⟩
    rw [hE] at he
    have hef := List.mem_filter.1 he
    have := keys_unique hk hef.1 hx he2
    subst this
    have hle : e.1 ≤ now := by simpa using hef.2
    exact absurd hlate (not_lt.2 hle)

/-! ## A firing timer cancelled by the callback of another -/

/-- The loop of `handleRead` over entries one of which belongs to the timer
`A`, whose callback cancels the firing timer `T`, leaves the entry of `T` in
`cancelingTimers_`. -/
theorem runExpired_firing_by (cbs : TimerPtr → List Call) (T : TimerPtr) (t : Timer)
    (A : TimerPtr) (hcb : Call.cancel ⟨T⟩ ∈ cbs A) :
    ∀ (es : List Entry) (z z' : TimerQueue),
      (z.heap T = some t ∧ T ∉ z.timers_.map Prod.snd ∧ z.callingExpiredTimers_ = true ∧
        T ∈ z.expired.map Prod.snd) →
      TimerQueue.runExpired cbs es z = .ok z' →
      (z'.heap T = some t ∧ T ∉ z'.timers_.map Prod.snd ∧ z'.callingExpiredTimers_ = true ∧
        T ∈ z'.expired.map Prod.snd) ∧
      ((t.expiration, T) ∈ z.cancelingTimers_ ∨ A ∈ es.map Prod.snd →
        (t.expiration, T) ∈ z'.cancelingTimers_) := by
  intro es
  induction es with
  | nil =>
    intro z z' hM h
    simp only [TimerQueue.runExpired] at h
    injection h with h
    subst h
    refine ⟨hM, ?_⟩
    rintro (h | h)
    · exact h
    · cases h
  | cons e es ih =>
    intro z z' hM h
    simp only [TimerQueue.runExpired] at h
    cases hr : z.run e.2 (cbs e.2) with
    | error f => simp [hr] at h
    | ok z1 =>
      simp only [hr] at h
      obtain ⟨hM1, hcan1⟩ :=
        calls_firing T t (cbs e.2) { z with ran := z.ran ++ [e.2] } z1 hM hr
      obtain ⟨hM', hcan'⟩ := ih z1 z' hM1 h
      refine ⟨hM', ?_⟩
      rintro (hin | hin)
      · exact hcan' (Or.inl (hcan1 (Or.inl hin)))
      · rcases List.mem_cons.1 hin with hin | hin
        · rw [hin] at hcb
          exact hcan' (Or.inl (hcan1 (Or.inr hcb)))
        · exact hcan' (Or.inr hin)

/-- In a queue whose pending set is ascending and keyed by the expirations of
its timers, a timer that is due at `now` and whose handle the callback of a
timer due at `now` cancels is not pending after the pass at `now`, and stays
out of the pending set. -/
theorem handleRead_cancelled (ts : TimestampDecl) (s s' : TimerQueue) (now : Timestamp)
    (cbs : TimerPtr → List Call) (a b : Entry)
    (hs : s.timers_.Pairwise entryLt) (hk : s.KeysAgree)
    (ha : a ∈ s.timers_) (hadue : a.1 ≤ now) (hb : b ∈ s.timers_) (hbdue : b.1 ≤ now)
    (hcb : Call.cancel ⟨b.2⟩ ∈ cbs a.2)
    (h : TimerQueue.handleRead ts s now cbs = .ok s') :
    TimerQueue.Retired b.2 s' ∧ b ∈ s'.cancelingTimers_ := by
  obtain ⟨n, s2, s3, hg, hrun, hres, hs'⟩ := handleRead_ok h
  rw [getExpired_eq s now hs] at hg
  injection hg with hg
  have hE : s.timers_.take n = s.timers_.filter (fun x => decide (x.1 ≤ now)) :=
    (congrArg Prod.fst hg).symm
  have hR : s.timers_.drop n = s.timers_.filter (fun x => !decide (x.1 ≤ now)) :=
    (congrArg (fun r => r.2.timers_) hg).symm
  have haE : a ∈ s.timers_.take n := by
    rw [hE]; exact List.mem_filter.2 ⟨ha, by simpa using hadue⟩
  have hbE : b ∈ s.timers_.take n := by
    rw [hE]; exact List.mem_filter.2 ⟨hb, by simpa using hbdue⟩
  have hTE : b.2 ∈ (s.timers_.take n).map Prod.snd := List.mem_map.2 ⟨b, hbE, rfl⟩
  have hAE : a.2 ∈ (s.timers_.take n).map Prod.snd := List.mem_map.2 ⟨a, haE, rfl⟩
  have hTR : b.2 ∉ (s.timers_.drop n).map Prod.snd := by
    intro hm
    obtain ⟨x, hx, hxT⟩ := List.mem_map.1 hm
    have hxe := keys_unique hk (List.mem_of_mem_drop hx) hb hxT
    subst hxe
    rw [hR] at hx
    have := (List.mem_filter.1 hx).2
    simp [hbdue] at this
  obtain ⟨t, ht, hte⟩ := hk b hb
  have eKey : (t.expiration, b.2) = b := Prod.ext hte rfl
  obtain ⟨hM2, hcan2⟩ := runExpired_firing_by cbs b.2 t a.2 hcb _ _ s2
    (by exact ⟨ht, hTR, rfl, hTE⟩) hrun
  have hc2 : b ∈ s2.cancelingTimers_ := by
    have := hcan2 (Or.inr hAE)
    rw [eKey] at this
    exact this
  obtain ⟨s4, m, hloop, _, hs3⟩ := reset_ok hres
  obtain ⟨hmem, _, _, _⟩ := resetLoop_spec now _ _ _ hloop
  obtain ⟨_, hheap⟩ := resetLoop_mem now _ _ _ hloop
  obtain ⟨_, _, _, hcan4, _, _⟩ := resetLoop_frame now _ _ _ hloop
  have ht4 : b.2 ∉ s4.timers_.map Prod.snd := by
    intro hm
    obtain ⟨x, hx, hxT⟩ := List.mem_map.1 hm
    rcases (hmem x).1 hx with hx' | ⟨e', he', u, _, _, hce', hxe'⟩
    · exact hM2.2.1 (List.mem_map.2 ⟨x, hx', hxT⟩)
    · have h2 : e'.2 = b.2 := by rw [← hxT, hxe']
      have := keys_unique hk (List.mem_of_mem_take he') hb h2
      subst this
      exact hce' hc2
  have hh4 : s4.heap b.2 ≠ none := hheap b.2 (by
    show s2.heap b.2 ≠ none
    rw [hM2.1]; simp)
  have h34 : s3.timers_ = s4.timers_ ∧ s3.heap = s4.heap ∧
      s3.cancelingTimers_ = s4.cancelingTimers_ := by
    rw [hs3]
    split <;> exact ⟨rfl, rfl, rfl⟩
  subst hs'
  refine ⟨⟨by simp only; rw [h34.1]; exact ht4, by simp,
    by simp only; rw [h34.2.1]; exact hh4⟩, ?_⟩
  simp only
  rw [h34.2.2, hcan4]
  exact hc2

/-! ## A pending timer that is due fires once -/

/-- In a queue whose pending set is ascending and keyed by the expirations of
its timers, a pass of `handleRead` invokes the callback of a pending timer
that is due exactly once. -/
theorem handleRead_runs_once (ts : TimestampDecl) (s s' : TimerQueue) (now : Timestamp)
    (cbs : TimerPtr → List Call) (e : Entry)
    (hs : s.timers_.Pairwise entryLt) (hk : s.KeysAgree) (he : e ∈ s.timers_)
    (hdue : e.1 ≤ now) (h : TimerQueue.handleRead ts s now cbs = .ok s') :
    ∃ l1 l2, s'.ran = s.ran ++ (l1 ++ e.2 :: l2) ∧ e.2 ∉ l1 ∧ e.2 ∉ l2 := by
  obtain ⟨n, hg, hran⟩ := handleRead_ran h
  rw [getExpired_eq s now hs] at hg
  injection hg with hg
  have hE : s.timers_.take n = s.timers_.filter (fun x => decide (x.1 ≤ now)) :=
    (congrArg Prod.fst hg).symm
  have heE : e ∈ s.timers_.take n := by
    rw [hE]; exact List.mem_filter.2 ⟨he, by simpa using hdue⟩
  have hTE : e.2 ∈ (s.timers_.take n).map Prod.snd := List.mem_map.2 ⟨e, heE, rfl⟩
  have hndE : ((s.timers_.take n).map Prod.snd).Nodup := by
    rw [List.map_take]
    exact (ptr_nodup hs hk).sublist (List.take_sublist _ _)
  obtain ⟨l1, l2, hl⟩ := List.append_of_mem hTE
  rw [hl] at hndE hran
  have hnd' := List.nodup_append.1 hndE
  have hcons := List.nodup_cons.1 hnd'.2.1
  exact ⟨l1, l2, hran, fun hin => hnd'.2.2 hin (List.mem_cons_self _ _), hcons.1⟩

/-- The method `addTimerInLoop` returns on a timer that has its object and is
not pending. -/
theorem addTimerInLoop_fresh (s : TimerQueue) (T : TimerPtr) (t : Timer)
    (hT : s.heap T = some t) (hn : T ∉ s.timers_.map Prod.snd) :
    ∃ s1, s.addTimerInLoop T = .ok s1 := by
  have hnm : (t.expiration, T) ∉ s.timers_ := fun hm => hn (List.mem_map.2 ⟨_, hm, rfl⟩)
  unfold TimerQueue.addTimerInLoop
  rw [insert_eq hT hnm]
  simp only
  split
  · simp only [hT]; exact ⟨_, rfl⟩
  · exact ⟨_, rfl⟩

/-! ## The queue of the loop -/

/-- The method `addTimerInLoop` leaves the queue of the loop alone. -/
theorem addTimerInLoop_queued {s s' : TimerQueue} {timer : TimerPtr}
    (h : s.addTimerInLoop timer = .ok s') : s'.queued = s.queued := by
  unfold TimerQueue.addTimerInLoop at h
  cases hi : s.insert timer with
  | error f => simp [hi] at h
  | ok r =>
    obtain ⟨t, _, _, hr, _⟩ := insert_ok hi
    obtain ⟨b, s1⟩ := r
    simp only at hr
    subst hr
    simp only [hi] at h
    split at h
    · split at h
      · cases h
      · injection h with h
        subst h
        rfl
    · injection h with h
      subst h
      rfl

/-- The method `cancelInLoop` leaves the queue of the loop alone. -/
theorem cancelInLoop_queued {s s' : TimerQueue} {timerId : TimerId}
    (h : s.cancelInLoop timerId = .ok s') : s'.queued = s.queued := by
  rcases cancelInLoop_ok h with h | ⟨t, _, _, _, h⟩ | ⟨t, _, _, _, _, h⟩ <;> subst h <;> rfl

/-- A call of a callback leaves the queue of the loop alone: it is made on
the loop thread, where `runInLoop` calls its task at once. -/
theorem call_queued {s s' : TimerQueue} {c : Call} (h : s.call c = .ok s') :
    s'.queued = s.queued := by
  cases c with
  | addTimer ptr when interval =>
    have h' : s.addTimer ptr when interval = .ok s' := h
    unfold TimerQueue.addTimer at h'
    split at h'
    · cases h'
    · exact (addTimerInLoop_queued h').trans rfl
  | cancel timerId => exact cancelInLoop_queued h

/-- The loop of `reset` leaves the queue of the loop alone. -/
theorem resetLoop_queued (now : Timestamp) :
    ∀ (es : List Entry) (s s' : TimerQueue), TimerQueue.resetLoop now es s = .ok s' →
      s'.queued = s.queued := by
  intro es
  induction es with
  | nil =>
    intro s s' h
    simp only [TimerQueue.resetLoop] at h
    injection h with h
    subst h
    rfl
  | cons e es ih =>
    intro s s' h
    simp only [TimerQueue.resetLoop] at h
    cases ht : s.heap e.2 with
    | none => simp [ht] at h
    | some t =>
      simp only [ht] at h
      split at h
      · cases hi : (s.store e.2 (t.restart now)).insert e.2 with
        | error f => simp [hi] at h
        | ok r =>
          simp only [hi] at h
          obtain ⟨t', _, _, hr, _⟩ := insert_ok hi
          have := ih r.2 s' h
          rw [hr] at this
          exact this
      · exact ih s s' h

/-- A pass of `handleRead` leaves the queue of the loop alone. -/
theorem handleRead_queued {ts : TimestampDecl} {s s' : TimerQueue} {now : Timestamp}
    {cbs : TimerPtr → List Call} (h : TimerQueue.handleRead ts s now cbs = .ok s') :
    s'.queued = s.queued := by
  obtain ⟨n, s2, s3, _, hrun, hres, hs'⟩ := handleRead_ok h
  have h2 : s2.queued = s.queued :=
    runExpired_keep (fun z => z.queued = s.queued)
      (fun _ _ _ hP hc => (call_queued hc).trans hP) (fun _ _ hP => hP) cbs _
      { s with timers_ := s.timers_.drop n, callingExpiredTimers_ := true,
               cancelingTimers_ := [], expired := s.timers_.take n } s2 rfl hrun
  have h3 : s3.queued = s2.queued := by
    unfold TimerQueue.reset at hres
    cases hl : TimerQueue.resetLoop now (s.timers_.take n)
        { s2 with callingExpiredTimers_ := false } with
    | error f => simp [hl] at hres
    | ok s4 =>
      simp only [hl] at hres
      have h4 := resetLoop_queued now _ _ _ hl
      cases hn : TimerQueue.nextExpire ts s4 with
      | error f => simp [hn] at hres
      | ok m =>
        simp only [hn] at hres
        split at hres <;> injection hres with hres <;> subst hres <;> exact h4
  subst hs'
  exact h3.trans h2

/-! ## The canceling set belongs to one pass -/

/-- Inside a pass a call of a callback keeps the entries of the vector
`expired` keyed by the expirations of their timers and keeps
`cancelingTimers_` within the entries of `expired` and the entries of the
timers that tasks waiting in the queue of the loop are to insert. -/
theorem call_scoped (z : TimerQueue) (c : Call) (z' : TimerQueue)
    (hP : z.WF ∧ (∀ e ∈ z.expired, ∃ t, z.heap e.2 = some t ∧ t.expiration = e.1) ∧
      ∀ x ∈ z.cancelingTimers_, x ∈ z.expired ∨ LoopTask.addTimerInLoop x.2 ∈ z.queued)
    (h : z.call c = .ok z') :
    z'.WF ∧ (∀ e ∈ z'.expired, ∃ t, z'.heap e.2 = some t ∧ t.expiration = e.1) ∧
      ∀ x ∈ z'.cancelingTimers_, x ∈ z'.expired ∨ LoopTask.addTimerInLoop x.2 ∈ z'.queued := by
  obtain ⟨hw, hek, hsc⟩ := hP
  obtain ⟨hheap, _, _⟩ := call_effect h
  obtain ⟨_, hexp, _⟩ := call_frame h
  have hq := call_queued h
  refine ⟨call_wf z c z' hw h, ?_, ?_⟩
  · intro e he
    rw [hexp] at he
    obtain ⟨t, ht, hte⟩ := hek e he
    exact ⟨t, hheap _ _ ht, hte⟩
  · rw [hexp, hq]
    cases c with
    | addTimer ptr when interval =>
      obtain ⟨_, _, _, _, _, _, hcan, _⟩ := addTimer_ok h
      rw [hcan]; exact hsc
    | cancel timerId =>
      rcases cancelInLoop_ok h with h' | ⟨t, _, _, _, h'⟩ | ⟨t, hown, ht, hnm, _, h'⟩ <;>
        subst h'
      · exact hsc
      · exact hsc
      · intro x hx
        rcases (mem_setInsert _ _ _).1 hx with rfl | hx
        · have hcase : timerId.value_ ∈ z.expired.map Prod.snd ∨
              LoopTask.addTimerInLoop timerId.value_ ∈ z.queued := by
            rcases hown with hown | hown
            · rcases mem_owned.1 hown with hp | hp | hp
              · obtain ⟨y, hy, hyp⟩ := List.mem_map.1 hp
                obtain ⟨u, hu, hue⟩ := hw.2.1 y hy
                rw [hyp, ht] at hu
                injection hu with hu
                subst hu
                have hyy : y = (t.expiration, timerId.value_) := Prod.ext hue.symm hyp
                exact absurd (hyy ▸ hy) hnm
              · obtain ⟨y, hy, hyp⟩ := List.mem_map.1 hp
                rcases hsc y hy with hy' | hy'
                · exact Or.inl (List.mem_map.2 ⟨y, hy', hyp⟩)
                · rw [hyp] at hy'
                  exact Or.inr hy'
              · exact Or.inl hp
            · exact Or.inr (mem_held.1 hown).1
          rcases hcase with hinexp | hqueued
          · obtain ⟨e, he, hep⟩ := List.mem_map.1 hinexp
            obtain ⟨u, hu, hue⟩ := hek e he
            rw [hep, ht] at hu
            injection hu with hu
            subst hu
            have : e = (t.expiration, timerId.value_) := Prod.ext hue.symm hep
            rw [← this]
            exact Or.inl he
          · exact Or.inr hqueued
        · exact hsc x hx

/-- After a pass of `handleRead` over a queue whose pending set is ascending
and keyed by the expirations of its timers, `cancelingTimers_` holds only
entries of timers whose handle a callback of the pass cancelled, each of
them an entry that was pending and due or the entry of a timer that a task
waiting in the queue of the loop is to insert. -/
theorem handleRead_scoped (ts : TimestampDecl) (s s' : TimerQueue) (now : Timestamp)
    (cbs : TimerPtr → List Call) (hs : s.timers_.Pairwise entryLt) (hk : s.KeysAgree)
    (h : TimerQueue.handleRead ts s now cbs = .ok s') :
    ∀ x ∈ s'.cancelingTimers_,
      ((x ∈ s.timers_ ∧ x.1 ≤ now) ∨ LoopTask.addTimerInLoop x.2 ∈ s.queued) ∧
      ∃ p, Call.cancel ⟨x.2⟩ ∈ cbs p := by
  obtain ⟨n, s2, s3, hg, hrun, hres, hs'⟩ := handleRead_ok h
  rw [getExpired_eq s now hs] at hg
  injection hg with hg
  have hE : s.timers_.take n = s.timers_.filter (fun x => decide (x.1 ≤ now)) :=
    (congrArg Prod.fst hg).symm
  have hstart :
      ({ s with timers_ := s.timers_.drop n, callingExpiredTimers_ := true,
                cancelingTimers_ := [], expired := s.timers_.take n } : TimerQueue).WF ∧
      (∀ e ∈ s.timers_.take n, ∃ t, s.heap e.2 = some t ∧ t.expiration = e.1) ∧
      ∀ x ∈ ([] : List Entry),
        x ∈ s.timers_.take n ∨ LoopTask.addTimerInLoop x.2 ∈ s.queued :=
    ⟨pass_start_wf s n hs hk, fun e he => hk e (List.mem_of_mem_take he),
      fun x hx => by cases hx⟩
  have h2 := runExpired_keep
    (fun z => z.WF ∧ (∀ e ∈ z.expired, ∃ t, z.heap e.2 = some t ∧ t.expiration = e.1) ∧
      ∀ x ∈ z.cancelingTimers_, x ∈ z.expired ∨ LoopTask.addTimerInLoop x.2 ∈ z.queued)
    call_scoped
    (fun z l hP => ⟨wf_congr rfl rfl rfl rfl hP.1, hP.2.1, hP.2.2⟩)
    cbs _ _ s2 hstart hrun
  obtain ⟨_, hexp2⟩ := runExpired_wf cbs _ _ s2 (pass_start_wf s n hs hk) hrun
  simp only at hexp2
  have hq2 : s2.queued = s.queued :=
    runExpired_keep (fun z => z.queued = s.queued)
      (fun _ _ _ hP hc => (call_queued hc).trans hP) (fun _ _ hP => hP) cbs _
      { s with timers_ := s.timers_.drop n, callingExpiredTimers_ := true,
               cancelingTimers_ := [], expired := s.timers_.take n } s2 rfl hrun
  have hcan : s'.cancelingTimers_ = s2.cancelingTimers_ := by
    subst hs'
    exact (reset_frame hres).2.2.2.1
  intro x hx
  rw [hcan] at hx
  refine ⟨?_, ?_⟩
  · rcases h2.2.2 x hx with hx' | hx'
    · rw [hexp2, hE] at hx'
      have := List.mem_filter.1 hx'
      exact Or.inl ⟨this.1, by simpa using this.2⟩
    · rw [hq2] at hx'
      exact Or.inr hx'
  · by_contra hno
    have hq : ∀ p, Call.cancel ⟨x.2⟩ ∉ cbs p := fun p hp => hno ⟨p, hp⟩
    refine runExpired_uncancelled cbs x.2 hq _ _ s2 ?_ hrun x hx rfl
    intro y hy
    cases hy

/-- Every queue reached from the empty queue is outside a pass: the
reentrancy flag is off and the vector `expired` is gone. -/
theorem steps_idle (ts : TimestampDecl) :
    ∀ (ops : List Op) (s s' : TimerQueue),
      (s.callingExpiredTimers_ = false ∧ s.expired = []) →
      TimerQueue.steps ts ops s = .ok s' →
      s'.callingExpiredTimers_ = false ∧ s'.expired = [] := by
  intro ops
  induction ops with
  | nil =>
    intro s s' hP h
    simp only [TimerQueue.steps] at h
    injection h with h
    exact h ▸ hP
  | cons o os ih =>
    intro s s' hP h
    simp only [TimerQueue.steps] at h
    cases ho : s.step ts o with
    | error f => simp [ho] at h
    | ok s1 =>
      simp only [ho] at h
      refine ih s1 s' ?_ h
      cases o with
      | addTimer ptr when interval =>
        have hc : s.call (.addTimer ptr when interval) = .ok s1 := ho
        obtain ⟨_, h2, h3⟩ := call_frame hc
        exact ⟨h3.trans hP.1, h2.trans hP.2⟩
      | cancel timerId =>
        have hc : s.call (.cancel timerId) = .ok s1 := ho
        obtain ⟨_, h2, h3⟩ := call_frame hc
        exact ⟨h3.trans hP.1, h2.trans hP.2⟩
      | handleRead now cbs =>
        obtain ⟨n, s2, s3, _, _, hres, hs'⟩ := handleRead_ok ho
        subst hs'
        exact ⟨(reset_frame hres).2.2.1, rfl⟩

/-- Outside a pass a call leaves `cancelingTimers_` as it is. -/
theorem call_canceling_idle (s : TimerQueue) (c : Call) (s' : TimerQueue)
    (hflag : s.callingExpiredTimers_ = false) (h : s.call c = .ok s') :
    s'.cancelingTimers_ = s.cancelingTimers_ := by
  cases c with
  | addTimer ptr when interval =>
    obtain ⟨_, _, _, _, _, _, hcan, _⟩ := addTimer_ok h
    exact hcan
  | cancel timerId =>
    rcases cancelInLoop_ok h with h' | ⟨t, _, _, _, h'⟩ | ⟨t, _, _, _, hc, h'⟩
    · rw [h']
    · rw [h']
    · rw [hflag] at hc
      cases hc

/-! ## The order of `cancelInLoop` and `addTimerInLoop` -/

/-- Outside a pass, a `cancelInLoop` that runs before the `addTimerInLoop` of
the same timer changes nothing, whether the handle resolves or not: the
timer becomes pending all the same, and the next pass from its expiration on
invokes its callback. -/
theorem cancel_before_add (ts : TimestampDecl) (s : TimerQueue) (T : TimerPtr) (t : Timer)
    (hs : s.timers_.Pairwise entryLt) (hk : s.KeysAgree)
    (hflag : s.callingExpiredTimers_ = false) (hT : s.heap T = some t)
    (hn : T ∉ s.timers_.map Prod.snd) :
    s.cancelInLoop ⟨T⟩ = .ok s ∧
    ∃ s1, s.addTimerInLoop T = .ok s1 ∧ (t.expiration, T) ∈ s1.timers_ ∧
      ∀ (now : Timestamp) (cbs : TimerPtr → List Call) (s' : TimerQueue),
        t.expiration ≤ now → TimerQueue.handleRead ts s1 now cbs = .ok s' →
        ∃ l1 l2, s'.ran = s1.ran ++ (l1 ++ T :: l2) ∧ T ∉ l1 ∧ T ∉ l2 := by
  have hnm : (t.expiration, T) ∉ s.timers_ := fun hm => hn (List.mem_map.2 ⟨_, hm, rfl⟩)
  refine ⟨?_, ?_⟩
  · unfold TimerQueue.cancelInLoop
    cases hl : s.lock ⟨T⟩ with
    | none => rfl
    | some p =>
      have hp : p = T := by
        unfold TimerQueue.lock at hl
        split at hl
        · injection hl with hl; exact hl.symm
        · cases hl
      subst hp
      simp only [hT, hnm, if_false, hflag, Bool.false_eq_true]
  · obtain ⟨s1, h1⟩ := addTimerInLoop_fresh s T t hT hn
    obtain ⟨t', ht', _, hheap1, _, htim1, _⟩ := addTimerInLoop_ok h1
    rw [hT] at ht'
    injection ht' with ht'
    subst ht'
    have hmem1 : (t.expiration, T) ∈ s1.timers_ := by
      rw [htim1]; exact (mem_setInsert _ _ _).2 (Or.inl rfl)
    have hs1 : s1.timers_.Pairwise entryLt := by
      rw [htim1]; exact setInsert_sorted _ _ hs
    have hk1 : s1.KeysAgree := by
      intro x hx
      rw [htim1] at hx
      rw [hheap1]
      rcases (mem_setInsert _ _ _).1 hx with rfl | hx
      · exact ⟨t, hT, rfl⟩
      · exact hk x hx
    refine ⟨s1, h1, hmem1, ?_⟩
    intro now cbs s' hnow h
    exact handleRead_runs_once ts s1 s' now cbs (t.expiration, T) hs1 hk1 hmem1 hnow h

/-- At the sample queue: `cancelInLoop` on the handle of the timer at address
`5` runs first and `addTimerInLoop` second; the pass at `200` invokes the
callback of the timer. -/
theorem sampleFresh_cancel_first :
    (match sampleFresh.cancelInLoop ⟨5⟩ with
      | .ok s1 =>
        match s1.addTimerInLoop 5 with
        | .ok s2 =>
          (TimerQueue.handleRead muduoTimestamp s2 200 (fun _ => [])).toOption.map
            (fun r => (s1.timers_, s2.timers_, r.ran))
        | .error _ => none
      | .error _ => none)
    = some ([(5, 1), (10, 2), (10, 3), (20, 4)],
        [(5, 1), (10, 2), (10, 3), (20, 4), (100, 5)], [1, 2, 3, 4, 5]) := by
  decide

/-! ## Arithmetic in `int64_t` -/

/-- A result within the range of `int64_t` is held as it is. -/
theorem wrap64_eq (x : Int) (h1 : -2 ^ 63 ≤ x) (h2 : x < 2 ^ 63) : wrap64 x = x := by
  unfold wrap64
  omega

/-! ## Interleavings -/

/-- What a successful event is: a call made on the loop thread, a new timer
whose insertion is queued, a queued cancellation, the oldest task run by the
loop, a pass of `handleRead`, or nothing when the loop finds its queue of
tasks empty. -/
theorem occur_cases {ts : TimestampDecl} {s s' : TimerQueue} {ev : Event}
    (h : s.occur ts ev = .ok s') :
    (∃ c, s.call c = .ok s') ∨
    (∃ ptr when interval, ptr ≠ 0 ∧ s.heap ptr = none ∧
      ev = Event.addTimer false ptr when interval ∧
      s' = { s.store ptr ⟨when, interval, s.numCreated + 1⟩ with
        numCreated := s.numCreated + 1
        queued := s.queued ++ [LoopTask.addTimerInLoop ptr] }) ∨
    (∃ timerId, s' = { s with queued := s.queued ++ [LoopTask.cancelInLoop timerId] }) ∨
    (∃ p rest, s.queued = LoopTask.addTimerInLoop p :: rest ∧
      TimerQueue.addTimerInLoop { s with queued := rest } p = .ok s') ∨
    (∃ timerId rest, s.queued = LoopTask.cancelInLoop timerId :: rest ∧
      TimerQueue.call { s with queued := rest } (.cancel timerId) = .ok s') ∨
    (∃ now cbs, ev = Event.handleRead now cbs ∧ TimerQueue.handleRead ts s now cbs = .ok s') ∨
    s' = s := by
  cases ev with
  | addTimer inLoopThread ptr when interval =>
    have h' : s.addTimerFrom inLoopThread ptr when interval = .ok s' := h
    unfold TimerQueue.addTimerFrom at h'
    by_cases hp : ptr = 0 ∨ (s.heap ptr).isSome = true
    · simp [hp] at h'
    · rw [if_neg hp] at h'
      cases inLoopThread with
      | true =>
        refine Or.inl ⟨.addTimer ptr when interval, ?_⟩
        show s.addTimer ptr when interval = .ok s'
        unfold TimerQueue.addTimer
        rw [if_neg hp]
        exact h'
      | false =>
        have hp0 : ptr ≠ 0 := fun h0 => hp (Or.inl h0)
        have hnone : s.heap ptr = none := by
          cases hh : s.heap ptr with
          | none => rfl
          | some x => exact absurd (Or.inr (by simp [hh])) hp
        simp only [TimerQueue.runInLoop, Bool.false_eq_true, if_false] at h'
        injection h' with h'
        exact Or.inr (Or.inl ⟨ptr, when, interval, hp0, hnone, rfl, h'.symm⟩)
  | cancel inLoopThread timerId =>
    have h' : s.cancel inLoopThread timerId = .ok s' := h
    unfold TimerQueue.cancel TimerQueue.runInLoop at h'
    cases inLoopThread with
    | true => exact Or.inl ⟨.cancel timerId, h'⟩
    | false =>
      simp only [Bool.false_eq_true, if_false] at h'
      injection h' with h'
      exact Or.inr (Or.inr (Or.inl ⟨timerId, h'.symm⟩))
  | runQueued =>
    have h' : s.runQueued = .ok s' := h
    unfold TimerQueue.runQueued at h'
    cases hq : s.queued with
    | nil =>
      simp only [hq] at h'
      injection h' with h'
      exact Or.inr (Or.inr (Or.inr (Or.inr (Or.inr (Or.inr h'.symm)))))
    | cons task rest =>
      simp only [hq] at h'
      cases task with
      | addTimerInLoop p => exact Or.inr (Or.inr (Or.inr (Or.inl ⟨p, rest, rfl, h'⟩)))
      | cancelInLoop timerId =>
        exact Or.inr (Or.inr (Or.inr (Or.inr (Or.inl ⟨timerId, rest, rfl, h'⟩))))
  | handleRead now cbs =>
    exact Or.inr (Or.inr (Or.inr (Or.inr (Or.inr (Or.inl ⟨now, cbs, rfl, h⟩)))))

/-- A sequence of operations of the loop thread is the interleaving of the
same calls, all made on the loop thread. -/
theorem play_of_steps (ts : TimestampDecl) :
    ∀ (ops : List Op) (s : TimerQueue),
      TimerQueue.play ts (ops.map Op.toEvent) s = TimerQueue.steps ts ops s := by
  intro ops
  induction ops with
  | nil => exact fun _ => rfl
  | cons o os ih =>
    intro s
    have ho : s.occur ts o.toEvent = s.step ts o := by cases o <;> rfl
    simp only [List.map, TimerQueue.play, TimerQueue.steps, ho]
    cases s.step ts o with
    | error f => rfl
    | ok s1 => exact ih s1

/-- A property every event keeps is kept by an interleaving. -/
theorem play_keep (ts : TimestampDecl) (P : TimerQueue → Prop)
    (hoccur : ∀ s ev s', P s → s.occur ts ev = .ok s' → P s') :
    ∀ (evs : List Event) (s s' : TimerQueue), P s → TimerQueue.play ts evs s = .ok s' → P s' := by
  intro evs
  induction evs with
  | nil =>
    intro s s' hP h
    simp only [TimerQueue.play] at h
    injection h with h
    exact h ▸ hP
  | cons ev evs ih =>
    intro s s' hP h
    simp only [TimerQueue.play] at h
    cases ho : s.occur ts ev with
    | error f => simp [ho] at h
    | ok s1 =>
      simp only [ho] at h
      exact ih s1 s' (hoccur s ev s1 hP ho) h

/-- Well-formedness looks only at the timer objects that exist. -/
theorem wf_grow {s z : TimerQueue} (h1 : ∀ p t, s.heap p = some t → z.heap p = some t)
    (h2 : z.timers_ = s.timers_) (h3 : z.cancelingTimers_ = s.cancelingTimers_)
    (h4 : z.expired = s.expired) (hw : s.WF) : z.WF := by
  obtain ⟨hs, hk, ho, hnd, hdisj⟩ := hw
  refine ⟨by rw [h2]; exact hs, ?_, ?_, by rw [h4]; exact hnd, by rw [h4, h2]; exact hdisj⟩
  · intro e he
    rw [h2] at he
    obtain ⟨t, ht, hte⟩ := hk e he
    exact ⟨t, h1 _ _ ht, hte⟩
  · intro p hp
    have hp' : p ∈ s.owned := by
      rw [mem_owned] at hp ⊢
      rw [h2, h3, h4] at hp
      exact hp
    cases hh : s.heap p with
    | none => exact absurd hh (ho p hp')
    | some t => rw [h1 p t hh]; simp

/-- Outside a pass a successful `addTimerInLoop` keeps the queue
well-formed. -/
theorem addTimerInLoop_wf (s s' : TimerQueue) (p : TimerPtr) (hw : s.WF)
    (he : s.expired = []) (h : s.addTimerInLoop p = .ok s') : s'.WF := by
  obtain ⟨hs, hk, ho, hnd, hdisj⟩ := hw
  obtain ⟨t, ht, _, hheap, _, htim, hcan, _, hexp, _, _⟩ := addTimerInLoop_ok h
  refine ⟨by rw [htim]; exact setInsert_sorted _ _ hs, ?_, ?_, by rw [hexp]; exact hnd, ?_⟩
  · intro x hx
    rw [htim] at hx
    rw [hheap]
    rcases (mem_setInsert _ _ _).1 hx with rfl | hx
    · exact ⟨t, ht, rfl⟩
    · exact hk x hx
  · intro q hq
    rw [mem_owned, htim, hcan, hexp] at hq
    rw [hheap]
    rcases hq with hq | hq | hq
    · obtain ⟨x, hx, hxq⟩ := List.mem_map.1 hq
      rcases (mem_setInsert _ _ _).1 hx with rfl | hx
      · rw [← hxq]
        show s.heap p ≠ none
        rw [ht]; simp
      · exact ho q (mem_owned.2 (Or.inl (List.mem_map.2 ⟨x, hx, hxq⟩)))
    · exact ho q (mem_owned.2 (Or.inr (Or.inl hq)))
    · exact ho q (mem_owned.2 (Or.inr (Or.inr hq)))
  · intro e he'
    rw [hexp, he] at he'
    cases he'

/-- A pass of `handleRead` keeps the timer objects there are. -/
theorem handleRead_heap_some {ts : TimestampDecl} {s s' : TimerQueue} {now : Timestamp}
    {cbs : TimerPtr → List Call} (h : TimerQueue.handleRead ts s now cbs = .ok s')
    (p : TimerPtr) (hp : s.heap p ≠ none) : s'.heap p ≠ none := by
  obtain ⟨n, s2, s3, _, hrun, hres, hs'⟩ := handleRead_ok h
  have h2 : s2.heap p ≠ none :=
    runExpired_keep (fun z => z.heap p ≠ none)
      (fun a _ b hP hc => by
        cases hh : a.heap p with
        | none => exact absurd hh hP
        | some t => rw [(call_effect hc).1 p t hh]; simp)
      (fun _ _ hP => hP) cbs _
      { s with timers_ := s.timers_.drop n, callingExpiredTimers_ := true,
               cancelingTimers_ := [], expired := s.timers_.take n } s2 hp hrun
  obtain ⟨s4, m, hloop, _, hs3⟩ := reset_ok hres
  obtain ⟨_, hheap⟩ := resetLoop_mem now _ _ _ hloop
  have h4 : s4.heap p ≠ none := hheap p h2
  have h34 : s3.heap = s4.heap := by
    rw [hs3]
    split <;> rfl
  subst hs'
  show s3.heap p ≠ none
  rw [h34]
  exact h4

/-- An event keeps the timer objects there are. -/
theorem occur_heap {ts : TimestampDecl} {s s' : TimerQueue} {ev : Event}
    (h : s.occur ts ev = .ok s') (p : TimerPtr) (hp : s.heap p ≠ none) : s'.heap p ≠ none := by
  rcases occur_cases h with ⟨c, hc⟩ | ⟨ptr, w, i, _, hnone, _, rfl⟩ | ⟨timerId, rfl⟩ |
    ⟨q, rest, _, hc⟩ | ⟨timerId, rest, _, hc⟩ | ⟨now, cbs, _, hc⟩ | rfl
  · cases hh : s.heap p with
    | none => exact absurd hh hp
    | some t => rw [(call_effect hc).1 p t hh]; simp
  · have : p ≠ ptr := fun hpp => hp (hpp ▸ hnone)
    simp only [TimerQueue.store, this, if_false]
    exact hp
  · exact hp
  · obtain ⟨_, _, _, hheap, _⟩ := addTimerInLoop_ok hc
    rw [hheap]
    exact hp
  · cases hh : s.heap p with
    | none => exact absurd hh hp
    | some t =>
      have := (call_effect hc).1 p t hh
      rw [this]; simp
  · exact handleRead_heap_some hc p hp
  · exact hp

/-- The method `cancelInLoop` on the handle of a timer leaves the timer out
of the pending set, in a queue whose pending set is ascending and keyed by
the expirations of its timers. -/
theorem cancelInLoop_absent (s s' : TimerQueue) (T : TimerPtr)
    (hs : s.timers_.Pairwise entryLt) (hk : s.KeysAgree)
    (h : s.cancelInLoop ⟨T⟩ = .ok s') : T ∉ s'.timers_.map Prod.snd := by
  by_cases hT : T ∈ s.timers_.map Prod.snd
  · obtain ⟨t, _, _, hrun, hout⟩ := cancelInLoop_pending s T hs hk hT
    rw [hrun] at h
    injection h with h
    subst h
    exact hout
  · rcases cancelInLoop_ok h with h' | ⟨t, _, _, _, h'⟩ | ⟨t, _, _, _, _, h'⟩ <;> subst h'
    · exact hT
    · intro hm
      obtain ⟨x, hx, hxT⟩ := List.mem_map.1 hm
      exact hT (List.mem_map.2 ⟨x, (List.mem_filter.1 hx).1, hxT⟩)
    · exact hT

/-- The empty queue is sound. -/
theorem empty_sound : TimerQueue.empty.Sound :=
  ⟨empty_wf, ⟨rfl, rfl⟩, List.Pairwise.nil, fun _ hp => by cases hp⟩

/-- A timer whose insertion waits in the queue of a sound queue is retired. -/
theorem waiting_retired {s : TimerQueue} (hS : s.Sound) {p : TimerPtr}
    (hp : LoopTask.addTimerInLoop p ∈ s.queued) : s.Retired p := by
  obtain ⟨_, ⟨_, he⟩, _, hwait⟩ := hS
  obtain ⟨h1, h2⟩ := hwait p hp
  exact ⟨h1, by rw [he]; simp, h2⟩

/-- An event keeps the queue sound. -/
theorem occur_sound (ts : TimestampDecl) (s : TimerQueue) (ev : Event) (s' : TimerQueue)
    (hS : s.Sound) (h : s.occur ts ev = .ok s') : s'.Sound := by
  have hS0 := hS
  obtain ⟨hw, ⟨hflag, hexp⟩, hpw, hwait⟩ := hS
  rcases occur_cases h with ⟨c, hc⟩ | ⟨ptr, w, i, _, hnone, _, rfl⟩ | ⟨timerId, rfl⟩ |
    ⟨q, rest, hq, hc⟩ | ⟨timerId, rest, hq, hc⟩ | ⟨now, cbs, _, hc⟩ | rfl
  · obtain ⟨_, he', hf'⟩ := call_frame hc
    refine ⟨call_wf s c s' hw hc, ⟨hf'.trans hflag, he'.trans hexp⟩, ?_, ?_⟩
    · rw [call_queued hc]; exact hpw
    · intro p hp
      rw [call_queued hc] at hp
      have := call_retired p s c s' (waiting_retired hS0 hp) hc
      exact ⟨this.1, this.2.2⟩
  · have hgrow : ∀ p t, s.heap p = some t →
        (if p = ptr then some (⟨w, i, s.numCreated + 1⟩ : Timer) else s.heap p) = some t := by
      intro p t hp
      have : p ≠ ptr := fun hpp => by rw [hpp, hnone] at hp; cases hp
      simp only [this, if_false]
      exact hp
    refine ⟨wf_grow hgrow rfl rfl rfl hw, ⟨hflag, hexp⟩, ?_, ?_⟩
    · show (s.queued ++ [LoopTask.addTimerInLoop ptr]).Pairwise _
      rw [List.pairwise_append]
      refine ⟨hpw, List.pairwise_singleton _ _, ?_⟩
      intro a ha b hb p hap hbp
      rw [List.mem_singleton] at hb
      rw [hb] at hbp
      injection hbp with hbp
      rw [hap] at ha
      have := (hwait p ha).2
      rw [← hbp] at this
      exact this hnone
    · intro p hp
      have hp' : LoopTask.addTimerInLoop p ∈ s.queued ++ [LoopTask.addTimerInLoop ptr] := hp
      rcases List.mem_append.1 hp' with hp' | hp'
      · obtain ⟨h1, h2⟩ := hwait p hp'
        refine ⟨h1, ?_⟩
        cases hh : s.heap p with
        | none => exact absurd hh h2
        | some t =>
          show (if p = ptr then some (⟨w, i, s.numCreated + 1⟩ : Timer) else s.heap p) ≠ none
          rw [hgrow p t hh]; simp
      · rw [List.mem_singleton] at hp'
        injection hp' with hp'
        subst hp'
        refine ⟨?_, ?_⟩
        · intro hm
          obtain ⟨x, hx, hxp⟩ := List.mem_map.1 hm
          obtain ⟨t, ht, _⟩ := hw.2.1 x hx
          rw [hxp, hnone] at ht
          cases ht
        · show (if p = p then some (⟨w, i, s.numCreated + 1⟩ : Timer) else s.heap p) ≠ none
          simp
  · refine ⟨wf_congr rfl rfl rfl rfl hw, ⟨hflag, hexp⟩, ?_, ?_⟩
    · show (s.queued ++ [LoopTask.cancelInLoop timerId]).Pairwise _
      rw [List.pairwise_append]
      refine ⟨hpw, List.pairwise_singleton _ _, ?_⟩
      intro a _ b hb p _ hbp
      rw [List.mem_singleton] at hb
      rw [hb] at hbp
      cases hbp
    · intro p hp
      have hp' : LoopTask.addTimerInLoop p ∈ s.queued ++ [LoopTask.cancelInLoop timerId] := hp
      rcases List.mem_append.1 hp' with hp' | hp'
      · exact hwait p hp'
      · rw [List.mem_singleton] at hp'
        cases hp'
  · have hw0 : ({ s with queued := rest } : TimerQueue).WF := wf_congr rfl rfl rfl rfl hw
    obtain ⟨t, ht, _, hheap, _, htim, _, hcal, hexp', _, _⟩ := addTimerInLoop_ok hc
    have hq' := addTimerInLoop_queued hc
    rw [hq] at hpw hwait
    obtain ⟨hhead, htail⟩ := List.pairwise_cons.1 hpw
    refine ⟨addTimerInLoop_wf _ s' q hw0 hexp hc, ⟨hcal.trans hflag, hexp'.trans hexp⟩, ?_, ?_⟩
    · rw [hq']; exact htail
    · intro p hp
      rw [hq'] at hp
      have hp1 : LoopTask.addTimerInLoop p ∈ rest := hp
      have hne : p ≠ q := fun hpq => hhead _ hp1 q rfl (by rw [hpq])
      obtain ⟨h1, h2⟩ := hwait p (List.mem_cons_of_mem _ hp1)
      refine ⟨?_, by rw [hheap]; exact h2⟩
      intro hm
      rw [htim] at hm
      obtain ⟨x, hx, hxp⟩ := List.mem_map.1 hm
      rcases (mem_setInsert _ _ _).1 hx with rfl | hx
      · exact hne hxp.symm
      · exact h1 (List.mem_map.2 ⟨x, hx, hxp⟩)
  · have hw0 : ({ s with queued := rest } : TimerQueue).WF := wf_congr rfl rfl rfl rfl hw
    obtain ⟨_, he', hf'⟩ := call_frame hc
    have hq' := call_queued hc
    rw [hq] at hpw
    obtain ⟨_, htail⟩ := List.pairwise_cons.1 hpw
    refine ⟨call_wf _ _ s' hw0 hc, ⟨hf'.trans hflag, he'.trans hexp⟩, ?_, ?_⟩
    · rw [hq']; exact htail
    · intro p hp
      rw [hq'] at hp
      have hp1 : LoopTask.addTimerInLoop p ∈ rest := hp
      have hR := waiting_retired hS0 (by rw [hq]; exact List.mem_cons_of_mem _ hp1)
      have := call_retired p { s with queued := rest } _ s' hR hc
      exact ⟨this.1, this.2.2⟩
  · obtain ⟨n, s2, s3, _, _, hres, hs'⟩ := handleRead_ok hc
    have hidle : s'.Idle := by
      subst hs'
      exact ⟨(reset_frame hres).2.2.1, rfl⟩
    refine ⟨handleRead_wf ts s s' now cbs hw hc, hidle, ?_, ?_⟩
    · rw [handleRead_queued hc]; exact hpw
    · intro p hp
      rw [handleRead_queued hc] at hp
      have := (handleRead_retired ts p s s' now cbs (waiting_retired hS0 hp) hc).1
      exact ⟨this.1, this.2.2⟩
  · exact hS0

/-- Every queue an interleaving reaches from a sound queue is sound. -/
theorem play_sound (ts : TimestampDecl) (evs : List Event) (s s' : TimerQueue)
    (hS : s.Sound) (h : TimerQueue.play ts evs s = .ok s') : s'.Sound :=
  play_keep ts TimerQueue.Sound (occur_sound ts) evs s s' hS h

/-- An event neither brings back a timer that is out of the queue for good
nor invokes its callback. -/
theorem occur_gone (ts : TimestampDecl) (T : TimerPtr) (s : TimerQueue) (ev : Event)
    (s' : TimerQueue) (hG : s.Gone T) (h : s.occur ts ev = .ok s') :
    s'.Gone T ∧ ∃ l, s'.ran = s.ran ++ l ∧ T ∉ l := by
  obtain ⟨hR, hnq⟩ := hG
  rcases occur_cases h with ⟨c, hc⟩ | ⟨ptr, w, i, _, hnone, _, rfl⟩ | ⟨timerId, rfl⟩ |
    ⟨q, rest, hq, hc⟩ | ⟨timerId, rest, hq, hc⟩ | ⟨now, cbs, _, hc⟩ | rfl
  · exact ⟨⟨call_retired T s c s' hR hc, by rw [call_queued hc]; exact hnq⟩,
      [], by simp [(call_frame hc).1], by simp⟩
  · have hne : T ≠ ptr := fun hTp => hR.2.2 (hTp ▸ hnone)
    refine ⟨⟨⟨hR.1, hR.2.1, ?_⟩, ?_⟩, [], by simp [TimerQueue.store], by simp⟩
    · show (if T = ptr then some (⟨w, i, s.numCreated + 1⟩ : Timer) else s.heap T) ≠ none
      simp only [hne, if_false]
      exact hR.2.2
    · intro hm
      have hm' : LoopTask.addTimerInLoop T ∈ s.queued ++ [LoopTask.addTimerInLoop ptr] := hm
      rcases List.mem_append.1 hm' with hm' | hm'
      · exact hnq hm'
      · rw [List.mem_singleton] at hm'
        injection hm' with hm'
        exact hne hm'
  · refine ⟨⟨hR, ?_⟩, [], by simp, by simp⟩
    intro hm
    have hm' : LoopTask.addTimerInLoop T ∈ s.queued ++ [LoopTask.cancelInLoop timerId] := hm
    rcases List.mem_append.1 hm' with hm' | hm'
    · exact hnq hm'
    · rw [List.mem_singleton] at hm'
      cases hm'
  · obtain ⟨t, _, _, hheap, _, htim, _, _, hexp', hran, _⟩ := addTimerInLoop_ok hc
    have hq' := addTimerInLoop_queued hc
    have hne : q ≠ T := fun hqT => hnq (by rw [hq, hqT]; exact List.mem_cons_self _ _)
    refine ⟨⟨⟨?_, by rw [hexp']; exact hR.2.1, by rw [hheap]; exact hR.2.2⟩, ?_⟩,
      [], by simp [hran], by simp⟩
    · intro hm
      rw [htim] at hm
      obtain ⟨x, hx, hxT⟩ := List.mem_map.1 hm
      rcases (mem_setInsert _ _ _).1 hx with rfl | hx
      · exact hne hxT
      · exact hR.1 (List.mem_map.2 ⟨x, hx, hxT⟩)
    · rw [hq']
      intro hm
      exact hnq (by rw [hq]; exact List.mem_cons_of_mem _ hm)
  · have hR0 : TimerQueue.Retired T { s with queued := rest } := hR
    refine ⟨⟨call_retired T _ _ s' hR0 hc, ?_⟩, [], by simp [(call_frame hc).1], by simp⟩
    rw [call_queued hc]
    intro hm
    exact hnq (by rw [hq]; exact List.mem_cons_of_mem _ hm)
  · obtain ⟨hR', l, hl, hTl⟩ := handleRead_retired ts T s s' now cbs hR hc
    exact ⟨⟨hR', by rw [handleRead_queued hc]; exact hnq⟩, l, hl, hTl⟩
  · exact ⟨⟨hR, hnq⟩, [], by simp, by simp⟩

/-- No interleaving brings back a timer that is out of the queue for good or
invokes its callback. -/
theorem play_gone (ts : TimestampDecl) (T : TimerPtr) :
    ∀ (evs : List Event) (s s' : TimerQueue), s.Gone T →
      TimerQueue.play ts evs s = .ok s' →
      s'.Gone T ∧ ∃ l, s'.ran = s.ran ++ l ∧ T ∉ l := by
  intro evs
  induction evs with
  | nil =>
    intro s s' hG h
    simp only [TimerQueue.play] at h
    injection h with h
    subst h
    exact ⟨hG, [], by simp, by simp⟩
  | cons ev evs ih =>
    intro s s' hG h
    simp only [TimerQueue.play] at h
    cases ho : s.occur ts ev with
    | error f => simp [ho] at h
    | ok s1 =>
      simp only [ho] at h
      obtain ⟨hG1, l1, hl1, hT1⟩ := occur_gone ts T s ev s1 hG ho
      obtain ⟨hG', l2, hl2, hT2⟩ := ih s1 s' hG1 h
      refine ⟨hG', l1 ++ l2, by rw [hl2, hl1, List.append_assoc], ?_⟩
      intro hm
      rcases List.mem_append.1 hm with hm | hm
      · exact hT1 hm
      · exact hT2 hm

/-! ## A cancellation queued behind the insertion -/

/-- A cancellation appended to the queue of tasks is behind every insertion
in it. -/
theorem cancelBehind_append_cancel (T : TimerPtr) :
    ∀ q : List LoopTask, cancelBehind T (q ++ [LoopTask.cancelInLoop ⟨T⟩]) := by
  intro q
  induction q with
  | nil =>
    show (_ → _) ∧ True
    exact ⟨fun h => LoopTask.noConfusion h, trivial⟩
  | cons task rest ih =>
    show (_ → _) ∧ cancelBehind T (rest ++ [LoopTask.cancelInLoop ⟨T⟩])
    exact ⟨fun _ => List.mem_append_right _ (List.mem_singleton.2 rfl), ih⟩

/-- A task other than the insertion of `T` appended to the queue of tasks
leaves every insertion of `T` with a cancellation behind it. -/
theorem cancelBehind_append (T : TimerPtr) (task : LoopTask)
    (hne : task ≠ LoopTask.addTimerInLoop T) :
    ∀ q : List LoopTask, cancelBehind T q → cancelBehind T (q ++ [task]) := by
  intro q
  induction q with
  | nil =>
    intro _
    show (_ → _) ∧ True
    exact ⟨fun h => absurd h hne, trivial⟩
  | cons a rest ih =>
    intro h
    show (_ → _) ∧ cancelBehind T (rest ++ [task])
    exact ⟨fun ha => List.mem_append_left _ (h.1 ha), ih h.2⟩

/-- A queue of tasks without a cancellation of `T`, in which every insertion
of `T` has one behind it, holds no insertion of `T`. -/
theorem cancelBehind_none (T : TimerPtr) :
    ∀ q : List LoopTask, cancelBehind T q → LoopTask.cancelInLoop ⟨T⟩ ∉ q →
      LoopTask.addTimerInLoop T ∉ q := by
  intro q
  induction q with
  | nil => exact fun _ _ h => by cases h
  | cons a rest ih =>
    intro h hn hm
    rcases List.mem_cons.1 hm with hm | hm
    · exact hn (List.mem_cons_of_mem _ (h.1 hm.symm))
    · exact ih h.2 (fun hc => hn (List.mem_cons_of_mem _ hc)) hm

/-- A queue of tasks without an insertion of `T`. -/
theorem cancelBehind_of_none (T : TimerPtr) :
    ∀ q : List LoopTask, LoopTask.addTimerInLoop T ∉ q → cancelBehind T q := by
  intro q
  induction q with
  | nil => exact fun _ => trivial
  | cons a rest ih =>
    intro hn
    show (_ → _) ∧ cancelBehind T rest
    exact ⟨fun ha => absurd (ha ▸ List.mem_cons_self _ _) hn,
      ih (fun hm => hn (List.mem_cons_of_mem _ hm))⟩

/-- In a sound queue an event keeps the timer `T` doomed: every insertion of
`T` that waits has a cancellation of `T` behind it, and while `T` is pending a
cancellation of `T` waits. -/
theorem occur_doomed (ts : TimestampDecl) (T : TimerPtr) (s : TimerQueue) (ev : Event)
    (s' : TimerQueue) (hS : s.Sound) (hT : s.heap T ≠ none)
    (hD : cancelBehind T s.queued ∧
      (T ∈ s.timers_.map Prod.snd → LoopTask.cancelInLoop ⟨T⟩ ∈ s.queued))
    (h : s.occur ts ev = .ok s') :
    cancelBehind T s'.queued ∧
      (T ∈ s'.timers_.map Prod.snd → LoopTask.cancelInLoop ⟨T⟩ ∈ s'.queued) := by
  obtain ⟨hw, ⟨hflag, hexp⟩, _, _⟩ := hS
  obtain ⟨hB, hP⟩ := hD
  have hret : T ∉ s.timers_.map Prod.snd → s.Retired T := fun hn =>
    ⟨hn, by rw [hexp]; simp, hT⟩
  rcases occur_cases h with ⟨c, hc⟩ | ⟨ptr, w, i, _, hnone, _, rfl⟩ | ⟨timerId, rfl⟩ |
    ⟨q, rest, hq, hc⟩ | ⟨timerId, rest, hq, hc⟩ | ⟨now, cbs, _, hc⟩ | rfl
  · rw [call_queued hc]
    refine ⟨hB, fun hin => hP ?_⟩
    by_contra hn
    exact (call_retired T s c s' (hret hn) hc).1 hin
  · have hne : LoopTask.addTimerInLoop ptr ≠ LoopTask.addTimerInLoop T := by
      intro he
      injection he with he
      exact hT (he ▸ hnone)
    exact ⟨cancelBehind_append T _ hne _ hB, fun hin => List.mem_append_left _ (hP hin)⟩
  · exact ⟨cancelBehind_append T _ (fun he => by cases he) _ hB,
      fun hin => List.mem_append_left _ (hP hin)⟩
  · obtain ⟨t, _, _, _, _, htim, _⟩ := addTimerInLoop_ok hc
    rw [addTimerInLoop_queued hc]
    rw [hq] at hB hP
    refine ⟨hB.2, ?_⟩
    intro hin
    rw [htim] at hin
    obtain ⟨x, hx, hxT⟩ := List.mem_map.1 hin
    rcases (mem_setInsert _ _ _).1 hx with rfl | hx
    · have hqT : q = T := hxT
      exact hB.1 (by rw [hqT])
    · rcases List.mem_cons.1 (hP (List.mem_map.2 ⟨x, hx, hxT⟩)) with hm | hm
      · cases hm
      · exact hm
  · rw [call_queued hc]
    rw [hq] at hB hP
    refine ⟨hB.2, ?_⟩
    intro hin
    by_cases hid : timerId = ⟨T⟩
    · subst hid
      have hc' : TimerQueue.cancelInLoop { s with queued := rest } ⟨T⟩ = .ok s' := hc
      exact absurd hin (cancelInLoop_absent { s with queued := rest } s' T hw.1 hw.2.1 hc')
    · have hpend : T ∈ s.timers_.map Prod.snd := by
        by_contra hn
        have hR0 : TimerQueue.Retired T { s with queued := rest } := hret hn
        exact (call_retired T _ _ s' hR0 hc).1 hin
      rcases List.mem_cons.1 (hP hpend) with hm | hm
      · injection hm with hm
        exact absurd hm.symm hid
      · exact hm
  · rw [handleRead_queued hc]
    refine ⟨hB, fun hin => hP ?_⟩
    by_contra hn
    exact (handleRead_retired ts T s s' now cbs (hret hn) hc).1.1 hin
  · exact ⟨hB, hP⟩

/-- Once a timer is doomed in a sound queue, it is out of the queue for good
as soon as no cancellation of it waits any more. -/
theorem play_doomed (ts : TimestampDecl) (T : TimerPtr) (evs : List Event) (s s' : TimerQueue)
    (hS : s.Sound) (hT : s.heap T ≠ none)
    (hD : cancelBehind T s.queued ∧
      (T ∈ s.timers_.map Prod.snd → LoopTask.cancelInLoop ⟨T⟩ ∈ s.queued))
    (h : TimerQueue.play ts evs s = .ok s')
    (hrun : LoopTask.cancelInLoop ⟨T⟩ ∉ s'.queued) : s'.Gone T := by
  have hall := play_keep ts
    (fun z => z.Sound ∧ z.heap T ≠ none ∧ cancelBehind T z.queued ∧
      (T ∈ z.timers_.map Prod.snd → LoopTask.cancelInLoop ⟨T⟩ ∈ z.queued))
    (fun a ev b hP ho => ⟨occur_sound ts a ev b hP.1 ho, occur_heap ho T hP.2.1,
      occur_doomed ts T a ev b hP.1 hP.2.1 hP.2.2 ho⟩)
    evs s s' ⟨hS, hT, hD⟩ h
  obtain ⟨hS', hT', hB', hP'⟩ := hall
  refine ⟨⟨fun hin => hrun (hP' hin), ?_, hT'⟩, cancelBehind_none T _ hB' hrun⟩
  rw [hS'.2.1.2]
  simp

/-! ## A cancellation made by a callback -/

/-- Inside a pass, calls of a callback one of which cancels the handle of a
timer that is not firing leave that timer retired. -/
theorem calls_cancel_retires (T : TimerPtr) :
    ∀ (cs : List Call) (z z' : TimerQueue), z.WF → T ∉ z.expired.map Prod.snd →
      z.heap T ≠ none → TimerQueue.calls cs z = .ok z' →
      (z.Retired T ∨ Call.cancel ⟨T⟩ ∈ cs) → z'.Retired T := by
  intro cs
  induction cs with
  | nil =>
    intro z z' _ _ _ h hor
    simp only [TimerQueue.calls] at h
    injection h with h
    subst h
    rcases hor with hor | hor
    · exact hor
    · cases hor
  | cons c cs ih =>
    intro z z' hw he hT h hor
    simp only [TimerQueue.calls] at h
    cases hc : z.call c with
    | error f => simp [hc] at h
    | ok z1 =>
      simp only [hc] at h
      have hw1 := call_wf z c z1 hw hc
      have he1 : T ∉ z1.expired.map Prod.snd := by rw [(call_frame hc).2.1]; exact he
      have hT1 : z1.heap T ≠ none := by
        cases hh : z.heap T with
        | none => exact absurd hh hT
        | some t => rw [(call_effect hc).1 T t hh]; simp
      refine ih z1 z' hw1 he1 hT1 h ?_
      rcases hor with hor | hor
      · exact Or.inl (call_retired T z c z1 hor hc)
      · rcases List.mem_cons.1 hor with hor | hor
        · subst hor
          have hc' : z.cancelInLoop ⟨T⟩ = .ok z1 := hc
          exact Or.inl ⟨cancelInLoop_absent z z1 T hw.1 hw.2.1 hc', he1, hT1⟩
        · exact Or.inr hor

/-- The loop of `handleRead` over entries one of which belongs to the timer
`A`, whose callback cancels the handle of a timer that is not firing, leaves
that timer retired. -/
theorem runExpired_cancel_retires (cbs : TimerPtr → List Call) (T A : TimerPtr)
    (hcb : Call.cancel ⟨T⟩ ∈ cbs A) :
    ∀ (es : List Entry) (z z' : TimerQueue), z.WF → T ∉ z.expired.map Prod.snd →
      z.heap T ≠ none → TimerQueue.runExpired cbs es z = .ok z' →
      (z.Retired T ∨ A ∈ es.map Prod.snd) → z'.Retired T := by
  intro es
  induction es with
  | nil =>
    intro z z' _ _ _ h hor
    simp only [TimerQueue.runExpired] at h
    injection h with h
    subst h
    rcases hor with hor | hor
    · exact hor
    · cases hor
  | cons e es ih =>
    intro z z' hw he hT h hor
    simp only [TimerQueue.runExpired] at h
    cases hr : z.run e.2 (cbs e.2) with
    | error f => simp [hr] at h
    | ok z1 =>
      simp only [hr] at h
      have hr' : TimerQueue.calls (cbs e.2) { z with ran := z.ran ++ [e.2] } = .ok z1 := hr
      have hw0 : ({ z with ran := z.ran ++ [e.2] } : TimerQueue).WF :=
        wf_congr rfl rfl rfl rfl hw
      have hw1 := calls_wf (cbs e.2) _ z1 hw0 hr'
      have he1 : T ∉ z1.expired.map Prod.snd := by
        rw [(calls_frame hr').2.1]; exact he
      have hT1 : z1.heap T ≠ none :=
        calls_keep (fun x => x.heap T ≠ none)
          (fun a _ b hP hc => by
            cases hh : a.heap T with
            | none => exact absurd hh hP
            | some t => rw [(call_effect hc).1 T t hh]; simp)
          (cbs e.2) { z with ran := z.ran ++ [e.2] } z1 hT hr'
      refine ih z1 z' hw1 he1 hT1 h ?_
      rcases hor with hor | hor
      · exact Or.inl (calls_cancel_retires T (cbs e.2) _ z1 hw0 he hT hr' (Or.inl hor))
      · rcases List.mem_cons.1 hor with hor | hor
        · refine Or.inl (calls_cancel_retires T (cbs e.2) _ z1 hw0 he hT hr' (Or.inr ?_))
          rw [← hor]
          exact hcb
        · exact Or.inr hor

/-- In a queue whose pending set is ascending and keyed by the expirations of
its timers, a timer whose handle the callback of a timer due at `now` cancels
is retired after the pass at `now`. -/
theorem handleRead_cancel_by (ts : TimestampDecl) (s s' : TimerQueue) (now : Timestamp)
    (cbs : TimerPtr → List Call) (a : Entry) (T : TimerPtr)
    (hs : s.timers_.Pairwise entryLt) (hk : s.KeysAgree) (hT : s.heap T ≠ none)
    (ha : a ∈ s.timers_) (hadue : a.1 ≤ now) (hcb : Call.cancel ⟨T⟩ ∈ cbs a.2)
    (h : TimerQueue.handleRead ts s now cbs = .ok s') : s'.Retired T := by
  by_cases hdue : ∃ b ∈ s.timers_, b.2 = T ∧ b.1 ≤ now
  · obtain ⟨b, hb, hbT, hbdue⟩ := hdue
    rw [← hbT] at hcb ⊢
    exact (handleRead_cancelled ts s s' now cbs a b hs hk ha hadue hb hbdue hcb h).1
  · obtain ⟨n, s2, s3, hg, hrun, hres, hs'⟩ := handleRead_ok h
    rw [getExpired_eq s now hs] at hg
    injection hg with hg
    have hE : s.timers_.take n = s.timers_.filter (fun x => decide (x.1 ≤ now)) :=
      (congrArg Prod.fst hg).symm
    have haE : a.2 ∈ (s.timers_.take n).map Prod.snd := by
      rw [hE]
      exact List.mem_map.2 ⟨a, List.mem_filter.2 ⟨ha, by simpa using hadue⟩, rfl⟩
    have htake : T ∉ (s.timers_.take n).map Prod.snd := by
      intro hm
      rw [hE] at hm
      obtain ⟨x, hx, hxT⟩ := List.mem_map.1 hm
      have hxf := List.mem_filter.1 hx
      exact hdue ⟨x, hxf.1, hxT, by simpa using hxf.2⟩
    have hJ2 : s2.Retired T :=
      runExpired_cancel_retires cbs T a.2 hcb _
        { s with timers_ := s.timers_.drop n, callingExpiredTimers_ := true,
                 cancelingTimers_ := [], expired := s.timers_.take n } s2
        (pass_start_wf s n hs hk) htake hT hrun (Or.inr haE)
    obtain ⟨s4, m, hloop, _, hs3⟩ := reset_ok hres
    obtain ⟨hmem, hheap⟩ := resetLoop_mem now _ _ _ hloop
    have ht4 : T ∉ s4.timers_.map Prod.snd := by
      intro hm
      obtain ⟨x, hx, hxT⟩ := List.mem_map.1 hm
      rcases hmem x hx with hx' | hx'
      · exact hJ2.1 (List.mem_map.2 ⟨x, hx', hxT⟩)
      · rw [hxT] at hx'
        exact htake hx'
    have hh4 : s4.heap T ≠ none := hheap T hJ2.2.2
    have hJ3 : s3.timers_ = s4.timers_ ∧ s3.heap = s4.heap := by
      rw [hs3]
      split <;> exact ⟨rfl, rfl⟩
    subst hs'
    exact ⟨by simp only; rw [hJ3.1]; exact ht4, by simp, by simp only; rw [hJ3.2]; exact hh4⟩

/-! ## The timer a call of `addTimer` created -/

/-- A call of `addTimer`, on whichever thread, leaves the object of its timer
behind. -/
theorem addTimerFrom_created {s s' : TimerQueue} {b : Bool} {T : TimerPtr} {w : Timestamp}
    {i : Int} (h : s.addTimerFrom b T w i = .ok s') : s'.heap T ≠ none := by
  unfold TimerQueue.addTimerFrom at h
  split at h
  · cases h
  · cases b with
    | true =>
      have h' : TimerQueue.addTimerInLoop
          { s.store T ⟨w, i, s.numCreated + 1⟩ with numCreated := s.numCreated + 1 } T
          = .ok s' := h
      obtain ⟨_, _, _, hheap, _⟩ := addTimerInLoop_ok h'
      rw [hheap]
      simp [TimerQueue.store]
    | false =>
      simp only [TimerQueue.runInLoop, Bool.false_eq_true, if_false] at h
      injection h with h
      subst h
      simp [TimerQueue.store]

/-- The object of a timer that a call of `addTimer` of an interleaving created
is there when the interleaving is over. -/
theorem play_created (ts : TimestampDecl) (b : Bool) (T : TimerPtr) (w : Timestamp) (i : Int) :
    ∀ (evs : List Event) (s s' : TimerQueue), Event.addTimer b T w i ∈ evs →
      TimerQueue.play ts evs s = .ok s' → s'.heap T ≠ none := by
  intro evs
  induction evs with
  | nil => exact fun _ _ hm _ => by cases hm
  | cons ev evs ih =>
    intro s s' hm h
    simp only [TimerQueue.play] at h
    cases ho : s.occur ts ev with
    | error f => simp [ho] at h
    | ok s1 =>
      simp only [ho] at h
      rcases List.mem_cons.1 hm with hm | hm
      · subst hm
        have h1 : s1.heap T ≠ none := addTimerFrom_created ho
        exact play_keep ts (fun z => z.heap T ≠ none)
          (fun _ _ _ hP hoc => occur_heap hoc T hP) evs s1 s' h1 h
      · exact ih s1 s' hm h

/-! ## The loop runs its queue of tasks -/

/-- In a sound queue the loop runs the oldest task without a fault, and the
tasks behind it stay in the queue. -/
theorem runQueued_total (s : TimerQueue) (hS : s.Sound) :
    ∃ s', s.runQueued = .ok s' ∧ s'.queued = s.queued.tail := by
  obtain ⟨hw, _, _, hwait⟩ := hS
  unfold TimerQueue.runQueued
  cases hq : s.queued with
  | nil => exact ⟨s, rfl, hq⟩
  | cons task rest =>
    have hw0 : ({ s with queued := rest } : TimerQueue).WF := wf_congr rfl rfl rfl rfl hw
    cases task with
    | addTimerInLoop p =>
      obtain ⟨hn, hp⟩ := hwait p (by rw [hq]; exact List.mem_cons_self _ _)
      cases hh : s.heap p with
      | none => exact absurd hh hp
      | some t =>
        obtain ⟨s1, h1⟩ := addTimerInLoop_fresh { s with queued := rest } p t hh hn
        exact ⟨s1, h1, addTimerInLoop_queued h1⟩
    | cancelInLoop timerId =>
      obtain ⟨s1, h1⟩ := call_total { s with queued := rest } (.cancel timerId) hw0
        (fun p hp => by simp [allocs] at hp)
      exact ⟨s1, h1, call_queued h1⟩

/-- In a sound queue the loop runs all the tasks of its queue without a
fault. -/
theorem drain_total (ts : TimestampDecl) :
    ∀ (n : Nat) (s : TimerQueue), s.Sound → s.queued.length = n →
      ∃ s', TimerQueue.play ts (List.replicate n Event.runQueued) s = .ok s' ∧
        s'.queued = [] := by
  intro n
  induction n with
  | zero =>
    intro s _ hn
    exact ⟨s, rfl, List.length_eq_zero.1 hn⟩
  | succ n ih =>
    intro s hS hn
    obtain ⟨s1, h1, hq1⟩ := runQueued_total s hS
    have ho : s.occur ts Event.runQueued = .ok s1 := h1
    have hS1 := occur_sound ts s _ s1 hS ho
    have hn1 : s1.queued.length = n := by
      rw [hq1, List.length_tail, hn]
      rfl
    obtain ⟨s', h', hq'⟩ := ih s1 hS1 hn1
    refine ⟨s', ?_, hq'⟩
    simp only [List.replicate, TimerQueue.play, ho]
    exact h'

/-! ## The canceling set outside a pass -/

/-- Outside a pass an event other than a pass of `handleRead` leaves
`cancelingTimers_` as it is. -/
theorem occur_canceling_idle (ts : TimestampDecl) (s : TimerQueue) (ev : Event)
    (s' : TimerQueue) (hflag : s.callingExpiredTimers_ = false)
    (hev : ∀ now cbs, ev ≠ Event.handleRead now cbs) (ho : s.occur ts ev = .ok s') :
    s'.cancelingTimers_ = s.cancelingTimers_ := by
  rcases occur_cases ho with ⟨c, hc⟩ | ⟨ptr, w, i, _, _, _, rfl⟩ | ⟨timerId, rfl⟩ |
    ⟨q, rest, _, hc⟩ | ⟨timerId, rest, _, hc⟩ | ⟨now, cbs, hev', _⟩ | rfl
  · exact call_canceling_idle s c s' hflag hc
  · rfl
  · rfl
  · obtain ⟨_, _, _, _, _, _, hcan, _⟩ := addTimerInLoop_ok hc
    exact hcan
  · exact call_canceling_idle { s with queued := rest } _ s' hflag hc
  · exact absurd hev' (hev now cbs)
  · rfl

/-- An interleaving without a pass of `handleRead` leaves `cancelingTimers_`
of a sound queue as it is. -/
theorem play_canceling_idle (ts : TimestampDecl) :
    ∀ (evs : List Event) (s s' : TimerQueue), s.Sound →
      (∀ ev ∈ evs, ∀ now cbs, ev ≠ Event.handleRead now cbs) →
      TimerQueue.play ts evs s = .ok s' → s'.cancelingTimers_ = s.cancelingTimers_ := by
  intro evs
  induction evs with
  | nil =>
    intro s s' _ _ h
    simp only [TimerQueue.play] at h
    injection h with h
    rw [h]
  | cons ev evs ih =>
    intro s s' hS hno h
    simp only [TimerQueue.play] at h
    cases ho : s.occur ts ev with
    | error f => simp [ho] at h
    | ok s1 =>
      simp only [ho] at h
      have h1 := occur_canceling_idle ts s ev s1 hS.2.1.1
        (hno ev (List.mem_cons_self _ _)) ho
      have h2 := ih s1 s' (occur_sound ts s ev s1 hS ho)
        (fun e he => hno e (List.mem_cons_of_mem _ he)) h
      exact h2.trans h1

/-! ## C1: the cut `getExpired` makes -/

/-- C1: on a pending set in ascending order, `getExpired(now)` passes its
assertion; every entry it returns was pending and has an expiration not
greater than `now`; every entry left pending has an expiration greater than
`now`; so every pending entry with an expiration up to and including `now`
is returned. -/
theorem getExpired_due (s : TimerQueue) (now : Timestamp) (h : s.timers_.Pairwise entryLt) :
    ∃ expired s', s.getExpired now = .ok (expired, s') ∧
      (∀ e ∈ expired, e ∈ s.timers_ ∧ e.1 ≤ now) ∧
      (∀ e ∈ s'.timers_, e ∈ s.timers_ ∧ now < e.1) ∧
      (∀ e ∈ s.timers_, e.1 ≤ now → e ∈ expired ∧ e ∉ s'.timers_) := by
  refine ⟨_, _, getExpired_eq s now h, ?_, ?_, ?_⟩
  · intro e he
    have := List.mem_filter.1 he
    exact ⟨this.1, by simpa using this.2⟩
  · intro e he
    have := List.mem_filter.1 he
    exact ⟨this.1, by simpa using this.2⟩
  · intro e he hle
    refine ⟨List.mem_filter.2 ⟨he, by simpa using hle⟩, ?_⟩
    intro hmem
    have := (List.mem_filter.1 hmem).2
    simp [hle] at this

/-- C1 at the sample queue and `now = 10`. -/
theorem getExpired_due_witness :
    sampleFour.timers_.Pairwise entryLt ∧
    ∃ expired s', sampleFour.getExpired 10 = .ok (expired, s') ∧
      (∀ e ∈ expired, e ∈ sampleFour.timers_ ∧ e.1 ≤ 10) ∧
      (∀ e ∈ s'.timers_, e ∈ sampleFour.timers_ ∧ 10 < e.1) ∧
      (∀ e ∈ sampleFour.timers_, e.1 ≤ 10 → e ∈ expired ∧ e ∉ s'.timers_) :=
  ⟨by decide, getExpired_due sampleFour 10 (by decide)⟩

/-- The cut `getExpired(10)` makes in `sampleFour`. -/
theorem sampleFour_getExpired :
    (sampleFour.getExpired 10).toOption.map (fun r => (r.1, r.2.timers_))
    = some ([(5, 1), (10, 2), (10, 3)], [(20, 4)]) := by decide

/-! ## C2: the order of a pass -/

/-- C2: take a queue whose pending set is ascending and keyed by the
expirations of its timers.  A `handleRead` pass returns, provided the
callbacks create their timers at pairwise distinct non-null addresses that
are not in use.  The callbacks a pass invokes are those of a list of entries
in non-decreasing order of expiration; and when timers `A` and `B` are both
pending, `A` expires before `B` and the pass invokes the callback of `B`,
then it invokes the callback of `A` earlier in the same pass. -/
theorem handleRead_order (ts : TimestampDecl) (s : TimerQueue) (now : Timestamp)
    (cbs : TimerPtr → List Call) (hs : s.timers_.Pairwise entryLt) (hk : s.KeysAgree) :
    ((passAllocs cbs (s.timers_.filter (fun e => decide (e.1 ≤ now)))).Nodup →
      (∀ p ∈ passAllocs cbs (s.timers_.filter (fun e => decide (e.1 ≤ now))),
        p ≠ 0 ∧ s.heap p = none) →
      ∃ s', TimerQueue.handleRead ts s now cbs = .ok s') ∧
    ∀ s', TimerQueue.handleRead ts s now cbs = .ok s' →
    ∃ expired : List Entry, s'.ran = s.ran ++ expired.map Prod.snd ∧
      expired.Pairwise (fun a b => a.1 ≤ b.1) ∧
      (∀ e ∈ expired, ∃ t, s.heap e.2 = some t ∧ t.expiration = e.1) ∧
      ∀ (A B : TimerPtr) (kA kB : Timestamp) (tA tB : Timer),
        (kA, A) ∈ s.timers_ → (kB, B) ∈ s.timers_ →
        s.heap A = some tA → s.heap B = some tB → tA.expiration < tB.expiration →
        B ∈ expired.map Prod.snd →
        ∃ l1 l2 l3, expired.map Prod.snd = l1 ++ A :: (l2 ++ B :: l3) := by
  refine ⟨handleRead_total ts s now cbs hs hk, ?_⟩
  intro s' h
  obtain ⟨n, hg, hran⟩ := handleRead_ran h
  rw [getExpired_eq s now hs] at hg
  injection hg with hg
  have hexp : s.timers_.filter (fun e => decide (e.1 ≤ now)) = s.timers_.take n :=
    congrArg Prod.fst hg
  rw [← hexp] at hran
  have hsub : (s.timers_.filter (fun e => decide (e.1 ≤ now))).Pairwise entryLt :=
    hs.sublist (List.filter_sublist _)
  refine ⟨_, hran, hsub.imp (fun hab => entryLt_fst_le hab), ?_, ?_⟩
  · intro e he
    exact hk e (List.mem_filter.1 he).1
  · intro A B kA kB tA tB hA hB htA htB hlt hrun
    obtain ⟨b, hb, hb2⟩ := List.mem_map.1 hrun
    have hbm := List.mem_filter.1 hb
    have eB : tB.expiration = b.1 := by
      obtain ⟨t, ht, hte⟩ := hk b hbm.1
      rw [hb2, htB] at ht
      injection ht with ht
      rw [ht]; exact hte
    have eA : tA.expiration = kA := by
      obtain ⟨t, ht, hte⟩ := hk (kA, A) hA
      simp only at ht hte
      rw [htA] at ht
      injection ht with ht
      rw [ht]; exact hte
    have hbnow : b.1 ≤ now := by simpa using hbm.2
    have hkb : kA < b.1 := by rw [← eA, ← eB]; exact hlt
    have hAf : (kA, A) ∈ s.timers_.filter (fun e => decide (e.1 ≤ now)) := by
      refine List.mem_filter.2 ⟨hA, ?_⟩
      simp only [decide_eq_true_eq]
      exact le_of_lt (lt_of_lt_of_le hkb hbnow)
    have hlt' : entryLt (kA, A) b := Or.inl hkb
    obtain ⟨l1, l2, l3, hsplit⟩ := sorted_split hsub hAf hb hlt'
    refine ⟨l1.map Prod.snd, l2.map Prod.snd, l3.map Prod.snd, ?_⟩
    rw [hsplit]
    simp [hb2]

/-- C2 at the sample queue: the pass at `now = 10` invokes the callbacks of the
timers at `1`, `2` and `3`. -/
theorem handleRead_order_witness :
    ∃ s', TimerQueue.handleRead muduoTimestamp sampleFour 10 (fun _ => []) = .ok s' ∧
    ∃ expired : List Entry, s'.ran = sampleFour.ran ++ expired.map Prod.snd ∧
      expired.Pairwise (fun a b => a.1 ≤ b.1) ∧
      (∀ e ∈ expired, ∃ t, sampleFour.heap e.2 = some t ∧ t.expiration = e.1) ∧
      ∀ (A B : TimerPtr) (kA kB : Timestamp) (tA tB : Timer),
        (kA, A) ∈ sampleFour.timers_ → (kB, B) ∈ sampleFour.timers_ →
        sampleFour.heap A = some tA → sampleFour.heap B = some tB →
        tA.expiration < tB.expiration →
        B ∈ expired.map Prod.snd →
        ∃ l1 l2 l3, expired.map Prod.snd = l1 ++ A :: (l2 ++ B :: l3) :=
  ⟨_, rfl, (handleRead_order muduoTimestamp sampleFour 10 (fun _ => []) (by decide)
    (by
      intro e he
      simp only [sampleFour, List.mem_cons, List.mem_singleton, List.not_mem_nil, or_false] at he
      rcases he with rfl | rfl | rfl | rfl <;> simp [sampleFour])).2 _ rfl⟩

/-- The pass at `10` over `sampleFour`. -/
theorem sampleFour_pass :
    (TimerQueue.handleRead muduoTimestamp sampleFour 10 (fun _ => [])).toOption.map
    (fun r => (r.ran, r.timers_, r.timerfd_)) = some ([1, 2, 3], [(20, 4)], some 20) := by decide

/-! ## C3: cancelling after adding -/

/-- C3: in a queue whose pending set is ascending, `addTimerInLoop` of a timer
`T` nothing else refers to succeeds and makes `T` pending; after any calls
other than a `handleRead` pass, `cancelInLoop` on the handle of `T` succeeds
and leaves `T` out of the pending set; and whatever `addTimer`, `cancel` and
`handleRead` operations follow, `T` does not become pending again and its
callback is never invoked. -/
theorem cancel_after_add (ts : TimestampDecl) (s : TimerQueue) (T : TimerPtr) (t : Timer)
    (hs : s.timers_.Pairwise entryLt) (hT : s.heap T = some t) (hfresh : T ∉ s.owned) :
    ∃ s1, s.addTimerInLoop T = .ok s1 ∧ T ∈ s1.timers_.map Prod.snd ∧
      ∀ (mid : List Call) (s2 : TimerQueue), TimerQueue.calls mid s1 = .ok s2 →
        ∃ s3, s2.cancelInLoop ⟨T⟩ = .ok s3 ∧ T ∉ s3.timers_.map Prod.snd ∧
          ∀ (ops : List Op) (s4 : TimerQueue), TimerQueue.steps ts ops s3 = .ok s4 →
            T ∉ s4.timers_.map Prod.snd ∧ ∃ l, s4.ran = s.ran ++ l ∧ T ∉ l := by
  have hnt : T ∉ s.timers_.map Prod.snd := by
    intro hm
    apply hfresh
    unfold TimerQueue.owned
    simp only [List.map_append, List.mem_append]
    exact Or.inl (Or.inl hm)
  have hne : T ∉ s.expired.map Prod.snd := by
    intro hm
    apply hfresh
    unfold TimerQueue.owned
    simp only [List.map_append, List.mem_append]
    exact Or.inr hm
  have hnm : (t.expiration, T) ∉ s.timers_ := fun hm => hnt (List.mem_map.2 ⟨_, hm, rfl⟩)
  have hadd : ∃ s1, s.addTimerInLoop T = .ok s1 := by
    unfold TimerQueue.addTimerInLoop
    rw [insert_eq hT hnm]
    simp only
    split
    · simp only [hT]; exact ⟨_, rfl⟩
    · exact ⟨_, rfl⟩
  obtain ⟨s1, h1⟩ := hadd
  obtain ⟨t', ht', _, hheap1, _, htim1, _, _, hexp1, hran1, _⟩ := addTimerInLoop_ok h1
  rw [hT] at ht'
  injection ht' with ht'
  subst ht'
  refine ⟨s1, h1, ?_, ?_⟩
  · rw [htim1]
    exact List.mem_map.2 ⟨(t.expiration, T), (mem_setInsert _ _ _).2 (Or.inl rfl), rfl⟩
  intro mid s2 hmid
  have hP1 : s1.heap T = some t ∧ s1.timers_.Pairwise entryLt ∧
      (∀ x ∈ s1.timers_, x.2 = T → x = (t.expiration, T)) ∧ T ∉ s1.expired.map Prod.snd := by
    refine ⟨by rw [hheap1]; exact hT, by rw [htim1]; exact setInsert_sorted _ _ hs, ?_,
      by rw [hexp1]; exact hne⟩
    intro x hx hxT
    rw [htim1] at hx
    rcases (mem_setInsert _ _ _).1 hx with hx | hx
    · exact hx
    · exact absurd (List.mem_map.2 ⟨x, hx, hxT⟩) hnt
  obtain ⟨h2heap, h2s, h2only, h2exp⟩ := calls_pending T t mid s1 s2 hP1 hmid
  obtain ⟨s3, h3⟩ := cancelInLoop_total s2 T t h2s h2heap
  have hran2 : s2.ran = s.ran := by rw [(calls_frame hmid).1, hran1]
  have hJ3 : TimerQueue.Retired T s3 ∧ s3.ran = s.ran := by
    rcases cancelInLoop_ok h3 with h | ⟨u, _, hu, hmem, h⟩ | ⟨u, _, hu, hmem, _, h⟩
    · subst h
      refine ⟨⟨?_, h2exp, by rw [h2heap]; simp⟩, hran2⟩
      intro hm
      obtain ⟨x, hx, hxT⟩ := List.mem_map.1 hm
      have hxe := h2only x hx hxT
      rw [hxe] at hx
      -- the entry is pending, so the handle is alive and `cancelInLoop` erases it
      unfold TimerQueue.cancelInLoop TimerQueue.lock at h3
      have ho : T ∈ s3.owned ∨ T ∈ s3.held := by
        unfold TimerQueue.owned
        simp only [List.map_append, List.mem_append]
        exact Or.inl (Or.inl (Or.inl hm))
      simp only [ho, if_true, h2heap, hx, setErase_count _ _ h2s hx] at h3
      injection h3 with h3
      have hlen := congrArg (fun z => z.timers_) h3
      simp only [setErase] at hlen
      have : (t.expiration, T) ∈ s3.timers_.filter (fun x => decide (x ≠ (t.expiration, T))) := by
        rw [hlen]; exact hx
      simpa using (List.mem_filter.1 this).2
    · subst h
      simp only at hu
      rw [h2heap] at hu
      injection hu with hu
      subst hu
      refine ⟨⟨?_, h2exp, by simp only; rw [h2heap]; simp⟩, hran2⟩
      intro hm
      obtain ⟨x, hx, hxT⟩ := List.mem_map.1 hm
      have hxf := List.mem_filter.1 hx
      have hxe := h2only x hxf.1 hxT
      simp [hxe] at hxf
    · subst h
      simp only at hu
      rw [h2heap] at hu
      injection hu with hu
      subst hu
      refine ⟨⟨?_, h2exp, by simp only; rw [h2heap]; simp⟩, hran2⟩
      intro hm
      obtain ⟨x, hx, hxT⟩ := List.mem_map.1 hm
      have hxe := h2only x hx hxT
      rw [hxe] at hx
      exact hmem hx
  refine ⟨s3, h3, hJ3.1.1, ?_⟩
  intro ops s4 h4
  obtain ⟨hJ4, l, hl, hTl⟩ := steps_retired ts T ops s3 s4 hJ3.1 h4
  exact ⟨hJ4.1, l, by rw [hl, hJ3.2], hTl⟩

/-- C3 at the sample queue and the new timer at address `5`. -/
theorem cancel_after_add_witness :
    sampleFresh.timers_.Pairwise entryLt ∧ sampleFresh.heap 5 = some ⟨100, 0, 5⟩ ∧
    5 ∉ sampleFresh.owned ∧
    ∃ s1, sampleFresh.addTimerInLoop 5 = .ok s1 ∧ 5 ∈ s1.timers_.map Prod.snd ∧
      ∀ (mid : List Call) (s2 : TimerQueue), TimerQueue.calls mid s1 = .ok s2 →
        ∃ s3, s2.cancelInLoop ⟨5⟩ = .ok s3 ∧ 5 ∉ s3.timers_.map Prod.snd ∧
          ∀ (ops : List Op) (s4 : TimerQueue),
            TimerQueue.steps muduoTimestamp ops s3 = .ok s4 →
            5 ∉ s4.timers_.map Prod.snd ∧ ∃ l, s4.ran = sampleFresh.ran ++ l ∧ 5 ∉ l :=
  ⟨by decide, rfl, by decide,
    cancel_after_add muduoTimestamp sampleFresh 5 ⟨100, 0, 5⟩ (by decide) rfl (by decide)⟩

/-- At the sample queue: the timer at address `5` is added and cancelled, and
the pass at `200` invokes the callbacks of the four other timers only. -/
theorem sampleFresh_cancelled :
    (match sampleFresh.addTimerInLoop 5 with
      | .ok s1 =>
        match s1.cancelInLoop ⟨5⟩ with
        | .ok s2 =>
          (TimerQueue.handleRead muduoTimestamp s2 200 (fun _ => [])).toOption.map
            (fun r => (s1.timers_, s2.timers_, r.ran))
        | .error _ => none
      | .error _ => none)
    = some ([(5, 1), (10, 2), (10, 3), (20, 4), (100, 5)],
        [(5, 1), (10, 2), (10, 3), (20, 4)], [1, 2, 3, 4]) := by
  decide

/-! ## C4: a timer that cancels itself -/

/-- C4: in a queue whose pending set is ascending and keyed by the expirations
of its timers, let the repeating timer `T` of the pending entry `e` be due at
`now` and let its callback cancel the handle of `T`.  A `handleRead` pass at
`now` returns, provided the callbacks create their timers at pairwise
distinct non-null addresses that are not in use.  The pass invokes the
callback of `T` exactly once, `T` is not pending when the pass returns, and
whatever operations follow, `T` does not become pending again and its
callback is not invoked again. -/
theorem self_cancel (ts : TimestampDecl) (s : TimerQueue) (now : Timestamp)
    (cbs : TimerPtr → List Call) (e : Entry) (t : Timer)
    (hs : s.timers_.Pairwise entryLt) (hk : s.KeysAgree) (he : e ∈ s.timers_)
    (hdue : e.1 ≤ now) (ht : s.heap e.2 = some t) (_hrep : t.interval ≠ 0)
    (hcb : Call.cancel ⟨e.2⟩ ∈ cbs e.2) :
    ((passAllocs cbs (s.timers_.filter (fun e => decide (e.1 ≤ now)))).Nodup →
      (∀ p ∈ passAllocs cbs (s.timers_.filter (fun e => decide (e.1 ≤ now))),
        p ≠ 0 ∧ s.heap p = none) →
      ∃ s', TimerQueue.handleRead ts s now cbs = .ok s') ∧
    ∀ s', TimerQueue.handleRead ts s now cbs = .ok s' →
    (∃ l1 l2, s'.ran = s.ran ++ (l1 ++ e.2 :: l2) ∧ e.2 ∉ l1 ∧ e.2 ∉ l2) ∧
    e.2 ∉ s'.timers_.map Prod.snd ∧
    ∀ (ops : List Op) (s'' : TimerQueue), TimerQueue.steps ts ops s' = .ok s'' →
      e.2 ∉ s''.timers_.map Prod.snd ∧ ∃ l, s''.ran = s'.ran ++ l ∧ e.2 ∉ l := by
  refine ⟨handleRead_total ts s now cbs hs hk, ?_⟩
  intro s' h
  obtain ⟨n, s2, s3, hg, hrun, hres, hs'⟩ := handleRead_ok h
  rw [getExpired_eq s now hs] at hg
  injection hg with hg
  have hE : s.timers_.take n = s.timers_.filter (fun x => decide (x.1 ≤ now)) :=
    (congrArg Prod.fst hg).symm
  have hR : s.timers_.drop n = s.timers_.filter (fun x => !decide (x.1 ≤ now)) :=
    (congrArg (fun r => r.2.timers_) hg).symm
  have heE : e ∈ s.timers_.take n := by
    rw [hE]; exact List.mem_filter.2 ⟨he, by simpa using hdue⟩
  have hTE : e.2 ∈ (s.timers_.take n).map Prod.snd := List.mem_map.2 ⟨e, heE, rfl⟩
  have hnd : (s.timers_.map Prod.snd).Nodup := ptr_nodup hs hk
  have hndE : ((s.timers_.take n).map Prod.snd).Nodup := by
    rw [List.map_take]
    exact hnd.sublist (List.take_sublist _ _)
  have hTR : e.2 ∉ (s.timers_.drop n).map Prod.snd := by
    intro hm
    obtain ⟨x, hx, hxT⟩ := List.mem_map.1 hm
    have hxe := keys_unique hk (List.mem_of_mem_drop hx) he hxT
    subst hxe
    rw [hR] at hx
    have := (List.mem_filter.1 hx).2
    simp [hdue] at this
  have eKey : (t.expiration, e.2) = e := by
    obtain ⟨u, hu, hue⟩ := hk e he
    rw [ht] at hu
    injection hu with hu
    subst hu
    exact Prod.ext hue rfl
  -- the callbacks
  obtain ⟨hM2, hcan2⟩ := runExpired_firing cbs e.2 t hcb _ _ s2
    (by exact ⟨ht, hTR, rfl, hTE⟩) hrun
  have hc2 : e ∈ s2.cancelingTimers_ := by
    have := hcan2 (Or.inr hTE)
    rw [eKey] at this
    exact this
  -- reset
  obtain ⟨s4, m, hloop, _, hs3⟩ := reset_ok hres
  obtain ⟨hmem, _, _, _⟩ := resetLoop_spec now _ _ _ hloop
  obtain ⟨_, hheap⟩ := resetLoop_mem now _ _ _ hloop
  have ht4 : e.2 ∉ s4.timers_.map Prod.snd := by
    intro hm
    obtain ⟨x, hx, hxT⟩ := List.mem_map.1 hm
    rcases (hmem x).1 hx with hx' | ⟨e', he', u, _, _, hce', hxe'⟩
    · exact hM2.2.1 (List.mem_map.2 ⟨x, hx', hxT⟩)
    · have h2 : e'.2 = e.2 := by rw [← hxT, hxe']
      have := keys_unique hk (List.mem_of_mem_take he') he h2
      subst this
      exact hce' hc2
  have hh4 : s4.heap e.2 ≠ none := hheap e.2 (by
    show s2.heap e.2 ≠ none
    rw [hM2.1]; simp)
  have h34 : s3.timers_ = s4.timers_ ∧ s3.heap = s4.heap := by
    rw [hs3]
    split <;> exact ⟨rfl, rfl⟩
  have hJ : TimerQueue.Retired e.2 s' := by
    subst hs'
    exact ⟨by simp only; rw [h34.1]; exact ht4, by simp, by simp only; rw [h34.2]; exact hh4⟩
  refine ⟨?_, hJ.1, ?_⟩
  · obtain ⟨n', hg', hran⟩ := handleRead_ran h
    rw [getExpired_eq s now hs] at hg'
    injection hg' with hg'
    have hE' : s.timers_.take n' = s.timers_.take n := by
      rw [hE]; exact (congrArg Prod.fst hg').symm
    rw [hE'] at hran
    obtain ⟨l1, l2, hl⟩ := List.append_of_mem hTE
    rw [hl] at hndE hran
    have hnd' := List.nodup_append.1 hndE
    have hcons := List.nodup_cons.1 hnd'.2.1
    refine ⟨l1, l2, hran, ?_, hcons.1⟩
    intro hin
    exact hnd'.2.2 hin (List.mem_cons_self _ _)
  · intro ops s'' hst
    obtain ⟨hJ', l, hl, hTl⟩ := steps_retired ts e.2 ops s' s'' hJ hst
    exact ⟨hJ'.1, l, hl, hTl⟩

/-- C4 at a sample queue: the repeating timer at address `1` cancels itself in
the pass at `now = 12`. -/
theorem self_cancel_witness :
    ∃ s', TimerQueue.handleRead muduoTimestamp sampleRepeat 12 selfCancel = .ok s' ∧
    (∃ l1 l2, s'.ran = sampleRepeat.ran ++ (l1 ++ 1 :: l2) ∧ 1 ∉ l1 ∧ 1 ∉ l2) ∧
    1 ∉ s'.timers_.map Prod.snd ∧
    ∀ (ops : List Op) (s'' : TimerQueue), TimerQueue.steps muduoTimestamp ops s' = .ok s'' →
      1 ∉ s''.timers_.map Prod.snd ∧ ∃ l, s''.ran = s'.ran ++ l ∧ 1 ∉ l :=
  ⟨_, rfl, (self_cancel muduoTimestamp sampleRepeat 12 selfCancel (10, 1) ⟨10, 7, 1⟩
    (by decide)
    (by
      intro e he
      simp only [sampleRepeat, List.mem_cons, List.mem_singleton, List.not_mem_nil, or_false] at he
      rcases he with rfl | rfl <;> simp [sampleRepeat])
    (by decide) (by decide) rfl (by decide) (by decide)).2 _ rfl⟩

/-- The pass at `12` over `sampleRepeat` when the timer at address `1` cancels
itself: its entry stays in `cancelingTimers_` and it is not restarted. -/
theorem sampleRepeat_selfCancel :
    (TimerQueue.handleRead muduoTimestamp sampleRepeat 12 selfCancel).toOption.map
    (fun r => (r.ran, r.timers_, r.cancelingTimers_, r.timerfd_))
    = some ([1], [(20, 2)], [(10, 1)], some 20) := by decide

/-- The pass at `12` over `sampleRepeat` when no callback makes a call: the
timer at address `1` is restarted for `12 + 7`. -/
theorem sampleRepeat_quiet :
    (TimerQueue.handleRead muduoTimestamp sampleRepeat 12 (fun _ => [])).toOption.map
    (fun r => (r.ran, r.timers_, r.cancelingTimers_, r.timerfd_))
    = some ([1], [(19, 1), (20, 2)], [], some 19) := by decide

/-! ## C5: the restart of a repeating timer -/

/-- C5: let `reset(expired, now)` be called as `handleRead` calls it: the
timers of `expired` have their objects, are pairwise distinct and are not
pending, and the pending timers have their objects.  Then `reset` returns,
and an expired timer `T` with non-zero interval `I` whose entry is not in the
canceling set is pending afterwards, keyed by `now + I` and by nothing else,
and `now + I` is its new expiration, whatever its key and expiration were. -/
theorem reset_restarts (ts : TimestampDecl) (s : TimerQueue) (expired : List Entry)
    (now : Timestamp) (e : Entry) (t : Timer)
    (hheap : ∀ x ∈ expired, s.heap x.2 ≠ none) (hnd : (expired.map Prod.snd).Nodup)
    (hdisj : ∀ x ∈ expired, x.2 ∉ s.timers_.map Prod.snd)
    (hpend : ∀ x ∈ s.timers_, s.heap x.2 ≠ none)
    (he : e ∈ expired) (ht : s.heap e.2 = some t) (hI : t.interval ≠ 0)
    (hc : e ∉ s.cancelingTimers_) :
    ∃ s' t', TimerQueue.reset ts s expired now = .ok s' ∧
      (now + t.interval, e.2) ∈ s'.timers_ ∧
      (∀ x ∈ s'.timers_, x.2 = e.2 → x.1 = now + t.interval) ∧
      s'.heap e.2 = some t' ∧ t'.expiration = now + t.interval ∧
      t'.interval = t.interval := by
  obtain ⟨s', h⟩ := reset_total ts s expired now hheap hnd hdisj hpend
  obtain ⟨s1, m, hloop, _, hs'⟩ := reset_ok h
  obtain ⟨hmem, hre, _, _⟩ := resetLoop_spec now expired s s1 hloop
  have hrep : t.repeat = true := by
    unfold Timer.repeat
    simpa using hI
  obtain ⟨rf1, _, _, rf4⟩ := restart_facts t now
  have h1 : s'.timers_ = s1.timers_ ∧ s'.heap = s1.heap := by
    rw [hs']
    split <;> exact ⟨rfl, rfl⟩
  refine ⟨s', t.restart now, h, ?_, ?_, ?_, rf4 hrep, rf1⟩
  · rw [h1.1]
    exact (hmem _).2 (Or.inr ⟨e, he, t, ht, hrep, hc, rfl⟩)
  · intro x hx hxe
    rw [h1.1] at hx
    rcases (hmem x).1 hx with hx' | ⟨e', he', t', ht', _, _, hxe'⟩
    · exact absurd (List.mem_map.2 ⟨x, hx', hxe⟩) (hdisj e he)
    · have h2 : e'.2 = e.2 := by rw [← hxe, hxe']
      rw [h2, ht] at ht'
      injection ht' with ht'
      rw [hxe', ht']
  · rw [h1.2]
    exact hre e.2 t ht hrep ⟨e, he, rfl, hc⟩

/-- C5 at a sample queue: the timer at address `1`, due at `10` with interval
`7`, is restarted by `reset` at `now = 12`. -/
theorem reset_restarts_witness :
    ∃ s' t', TimerQueue.reset muduoTimestamp sampleFired [(10, 1)] 12 = .ok s' ∧
      ((12 : Timestamp) + 7, 1) ∈ s'.timers_ ∧
      (∀ x ∈ s'.timers_, x.2 = 1 → x.1 = 12 + 7) ∧
      s'.heap 1 = some t' ∧ t'.expiration = 12 + 7 ∧ t'.interval = 7 :=
  reset_restarts muduoTimestamp sampleFired [(10, 1)] 12 (10, 1) ⟨10, 7, 1⟩
    (by simp [sampleFired, sampleRepeat]) (by decide) (by decide)
    (by simp [sampleFired, sampleRepeat]) (by decide) rfl (by decide) (by decide)

/-! ## C6: the result of `insert` -/

/-- C6: on an ascending pending set and a timer `T` that is not pending,
`insert(T)` passes its assertion; the pending set afterwards holds the entry
`(T.expiration, T)` and the entries it held, in ascending order, and nothing
else of the queue changes; the result is `true` if and only if the pending set
was empty or `T.expiration` is strictly less than the smallest expiration in
it; in particular it is `false` when `T.expiration` equals that minimum. -/
theorem insert_earliest (s : TimerQueue) (timer : TimerPtr) (t : Timer)
    (hs : s.timers_.Pairwise entryLt) (ht : s.heap timer = some t)
    (hn : timer ∉ s.timers_.map Prod.snd) :
    ∃ b s', s.insert timer = .ok (b, s') ∧
      (∀ x, x ∈ s'.timers_ ↔ x = (t.expiration, timer) ∨ x ∈ s.timers_) ∧
      s'.timers_.Pairwise entryLt ∧ s' = { s with timers_ := s'.timers_ } ∧
      (b = true ↔ (s.timers_ = [] ∨
        ∃ m ∈ s.timers_, (∀ x ∈ s.timers_, m.1 ≤ x.1) ∧ t.expiration < m.1)) ∧
      (∀ m ∈ s.timers_, (∀ x ∈ s.timers_, m.1 ≤ x.1) → t.expiration = m.1 → b = false) := by
  have hnm : (t.expiration, timer) ∉ s.timers_ := fun hm => hn (List.mem_map.2 ⟨_, hm, rfl⟩)
  refine ⟨_, _, insert_eq ht hnm, fun x => mem_setInsert _ _ _, setInsert_sorted _ _ hs, rfl,
    ?_, ?_⟩
  · cases hl : s.timers_ with
    | nil => simp
    | cons it rest =>
      rw [hl] at hs
      have hmin : ∀ x ∈ it :: rest, it.1 ≤ x.1 := by
        intro x hx
        rcases List.mem_cons.1 hx with rfl | hx
        · exact le_refl _
        · exact entryLt_fst_le ((List.pairwise_cons.1 hs).1 x hx)
      simp only [decide_eq_true_eq]
      constructor
      · intro hlt
        exact Or.inr ⟨it, List.mem_cons_self _ _, hmin, hlt⟩
      · rintro (h | ⟨m, hm, hmle, hlt⟩)
        · cases h
        · exact lt_of_lt_of_le hlt (hmle it (List.mem_cons_self _ _))
  · intro m hm hmle heq
    cases hl : s.timers_ with
    | nil => rw [hl] at hm; cases hm
    | cons it rest =>
      rw [hl] at hm hs
      simp only [decide_eq_false_iff_not, not_lt]
      rw [heq]
      rcases List.mem_cons.1 hm with rfl | hm
      · exact le_refl _
      · exact entryLt_fst_le ((List.pairwise_cons.1 hs).1 m hm)

/-- C6 at the sample queue and the new timer at address `5`, which expires
after every pending timer. -/
theorem insert_earliest_witness :
    sampleFresh.timers_.Pairwise entryLt ∧ sampleFresh.heap 5 = some ⟨100, 0, 5⟩ ∧
    5 ∉ sampleFresh.timers_.map Prod.snd ∧
    ∃ b s', sampleFresh.insert 5 = .ok (b, s') ∧
      (∀ x, x ∈ s'.timers_ ↔ x = ((100 : Timestamp), 5) ∨ x ∈ sampleFresh.timers_) ∧
      s'.timers_.Pairwise entryLt ∧ s' = { sampleFresh with timers_ := s'.timers_ } ∧
      (b = true ↔ (sampleFresh.timers_ = [] ∨
        ∃ m ∈ sampleFresh.timers_, (∀ x ∈ sampleFresh.timers_, m.1 ≤ x.1) ∧
          (100 : Timestamp) < m.1)) ∧
      (∀ m ∈ sampleFresh.timers_, (∀ x ∈ sampleFresh.timers_, m.1 ≤ x.1) →
        (100 : Timestamp) = m.1 → b = false) :=
  ⟨by decide, rfl, by decide,
    insert_earliest sampleFresh 5 ⟨100, 0, 5⟩ (by decide) rfl (by decide)⟩

/-! ## C7: timers with the same expiration -/

/-- C7, as the code has it: when the entries `(k, A)` and `(k, B)` of two
timers with the same expiration `k` are pending in an ascending set and
`k ≤ now`, `getExpired(now)` returns both, and the entry of `A` stands before
the entry of `B` when the pointer `A` is below the pointer `B`, whatever the
sequence numbers; `handleRead` invokes the callbacks in that order. -/
theorem tie_break_by_pointer (s : TimerQueue) (now k : Timestamp) (A B : TimerPtr)
    (hs : s.timers_.Pairwise entryLt) (hA : (k, A) ∈ s.timers_) (hB : (k, B) ∈ s.timers_)
    (hAB : A < B) (hk : k ≤ now) :
    (∃ expired s', s.getExpired now = .ok (expired, s') ∧
      ∃ l1 l2 l3, expired = l1 ++ (k, A) :: (l2 ++ (k, B) :: l3)) ∧
    ∀ (ts : TimestampDecl) (cbs : TimerPtr → List Call) (s'' : TimerQueue),
      TimerQueue.handleRead ts s now cbs = .ok s'' →
      ∃ l1 l2 l3, s''.ran = s.ran ++ (l1 ++ A :: (l2 ++ B :: l3)) := by
  have hsub : (s.timers_.filter (fun e => decide (e.1 ≤ now))).Pairwise entryLt :=
    hs.sublist (List.filter_sublist _)
  have hAf : (k, A) ∈ s.timers_.filter (fun e => decide (e.1 ≤ now)) :=
    List.mem_filter.2 ⟨hA, by simpa using hk⟩
  have hBf : (k, B) ∈ s.timers_.filter (fun e => decide (e.1 ≤ now)) :=
    List.mem_filter.2 ⟨hB, by simpa using hk⟩
  obtain ⟨l1, l2, l3, hsplit⟩ := sorted_split hsub hAf hBf (Or.inr ⟨rfl, hAB⟩)
  refine ⟨⟨_, _, getExpired_eq s now hs, l1, l2, l3, hsplit⟩, ?_⟩
  intro ts cbs s'' h
  obtain ⟨n, hg, hran⟩ := handleRead_ran h
  rw [getExpired_eq s now hs] at hg
  injection hg with hg
  have hE : s.timers_.take n = s.timers_.filter (fun x => decide (x.1 ≤ now)) :=
    (congrArg Prod.fst hg).symm
  refine ⟨l1.map Prod.snd, l2.map Prod.snd, l3.map Prod.snd, ?_⟩
  rw [hran, hE, hsplit]
  simp

/-- C7, as the code has it, at the sample queue: the timers at `2` and `3`
both expire at `10`. -/
theorem tie_break_by_pointer_witness :
    sampleFour.timers_.Pairwise entryLt ∧ ((10 : Timestamp), 2) ∈ sampleFour.timers_ ∧
    ((10 : Timestamp), 3) ∈ sampleFour.timers_ ∧
    (∃ expired s', sampleFour.getExpired 10 = .ok (expired, s') ∧
      ∃ l1 l2 l3, expired = l1 ++ ((10 : Timestamp), 2) :: (l2 ++ ((10 : Timestamp), 3) :: l3)) ∧
    ∀ (ts : TimestampDecl) (cbs : TimerPtr → List Call) (s'' : TimerQueue),
      TimerQueue.handleRead ts sampleFour 10 cbs = .ok s'' →
      ∃ l1 l2 l3, s''.ran = sampleFour.ran ++ (l1 ++ 2 :: (l2 ++ 3 :: l3)) :=
  ⟨by decide, by decide, by decide,
    tie_break_by_pointer sampleFour 10 10 2 3 (by decide) (by decide) (by decide)
      (by decide) (by decide)⟩

/-- C7 fails as stated: the timer at address `2` is created and inserted
first and has the smaller sequence number, the timer at address `1` is
created second, both expire at `100`; `getExpired(100)` returns the entry of
the second timer before the entry of the first, and `handleRead` invokes the
callback of the second timer first. -/
theorem tie_break_counterexample :
    (sampleTie.heap 2).map (fun t => (t.expiration, t.sequence)) = some (100, 1) ∧
    (sampleTie.heap 1).map (fun t => (t.expiration, t.sequence)) = some (100, 2) ∧
    (sampleTie.getExpired 100).toOption.map Prod.fst = some [(100, 1), (100, 2)] ∧
    (TimerQueue.handleRead muduoTimestamp sampleTie 100 (fun _ => [])).toOption.map
      (fun r => r.ran) = some [1, 2] := by
  decide

/-! ## C8: the deadline `reset` leaves -/

/-- C8, as the code has it: let `reset(expired, now)` be called as
`handleRead` calls it, with the pending set ascending and keyed by the
expirations of its timers, and let the default-constructed timestamp be
invalid.  Then `reset` returns; when the pending set is empty afterwards, the
deadline of the timerfd is as it was; when the pending set is not empty and
its minimum expiration is a valid timestamp, that minimum is the deadline of
the timerfd; when the minimum is not valid, the deadline is as it was. -/
theorem reset_rearm (ts : TimestampDecl) (s : TimerQueue) (expired : List Entry)
    (now : Timestamp) (hd : ts.valid ts.dflt = false)
    (hs : s.timers_.Pairwise entryLt) (hk : s.KeysAgree)
    (hheap : ∀ x ∈ expired, s.heap x.2 ≠ none) (hnd : (expired.map Prod.snd).Nodup)
    (hdisj : ∀ x ∈ expired, x.2 ∉ s.timers_.map Prod.snd) :
    ∃ s', TimerQueue.reset ts s expired now = .ok s' ∧
      (s'.timers_ = [] → s'.timerfd_ = s.timerfd_) ∧
      ∀ m ∈ s'.timers_, (∀ x ∈ s'.timers_, m.1 ≤ x.1) →
        (ts.valid m.1 = true → s'.timerfd_ = some m.1) ∧
        (ts.valid m.1 = false → s'.timerfd_ = s.timerfd_) := by
  have hpend : ∀ x ∈ s.timers_, s.heap x.2 ≠ none := by
    intro x hx
    obtain ⟨t, ht, _⟩ := hk x hx
    rw [ht]; simp
  obtain ⟨s', h⟩ := reset_total ts s expired now hheap hnd hdisj hpend
  obtain ⟨s1, n, hloop, hnext, hs'⟩ := reset_ok h
  have hk1 := resetLoop_keys now expired s s1 hk hdisj hloop
  obtain ⟨_, _, _, hsorted⟩ := resetLoop_spec now expired s s1 hloop
  have hs1 := hsorted hs
  obtain ⟨_, _, _, _, hfd, _⟩ := resetLoop_frame now expired s s1 hloop
  have ht' : s'.timers_ = s1.timers_ := by
    rw [hs']; split <;> rfl
  refine ⟨s', h, ?_, ?_⟩
  · intro hemp
    rw [ht'] at hemp
    unfold TimerQueue.nextExpire at hnext
    simp only [hemp] at hnext
    injection hnext with hnext
    rw [hs', ← hnext, hd]
    simp only [Bool.false_eq_true, if_false]
    exact hfd
  · intro m hm hmin
    rw [ht'] at hm hmin
    cases hl : s1.timers_ with
    | nil => rw [hl] at hm; cases hm
    | cons b rest =>
      have hb : b ∈ s1.timers_ := by rw [hl]; exact List.mem_cons_self _ _
      obtain ⟨u, hu, hue⟩ := hk1 b hb
      unfold TimerQueue.nextExpire at hnext
      simp only [hl, hu] at hnext
      injection hnext with hnext
      have hbm : b.1 = m.1 := by
        apply le_antisymm
        · rw [hl] at hs1 hm
          rcases List.mem_cons.1 hm with rfl | hm
          · exact le_refl _
          · exact entryLt_fst_le ((List.pairwise_cons.1 hs1).1 m hm)
        · exact hmin b hb
      have hn : n = m.1 := by rw [← hnext, hue, hbm]
      subst hn
      constructor
      · intro hv
        rw [hs', if_pos hv]
        rfl
      · intro hv
        rw [hs', hv]
        simp only [Bool.false_eq_true, if_false]
        exact hfd

/-- C8, as the code has it, at a sample queue: after the restart of the timer
at address `1` the earliest pending expiration is `19`. -/
theorem reset_rearm_witness :
    ∃ s', TimerQueue.reset muduoTimestamp sampleFired [(10, 1)] 12 = .ok s' ∧
      (s'.timers_ = [] → s'.timerfd_ = sampleFired.timerfd_) ∧
      ∀ m ∈ s'.timers_, (∀ x ∈ s'.timers_, m.1 ≤ x.1) →
        (muduoTimestamp.valid m.1 = true → s'.timerfd_ = some m.1) ∧
        (muduoTimestamp.valid m.1 = false → s'.timerfd_ = sampleFired.timerfd_) :=
  reset_rearm muduoTimestamp sampleFired [(10, 1)] 12 rfl (by decide)
    (by
      intro e he
      simp only [sampleFired, List.mem_singleton] at he
      subst he
      simp [sampleFired, sampleRepeat])
    (by simp [sampleFired, sampleRepeat]) (by decide) (by decide)

/-- Whatever `Timestamp.h` declares, as long as the default-constructed
timestamp is invalid: in the queue `skewed`, reached from the empty queue,
`reset` called with nothing expired leaves the timer at address `2` pending
and the deadline of the timerfd one microsecond before its expiration. -/
theorem reset_skips_default (ts : TimestampDecl) (hd : ts.valid ts.dflt = false) :
    (TimerQueue.reset ts (skewed ts) [] (ts.dflt - 1)).toOption.map
      (fun r => (r.timers_, (r.heap 2).map (fun t => t.expiration), r.timerfd_))
      = some ([(ts.dflt, 2)], some ts.dflt, some (ts.dflt - 1)) := by
  have h2 : ts.dflt - 1 < ts.dflt := sub_one_lt _
  have h1 : ¬ (ts.dflt < ts.dflt - 1) := fun h => lt_asymm h h2
  have h3 : ¬ (ts.dflt = ts.dflt - 1) := fun h => by rw [← h] at h2; exact lt_irrefl _ h2
  have h4 : ¬ (ts.dflt - 1 = ts.dflt) := fun h => h3 h.symm
  simp [skewed, TimerQueue.steps, TimerQueue.step, TimerQueue.addTimer, TimerQueue.addTimerInLoop,
    TimerQueue.insert, TimerQueue.store, setInsert, entryLt, TimerQueue.cancelInLoop,
    TimerQueue.lock, TimerQueue.owned, setErase, TimerQueue.reset, TimerQueue.resetLoop,
    TimerQueue.nextExpire, TimerQueue.resetTimerfd, TimerQueue.empty, hd, h1, h2, h3, h4,
    Except.toOption]

/-- C8 fails as stated: in the queue `sampleInvalid`, reached from the empty
queue, `reset` called with nothing expired returns with the pending set
holding the timer at address `2`, whose expiration `0` is the minimum, and
the deadline of the timerfd is still `-5`: `reset` did not re-arm it. -/
theorem reset_rearm_counterexample :
    sampleInvalid.timerfd_ = some (-5) ∧
    (sampleInvalid.getExpired (-1)).toOption.map Prod.fst = some [] ∧
    (TimerQueue.reset muduoTimestamp sampleInvalid [] (-1)).toOption.map
      (fun r => (r.timers_, (r.heap 2).map (fun t => t.expiration), r.timerfd_))
      = some ([(0, 2)], some 0, some (-5)) := by
  decide

/-! ## C9: cancelling a pending timer -/

/-- C9: in a queue whose pending set is ascending and keyed by the expirations
of its timers, `cancelInLoop` on the handle of a pending timer `T` passes its
assertion and changes nothing but `timers_`, from which it takes the one
entry of `T`: the entries before it and after it stay, in their order, and no
entry of `T` is left. -/
theorem cancelInLoop_erases (s : TimerQueue) (T : TimerPtr)
    (hs : s.timers_.Pairwise entryLt) (hk : s.KeysAgree)
    (hT : T ∈ s.timers_.map Prod.snd) :
    ∃ s' k l1 l2, s.cancelInLoop ⟨T⟩ = .ok s' ∧ s.timers_ = l1 ++ (k, T) :: l2 ∧
      s' = { s with timers_ := l1 ++ l2 } ∧ T ∉ (l1 ++ l2).map Prod.snd ∧
      s'.cancelingTimers_ = s.cancelingTimers_ := by
  obtain ⟨e, he, heT⟩ := List.mem_map.1 hT
  obtain ⟨t, ht, hte⟩ := hk e he
  rw [heT] at ht
  have hee : e = (t.expiration, T) := Prod.ext hte.symm heT
  subst hee
  obtain ⟨l1, l2, hsplit⟩ := List.append_of_mem he
  have hs' := hs
  rw [hsplit] at hs'
  obtain ⟨hfil, hnot⟩ := filter_ne_of_sorted _ l1 l2 hs'
  have ho : T ∈ s.owned ∨ T ∈ s.held := by
    unfold TimerQueue.owned
    simp only [List.map_append, List.mem_append]
    exact Or.inl (Or.inl (Or.inl hT))
  have hrun : s.cancelInLoop ⟨T⟩ = .ok { s with timers_ := l1 ++ l2 } := by
    unfold TimerQueue.cancelInLoop TimerQueue.lock
    simp only [ho, if_true, ht, he, setErase_count _ _ hs he]
    simp only [setErase]
    rw [← hfil, ← hsplit]
  refine ⟨_, t.expiration, l1, l2, hrun, hsplit, rfl, ?_, rfl⟩
  intro hm
  obtain ⟨x, hx, hxT⟩ := List.mem_map.1 hm
  have hxs : x ∈ s.timers_ := by
    rw [hsplit]
    rcases List.mem_append.1 hx with hx | hx
    · exact List.mem_append_left _ hx
    · exact List.mem_append_right _ (List.mem_cons_of_mem _ hx)
  have := keys_unique hk hxs he hxT
  subst this
  exact hnot hx

/-- C9 at the sample queue and the handle of the timer at address `2`. -/
theorem cancelInLoop_erases_witness :
    ∃ s' k l1 l2, sampleFour.cancelInLoop ⟨2⟩ = .ok s' ∧
      sampleFour.timers_ = l1 ++ (k, 2) :: l2 ∧
      s' = { sampleFour with timers_ := l1 ++ l2 } ∧ 2 ∉ (l1 ++ l2).map Prod.snd ∧
      s'.cancelingTimers_ = sampleFour.cancelingTimers_ :=
  cancelInLoop_erases sampleFour 2 (by decide)
    (by
      intro e he
      simp only [sampleFour, List.mem_cons, List.mem_singleton, List.not_mem_nil, or_false] at he
      rcases he with rfl | rfl | rfl | rfl <;> simp [sampleFour])
    (by decide)

/-! ## C10: cancelling a timer that is not pending -/

/-- C10: outside an expiry pass, `cancelInLoop` on a handle whose weak
reference is absent, or resolves to a timer that is not pending, returns
without a fault and leaves the whole queue as it was. -/
theorem cancelInLoop_noop (s : TimerQueue) (timerId : TimerId)
    (hflag : s.callingExpiredTimers_ = false)
    (h : s.lock timerId = none ∨
      ((∃ t, s.heap timerId.value_ = some t) ∧ timerId.value_ ∉ s.timers_.map Prod.snd)) :
    s.cancelInLoop timerId = .ok s := by
  unfold TimerQueue.cancelInLoop
  cases hl : s.lock timerId with
  | none => rfl
  | some p =>
    rcases h with h | ⟨⟨t, ht⟩, hn⟩
    · rw [hl] at h; cases h
    · have hp : p = timerId.value_ := by
        unfold TimerQueue.lock at hl
        split at hl
        · injection hl with hl; exact hl.symm
        · cases hl
      subst hp
      have hm : (t.expiration, timerId.value_) ∉ s.timers_ :=
        fun hm => hn (List.mem_map.2 ⟨_, hm, rfl⟩)
      simp only [ht, hm, if_false, hflag, Bool.false_eq_true]

/-- C10 at a sample queue: after the pass in which the timer at address `1`
cancelled itself, its handle still resolves and the timer is not pending. -/
theorem cancelInLoop_noop_witness :
    sampleCancelled.callingExpiredTimers_ = false ∧
    sampleCancelled.lock ⟨1⟩ = some 1 ∧
    ((∃ t, sampleCancelled.heap 1 = some t) ∧ 1 ∉ sampleCancelled.timers_.map Prod.snd) ∧
    sampleCancelled.cancelInLoop ⟨1⟩ = .ok sampleCancelled :=
  ⟨by decide, by decide, ⟨⟨_, rfl⟩, by decide⟩,
    cancelInLoop_noop sampleCancelled ⟨1⟩ (by decide) (Or.inr ⟨⟨_, rfl⟩, by decide⟩)⟩

/-! ## C11: the canceling set outside a pass -/

/-- C11, as the code has it: `handleRead` empties the canceling set when a
pass begins, not when it ends.  In every queue an interleaving reaches from
the empty queue the reentrancy flag is off; the canceling set is empty when
the interleaving had no pass of `handleRead`; an event other than a pass of
`handleRead` (a call of `addTimer` or of `cancel` on any thread, a task run by
the loop) leaves the canceling set as it is; and after a pass of `handleRead`
the canceling set holds, whatever it held before, only entries of timers
whose handle a callback of that pass cancelled, each of them the entry of a
timer that was pending and due in that pass or of a timer whose insertion
still waits in the queue of the loop; so it is empty when no callback of the
pass cancelled such a timer. -/
theorem canceling_scope (ts : TimestampDecl) (evs : List Event) (s : TimerQueue)
    (h : TimerQueue.play ts evs TimerQueue.empty = .ok s) :
    s.callingExpiredTimers_ = false ∧
    ((∀ ev ∈ evs, ∀ now cbs, ev ≠ Event.handleRead now cbs) → s.cancelingTimers_ = []) ∧
    (∀ (ev : Event) (s' : TimerQueue), (∀ now cbs, ev ≠ Event.handleRead now cbs) →
      s.occur ts ev = .ok s' → s'.cancelingTimers_ = s.cancelingTimers_) ∧
    (∀ (now : Timestamp) (cbs : TimerPtr → List Call) (s' : TimerQueue),
      TimerQueue.handleRead ts s now cbs = .ok s' →
      (∀ x ∈ s'.cancelingTimers_,
        ((x ∈ s.timers_ ∧ x.1 ≤ now) ∨ LoopTask.addTimerInLoop x.2 ∈ s.queued) ∧
        ∃ p, Call.cancel ⟨x.2⟩ ∈ cbs p) ∧
      ((∀ x : Entry, (x ∈ s.timers_ ∧ x.1 ≤ now) ∨ LoopTask.addTimerInLoop x.2 ∈ s.queued →
          ∀ p, Call.cancel ⟨x.2⟩ ∉ cbs p) →
        s'.cancelingTimers_ = [])) := by
  have hS := play_sound ts evs TimerQueue.empty s empty_sound h
  obtain ⟨hw, ⟨hflag, _⟩, _, _⟩ := hS
  refine ⟨hflag, ?_, ?_, ?_⟩
  · intro hno
    exact play_canceling_idle ts evs TimerQueue.empty s empty_sound hno h
  · intro ev s' hev ho
    exact occur_canceling_idle ts s ev s' hflag hev ho
  · intro now cbs s' hr
    have hsc := handleRead_scoped ts s s' now cbs hw.1 hw.2.1 hr
    refine ⟨hsc, ?_⟩
    intro hq
    apply List.eq_nil_iff_forall_not_mem.2
    intro x hx
    obtain ⟨hwhere, p, hp⟩ := hsc x hx
    exact hq x hwhere p hp

/-- C11, as the code has it, at the queue reached by a call of `addTimer` on
the loop thread and a call of `addTimer` on another thread, whose insertion
waits in the queue of the loop. -/
theorem canceling_scope_witness :
    ∃ s, TimerQueue.play muduoTimestamp
        [Event.addTimer true 1 10 0, Event.addTimer false 5 100 0] TimerQueue.empty = .ok s ∧
    s.callingExpiredTimers_ = false ∧
    ((∀ ev ∈ [Event.addTimer true 1 10 0, Event.addTimer false 5 100 0],
        ∀ now cbs, ev ≠ Event.handleRead now cbs) → s.cancelingTimers_ = []) ∧
    (∀ (ev : Event) (s' : TimerQueue), (∀ now cbs, ev ≠ Event.handleRead now cbs) →
      s.occur muduoTimestamp ev = .ok s' → s'.cancelingTimers_ = s.cancelingTimers_) ∧
    (∀ (now : Timestamp) (cbs : TimerPtr → List Call) (s' : TimerQueue),
      TimerQueue.handleRead muduoTimestamp s now cbs = .ok s' →
      (∀ x ∈ s'.cancelingTimers_,
        ((x ∈ s.timers_ ∧ x.1 ≤ now) ∨ LoopTask.addTimerInLoop x.2 ∈ s.queued) ∧
        ∃ p, Call.cancel ⟨x.2⟩ ∈ cbs p) ∧
      ((∀ x : Entry, (x ∈ s.timers_ ∧ x.1 ≤ now) ∨ LoopTask.addTimerInLoop x.2 ∈ s.queued →
          ∀ p, Call.cancel ⟨x.2⟩ ∉ cbs p) →
        s'.cancelingTimers_ = [])) :=
  ⟨_, rfl, canceling_scope muduoTimestamp
    [Event.addTimer true 1 10 0, Event.addTimer false 5 100 0] _ rfl⟩

/-- C11 fails as stated: after two `addTimer` and a complete pass of
`handleRead` in which the repeating timer at address `1` cancels itself, no
pass is in progress (the reentrancy flag is off and the vector `expired` is
gone) and the canceling set holds the entry `(10, 1)`. -/
theorem canceling_counterexample :
    (TimerQueue.steps muduoTimestamp
        [Op.addTimer 1 10 7, Op.addTimer 2 20 0, Op.handleRead 12 selfCancel]
        TimerQueue.empty).toOption.map
      (fun r => (r.callingExpiredTimers_, r.expired, r.cancelingTimers_))
    = some (false, [], [(10, 1)]) := by
  decide

/-- After a call of `addTimer` on the loop thread and a call of `addTimer` on
another thread, whose insertion waits in the queue of the loop, the pass at
`12` in which the callback of the timer at address `1` cancels the handle of
the waiting timer at address `5` leaves the entry `(100, 5)`, which never was
pending, in the canceling set. -/
theorem sampleWaiting_pass :
    (TimerQueue.play muduoTimestamp
        [Event.addTimer true 1 10 0, Event.addTimer false 5 100 0,
          Event.handleRead 12 cancelWaiting]
        TimerQueue.empty).toOption.map
      (fun r => (r.callingExpiredTimers_, r.timers_, r.queued, r.cancelingTimers_))
    = some (false, [], [LoopTask.addTimerInLoop 5], [(100, 5)]) := by
  decide

/-! ## C12: every pending timer has one entry -/

/-- C12: in every queue reached from the empty queue by `addTimer`, `cancel`
and `handleRead` operations, no timer is pending twice; `addTimer` with a
timer created at a non-null address that is not in use returns, so the
assertion of `insert` holds; and no operation is stopped by a failed
assertion or a dangling pointer, so the assertion of `insert` holds as well
when `reset` reinserts a restarted timer. -/
theorem pending_once (ts : TimestampDecl) (ops : List Op) (s : TimerQueue)
    (h : TimerQueue.steps ts ops TimerQueue.empty = .ok s) :
    (s.timers_.map Prod.snd).Nodup ∧
    (∀ (ptr : TimerPtr) (when : Timestamp) (interval : Int), ptr ≠ 0 → s.heap ptr = none →
      ∃ s', s.addTimer ptr when interval = .ok s' ∧ (when, ptr) ∈ s'.timers_) ∧
    (∀ (o : Op) (f : Fault), s.step ts o = .error f → f = Fault.badAlloc) := by
  have hw := steps_wf ts ops TimerQueue.empty s empty_wf h
  refine ⟨ptr_nodup hw.1 hw.2.1, ?_, fun o f hf => step_fault ts s o f hw hf⟩
  intro ptr when interval hp0 hnone
  obtain ⟨s', hs'⟩ := call_total s (.addTimer ptr when interval) hw (by
    intro p hp
    simp only [allocs, List.mem_singleton] at hp
    subst hp
    exact ⟨hp0, hnone⟩)
  have hs'' : s.addTimer ptr when interval = .ok s' := hs'
  refine ⟨s', hs'', ?_⟩
  obtain ⟨_, _, _, _, _, htim, _⟩ := addTimer_ok hs''
  rw [htim]
  exact (mem_setInsert _ _ _).2 (Or.inl rfl)

/-- C12 at the queue reached by two `addTimer` and a pass in which the
repeating timer cancels itself. -/
theorem pending_once_witness :
    ∃ s, TimerQueue.steps muduoTimestamp
        [Op.addTimer 1 10 7, Op.addTimer 2 20 0, Op.handleRead 12 selfCancel]
        TimerQueue.empty = .ok s ∧
    (s.timers_.map Prod.snd).Nodup ∧
    (∀ (ptr : TimerPtr) (when : Timestamp) (interval : Int), ptr ≠ 0 → s.heap ptr = none →
      ∃ s', s.addTimer ptr when interval = .ok s' ∧ (when, ptr) ∈ s'.timers_) ∧
    (∀ (o : Op) (f : Fault), s.step muduoTimestamp o = .error f → f = Fault.badAlloc) :=
  ⟨_, rfl, pending_once muduoTimestamp
    [Op.addTimer 1 10 7, Op.addTimer 2 20 0, Op.handleRead 12 selfCancel] _ rfl⟩

/-! ## C13: the delay handed to the timerfd -/

/-- C13: with a million microseconds per second and `when - cur` within the
range of `int64_t`, `howMuchTimeFromNow` returns a `tv_nsec` from `0` up to,
not including, a thousand million, and `tv_sec` and `tv_nsec` together are
the nanoseconds of `max (when - cur) 100` microseconds; a delay below `100`
microseconds comes out as `0` seconds and `100000` nanoseconds. -/
theorem howMuchTimeFromNow_exact (k when cur : Int) (hk : k = 1000000)
    (h1 : -2 ^ 63 ≤ when - cur) (h2 : when - cur < 2 ^ 63) :
    0 ≤ (howMuchTimeFromNow k when cur).2 ∧
    (howMuchTimeFromNow k when cur).2 < 1000000000 ∧
    (howMuchTimeFromNow k when cur).1 * 1000000000 + (howMuchTimeFromNow k when cur).2
      = 1000 * max (when - cur) 100 ∧
    (when - cur < 100 → howMuchTimeFromNow k when cur = (0, 100000)) := by
  subst hk
  unfold howMuchTimeFromNow
  simp only [wrap64_eq _ h1 h2]
  refine ⟨?_, ?_, ?_, ?_⟩
  all_goals
    have hm : (if when - cur < 100 then 100 else when - cur) = max (when - cur) 100 := by
      by_cases h : when - cur < 100
      · rw [if_pos h, max_eq_right (le_of_lt h)]
      · rw [if_neg h, max_eq_left (not_lt.1 h)]
    have hpos : (0 : Int) ≤ max (when - cur) 100 := le_trans (by decide) (le_max_right _ _)
  · rw [hm]
    generalize max (when - cur) 100 = m at hpos ⊢
    rw [Int.tmod_eq_emod hpos (by decide)]
    have hr1 : 0 ≤ m % 1000000 := Int.emod_nonneg _ (by decide)
    have hr2 : m % 1000000 < 1000000 := Int.emod_lt_of_pos _ (by decide)
    rw [wrap64_eq _ (by omega) (by omega)]
    omega
  · rw [hm]
    generalize max (when - cur) 100 = m at hpos ⊢
    rw [Int.tmod_eq_emod hpos (by decide)]
    have hr1 : 0 ≤ m % 1000000 := Int.emod_nonneg _ (by decide)
    have hr2 : m % 1000000 < 1000000 := Int.emod_lt_of_pos _ (by decide)
    rw [wrap64_eq _ (by omega) (by omega)]
    omega
  · rw [hm]
    generalize max (when - cur) 100 = m at hpos ⊢
    rw [Int.tmod_eq_emod hpos (by decide), Int.tdiv_eq_ediv hpos (by decide)]
    have hr1 : 0 ≤ m % 1000000 := Int.emod_nonneg _ (by decide)
    have hr2 : m % 1000000 < 1000000 := Int.emod_lt_of_pos _ (by decide)
    rw [wrap64_eq _ (by omega) (by omega)]
    omega
  · intro hlt
    rw [if_pos hlt]
    decide

/-- C13 for a deadline `50` microseconds in the past. -/
theorem howMuchTimeFromNow_exact_witness :
    0 ≤ (howMuchTimeFromNow 1000000 50 100).2 ∧
    (howMuchTimeFromNow 1000000 50 100).2 < 1000000000 ∧
    (howMuchTimeFromNow 1000000 50 100).1 * 1000000000 + (howMuchTimeFromNow 1000000 50 100).2
      = 1000 * max (50 - 100) 100 ∧
    ((50 : Int) - 100 < 100 → howMuchTimeFromNow 1000000 50 100 = (0, 100000)) :=
  howMuchTimeFromNow_exact 1000000 50 100 rfl (by decide) (by decide)

/-- A delay of two and a half seconds. -/
theorem howMuchTimeFromNow_sample :
    howMuchTimeFromNow 1000000 2500100 100 = (2, 500000000) := by decide

/-! ## C14: a timer registered for a time in the past -/

/-- C14: in a queue whose pending set is ascending and keyed by the
expirations of its timers, let `T` be a timer nothing refers to yet whose
expiration `when` is not after the current time `cur`.  Then
`addTimerInLoop(T)` returns with `T` pending under the key `when`; when `T`
is the earliest timer, the deadline of the timerfd is `when`, and the delay
`howMuchTimeFromNow` computes for it is the floor of `100` microseconds; and
the next `handleRead` pass, at any `now` from `when` on, returns (provided
the callbacks create their timers at pairwise distinct non-null addresses
that are not in use) and invokes the callback of `T` exactly once. -/
theorem past_timer_fires (ts : TimestampDecl) (s : TimerQueue) (T : TimerPtr) (t : Timer)
    (cur : Timestamp) (hs : s.timers_.Pairwise entryLt) (hk : s.KeysAgree)
    (hT : s.heap T = some t) (hfresh : T ∉ s.owned) (hpast : t.expiration ≤ cur)
    (hrange : -2 ^ 63 ≤ t.expiration - cur) :
    ∃ s1, s.addTimerInLoop T = .ok s1 ∧ (t.expiration, T) ∈ s1.timers_ ∧
      ((s.timers_ = [] ∨ ∀ x ∈ s.timers_, t.expiration < x.1) →
        s1.timerfd_ = some t.expiration) ∧
      howMuchTimeFromNow 1000000 t.expiration cur = (0, 100000) ∧
      ∀ (now : Timestamp) (cbs : TimerPtr → List Call), t.expiration ≤ now →
        ((passAllocs cbs (s1.timers_.filter (fun e => decide (e.1 ≤ now)))).Nodup →
          (∀ p ∈ passAllocs cbs (s1.timers_.filter (fun e => decide (e.1 ≤ now))),
            p ≠ 0 ∧ s1.heap p = none) →
          ∃ s', TimerQueue.handleRead ts s1 now cbs = .ok s') ∧
        ∀ s', TimerQueue.handleRead ts s1 now cbs = .ok s' →
          ∃ l1 l2, s'.ran = s1.ran ++ (l1 ++ T :: l2) ∧ T ∉ l1 ∧ T ∉ l2 := by
  have hnt : T ∉ s.timers_.map Prod.snd := fun hm => hfresh (mem_owned.2 (Or.inl hm))
  obtain ⟨s1, h1⟩ := addTimerInLoop_fresh s T t hT hnt
  obtain ⟨t', ht', _, hheap1, _, htim1, _, _, _, _, hfd1⟩ := addTimerInLoop_ok h1
  rw [hT] at ht'
  injection ht' with ht'
  subst ht'
  have hmem1 : (t.expiration, T) ∈ s1.timers_ := by
    rw [htim1]; exact (mem_setInsert _ _ _).2 (Or.inl rfl)
  have hs1 : s1.timers_.Pairwise entryLt := by
    rw [htim1]; exact setInsert_sorted _ _ hs
  have hk1 : s1.KeysAgree := by
    intro x hx
    rw [htim1] at hx
    rw [hheap1]
    rcases (mem_setInsert _ _ _).1 hx with rfl | hx
    · exact ⟨t, hT, rfl⟩
    · exact hk x hx
  refine ⟨s1, h1, hmem1, ?_, ?_, ?_⟩
  · intro hearliest
    rw [hfd1]
    have hb : (match s.timers_ with
        | [] => true
        | it :: _ => decide (t.expiration < it.1)) = true := by
      cases hl : s.timers_ with
      | nil => rfl
      | cons it rest =>
        simp only [decide_eq_true_eq]
        rcases hearliest with h | h
        · rw [hl] at h; cases h
        · exact h it (by rw [hl]; exact List.mem_cons_self _ _)
    rw [if_pos hb]
  · have hlt : t.expiration - cur < 100 := by
      have : t.expiration - cur ≤ 0 := sub_nonpos.2 hpast
      exact lt_of_le_of_lt this (by decide)
    have hlt2 : t.expiration - cur < 2 ^ 63 := lt_trans hlt (by decide)
    unfold howMuchTimeFromNow
    simp only [wrap64_eq _ hrange hlt2]
    rw [if_pos hlt]
    decide
  · intro now cbs hnow
    refine ⟨handleRead_total ts s1 now cbs hs1 hk1, ?_⟩
    intro s' h
    exact handleRead_runs_once ts s1 s' now cbs (t.expiration, T) hs1 hk1 hmem1 hnow h

/-- C14 at the sample queue: the timer at address `5` is registered for the
time `100` when the current time is `150`. -/
theorem past_timer_fires_witness :
    ∃ s1, sampleFresh.addTimerInLoop 5 = .ok s1 ∧ ((100 : Timestamp), 5) ∈ s1.timers_ ∧
      ((sampleFresh.timers_ = [] ∨ ∀ x ∈ sampleFresh.timers_, (100 : Timestamp) < x.1) →
        s1.timerfd_ = some 100) ∧
      howMuchTimeFromNow 1000000 100 150 = (0, 100000) ∧
      ∀ (now : Timestamp) (cbs : TimerPtr → List Call), (100 : Timestamp) ≤ now →
        ((passAllocs cbs (s1.timers_.filter (fun e => decide (e.1 ≤ now)))).Nodup →
          (∀ p ∈ passAllocs cbs (s1.timers_.filter (fun e => decide (e.1 ≤ now))),
            p ≠ 0 ∧ s1.heap p = none) →
          ∃ s', TimerQueue.handleRead muduoTimestamp s1 now cbs = .ok s') ∧
        ∀ s', TimerQueue.handleRead muduoTimestamp s1 now cbs = .ok s' →
          ∃ l1 l2, s'.ran = s1.ran ++ (l1 ++ 5 :: l2) ∧ 5 ∉ l1 ∧ 5 ∉ l2 :=
  past_timer_fires muduoTimestamp sampleFresh 5 ⟨100, 0, 5⟩ 150 (by decide)
    (by
      intro e he
      simp only [sampleFresh, sampleFour, List.mem_cons, List.mem_singleton, List.not_mem_nil,
        or_false] at he
      rcases he with rfl | rfl | rfl | rfl <;> simp [sampleFresh, sampleFour])
    rfl (by decide) (by decide) (by decide)

/-- From the empty queue: a timer registered for the time `100`, in the past
of the pass at `150`, fires in that pass. -/
theorem samplePast :
    (TimerQueue.steps muduoTimestamp [Op.addTimer 1 100 0, Op.handleRead 150 (fun _ => [])]
        TimerQueue.empty).toOption.map (fun r => (r.ran, r.timers_)) = some ([1], []) := by
  decide

/-! ## C15: cancelling a timer whose insertion may still wait -/

/-- C15, as the code has it: a cancellation takes effect after the insertion
only when it runs after it.  In a queue an interleaving reaches from the
empty queue and in which the timer `T` exists, created by a call of `addTimer`
on whichever thread: a call of `cancel` on the handle of `T` made on another thread, or made
on the loop thread outside a pass when no insertion of `T` waits in the queue
of the loop, returns; the loop then runs the tasks of its queue without a
fault; and once the cancellation has run (at once on the loop thread; on
another thread as soon as no cancellation of `T` waits in the queue of the
loop any more) `T` is not pending, and no later interleaving makes it pending
or invokes its callback; a call of `cancel` on the handle of `T` that a
callback of a pass makes when no insertion of `T` waits leaves `T` not
pending after that pass, and no later interleaving makes it pending or
invokes its callback; and a call of `cancel` made on the loop thread outside a
pass while the insertion of `T` still waits leaves the whole queue as it was,
the waiting insertion included. -/
theorem cancel_linearized (ts : TimestampDecl) (evs0 : List Event) (s : TimerQueue)
    (T : TimerPtr) (h0 : TimerQueue.play ts evs0 TimerQueue.empty = .ok s)
    (hT : s.heap T ≠ none) :
    (∀ inLoopThread : Bool,
      (inLoopThread = false ∨ LoopTask.addTimerInLoop T ∉ s.queued) →
      ∃ s1, s.cancel inLoopThread ⟨T⟩ = .ok s1 ∧
        (∃ s2, TimerQueue.play ts (List.replicate s1.queued.length Event.runQueued) s1
          = .ok s2 ∧ s2.queued = []) ∧
        ∀ (evs : List Event) (s2 : TimerQueue), TimerQueue.play ts evs s1 = .ok s2 →
          (inLoopThread = true ∨ LoopTask.cancelInLoop ⟨T⟩ ∉ s2.queued) →
          T ∉ s2.timers_.map Prod.snd ∧
          ∀ (evs' : List Event) (s3 : TimerQueue), TimerQueue.play ts evs' s2 = .ok s3 →
            T ∉ s3.timers_.map Prod.snd ∧ ∃ l, s3.ran = s2.ran ++ l ∧ T ∉ l) ∧
    (∀ (now : Timestamp) (cbs : TimerPtr → List Call) (a : Entry) (s1 : TimerQueue),
      LoopTask.addTimerInLoop T ∉ s.queued → a ∈ s.timers_ → a.1 ≤ now →
      Call.cancel ⟨T⟩ ∈ cbs a.2 → TimerQueue.handleRead ts s now cbs = .ok s1 →
      T ∉ s1.timers_.map Prod.snd ∧
      ∀ (evs' : List Event) (s3 : TimerQueue), TimerQueue.play ts evs' s1 = .ok s3 →
        T ∉ s3.timers_.map Prod.snd ∧ ∃ l, s3.ran = s1.ran ++ l ∧ T ∉ l) ∧
    (LoopTask.addTimerInLoop T ∈ s.queued → s.cancel true ⟨T⟩ = .ok s) := by
  have hS := play_sound ts evs0 TimerQueue.empty s empty_sound h0
  have hS0 := hS
  obtain ⟨hw, ⟨hflag, hexp⟩, _, hwait⟩ := hS
  have hlater : ∀ z : TimerQueue, z.Gone T →
      T ∉ z.timers_.map Prod.snd ∧
      ∀ (evs' : List Event) (s3 : TimerQueue), TimerQueue.play ts evs' z = .ok s3 →
        T ∉ s3.timers_.map Prod.snd ∧ ∃ l, s3.ran = z.ran ++ l ∧ T ∉ l := by
    intro z hG
    refine ⟨hG.1.1, ?_⟩
    intro evs' s3 h3
    obtain ⟨hG3, hl⟩ := play_gone ts T evs' z s3 hG h3
    exact ⟨hG3.1.1, hl⟩
  refine ⟨?_, ?_, ?_⟩
  · intro inLoopThread hwhen
    cases inLoopThread with
    | false =>
      have hS1 : TimerQueue.Sound { s with queued := s.queued ++ [LoopTask.cancelInLoop ⟨T⟩] } :=
        occur_sound ts s (Event.cancel false ⟨T⟩) _ hS0 rfl
      refine ⟨{ s with queued := s.queued ++ [LoopTask.cancelInLoop ⟨T⟩] }, rfl,
        drain_total ts _ _ hS1 rfl, ?_⟩
      intro evs s2 h2 hrun
      have hrun' : LoopTask.cancelInLoop ⟨T⟩ ∉ s2.queued := by
        rcases hrun with hrun | hrun
        · cases hrun
        · exact hrun
      exact hlater s2 (play_doomed ts T evs _ s2 hS1 hT
        ⟨cancelBehind_append_cancel T s.queued,
          fun _ => List.mem_append_right _ (List.mem_singleton.2 rfl)⟩ h2 hrun')
    | true =>
      have hnq : LoopTask.addTimerInLoop T ∉ s.queued := by
        rcases hwhen with hwhen | hwhen
        · cases hwhen
        · exact hwhen
      obtain ⟨s1, h1⟩ := call_total s (.cancel ⟨T⟩) hw (fun p hp => by simp [allocs] at hp)
      have h1' : s.cancelInLoop ⟨T⟩ = .ok s1 := h1
      have hG1 : s1.Gone T := by
        refine ⟨⟨cancelInLoop_absent s s1 T hw.1 hw.2.1 h1', ?_, ?_⟩, ?_⟩
        · rw [(call_frame h1).2.1, hexp]; simp
        · cases hh : s.heap T with
          | none => exact absurd hh hT
          | some t => rw [(call_effect h1).1 T t hh]; simp
        · rw [cancelInLoop_queued h1']; exact hnq
      have hS1 : s1.Sound := occur_sound ts s (Event.cancel true ⟨T⟩) s1 hS0 h1'
      refine ⟨s1, h1', drain_total ts _ _ hS1 rfl, ?_⟩
      intro evs s2 h2 _
      exact hlater s2 (play_gone ts T evs s1 s2 hG1 h2).1
  · intro now cbs a s1 hnq ha hadue hcb h1
    have hR := handleRead_cancel_by ts s s1 now cbs a T hw.1 hw.2.1 hT ha hadue hcb h1
    exact hlater s1 ⟨hR, by rw [handleRead_queued h1]; exact hnq⟩
  · intro hq
    obtain ⟨hn, _⟩ := hwait T hq
    cases hh : s.heap T with
    | none => exact absurd hh hT
    | some t => exact (cancel_before_add ts s T t hw.1 hw.2.1 hflag hh hn).1

/-- C15, as the code has it, at the queue reached by a call of `addTimer` on
another thread, whose insertion of the timer at address `1` waits. -/
theorem cancel_linearized_witness :
    ∃ s,
    TimerQueue.play muduoTimestamp [Event.addTimer false 1 100 0] TimerQueue.empty = .ok s ∧
    s.heap 1 ≠ none ∧
    (∀ inLoopThread : Bool,
      (inLoopThread = false ∨ LoopTask.addTimerInLoop 1 ∉ s.queued) →
      ∃ s1, s.cancel inLoopThread ⟨1⟩ = .ok s1 ∧
        (∃ s2, TimerQueue.play muduoTimestamp
            (List.replicate s1.queued.length Event.runQueued) s1 = .ok s2 ∧ s2.queued = []) ∧
        ∀ (evs : List Event) (s2 : TimerQueue),
          TimerQueue.play muduoTimestamp evs s1 = .ok s2 →
          (inLoopThread = true ∨ LoopTask.cancelInLoop ⟨1⟩ ∉ s2.queued) →
          1 ∉ s2.timers_.map Prod.snd ∧
          ∀ (evs' : List Event) (s3 : TimerQueue),
            TimerQueue.play muduoTimestamp evs' s2 = .ok s3 →
            1 ∉ s3.timers_.map Prod.snd ∧ ∃ l, s3.ran = s2.ran ++ l ∧ 1 ∉ l) ∧
    (∀ (now : Timestamp) (cbs : TimerPtr → List Call) (a : Entry) (s1 : TimerQueue),
      LoopTask.addTimerInLoop 1 ∉ s.queued → a ∈ s.timers_ → a.1 ≤ now →
      Call.cancel ⟨1⟩ ∈ cbs a.2 → TimerQueue.handleRead muduoTimestamp s now cbs = .ok s1 →
      1 ∉ s1.timers_.map Prod.snd ∧
      ∀ (evs' : List Event) (s3 : TimerQueue),
        TimerQueue.play muduoTimestamp evs' s1 = .ok s3 →
        1 ∉ s3.timers_.map Prod.snd ∧ ∃ l, s3.ran = s1.ran ++ l ∧ 1 ∉ l) ∧
    (LoopTask.addTimerInLoop 1 ∈ s.queued → s.cancel true ⟨1⟩ = .ok s) :=
  ⟨_, rfl,
    play_created muduoTimestamp false 1 100 0 [Event.addTimer false 1 100 0]
      TimerQueue.empty _ (List.mem_singleton.2 rfl) rfl,
    cancel_linearized muduoTimestamp [Event.addTimer false 1 100 0] _ 1 rfl
      (play_created muduoTimestamp false 1 100 0 [Event.addTimer false 1 100 0]
        TimerQueue.empty _ (List.mem_singleton.2 rfl) rfl)⟩

/-- C15 fails as stated: `addTimer` is called on another thread, so that the
insertion of the timer at address `1` waits in the queue of the loop; `cancel`
is then called on the loop thread and runs `cancelInLoop` at once; the loop
runs the waiting insertion, after which the timer is pending and no task
waits; and the pass at `100` invokes the callback of the timer. -/
theorem cancel_linearized_counterexample :
    (TimerQueue.play muduoTimestamp
        [Event.addTimer false 1 100 0, Event.cancel true ⟨1⟩, Event.runQueued]
        TimerQueue.empty).toOption.map (fun r => (r.timers_, r.queued, r.ran))
      = some ([(100, 1)], [], []) ∧
    (TimerQueue.play muduoTimestamp
        [Event.addTimer false 1 100 0, Event.cancel true ⟨1⟩, Event.runQueued,
          Event.handleRead 100 quiet]
        TimerQueue.empty).toOption.map (fun r => (r.timers_, r.queued, r.ran))
      = some ([], [], [1]) := by
  decide

/-- The same calls with `cancel` called on another thread: its task waits
behind the insertion, the loop runs the two in that order, and the pass at
`100` invokes no callback. -/
theorem sampleQueued_cancel :
    (TimerQueue.play muduoTimestamp
        [Event.addTimer false 1 100 0, Event.cancel false ⟨1⟩, Event.runQueued,
          Event.runQueued, Event.handleRead 100 quiet]
        TimerQueue.empty).toOption.map (fun r => (r.timers_, r.queued, r.ran))
      = some ([], [], []) := by
  decide

/-! ## C16: nothing lost and nothing doubled by `getExpired` -/

/-- C16: on a pending set `S` in ascending order `getExpired(now)` returns a
sequence in ascending order that, followed by the entries left pending, is
`S`; nothing else of the queue changes. -/
theorem getExpired_split (s : TimerQueue) (now : Timestamp) (h : s.timers_.Pairwise entryLt) :
    ∃ expired s', s.getExpired now = .ok (expired, s') ∧
      expired ++ s'.timers_ = s.timers_ ∧ expired.Pairwise entryLt ∧
      s'.timers_.Pairwise entryLt ∧ s' = { s with timers_ := s'.timers_ } := by
  refine ⟨_, _, getExpired_eq s now h, ?_, h.sublist (List.filter_sublist _),
    h.sublist (List.filter_sublist _), rfl⟩
  exact (due_split now s.timers_ (h.imp (fun hab => entryLt_fst_le hab))).symm

/-- C16 at the sample queue and `now = 10`. -/
theorem getExpired_split_witness :
    sampleFour.timers_.Pairwise entryLt ∧
    ∃ expired s', sampleFour.getExpired 10 = .ok (expired, s') ∧
      expired ++ s'.timers_ = sampleFour.timers_ ∧ expired.Pairwise entryLt ∧
      s'.timers_.Pairwise entryLt ∧ s' = { sampleFour with timers_ := s'.timers_ } :=
  ⟨by decide, getExpired_split sampleFour 10 (by decide)⟩

/-! ## C17: what `reset` reinserts -/

/-- C17: let `reset(expired, now)` be called as `handleRead` calls it: the
timers of `expired` have their objects, are pairwise distinct and are not
pending, and the pending timers have their objects.  Then `reset` returns;
the pending set afterwards holds the entries it held and, for each entry of
`expired` whose timer has a non-zero interval and that is not in the
canceling set, the timer keyed by `now` plus its interval, and nothing else;
an expired timer that is one-shot or whose entry is in the canceling set is
not pending afterwards; the entries that were pending are pending, with their
timer objects unchanged. -/
theorem reset_reinserts (ts : TimestampDecl) (s : TimerQueue) (expired : List Entry)
    (now : Timestamp)
    (hheap : ∀ x ∈ expired, s.heap x.2 ≠ none) (hnd : (expired.map Prod.snd).Nodup)
    (hdisj : ∀ x ∈ expired, x.2 ∉ s.timers_.map Prod.snd)
    (hpend : ∀ x ∈ s.timers_, s.heap x.2 ≠ none) :
    ∃ s', TimerQueue.reset ts s expired now = .ok s' ∧
      (∀ x, x ∈ s'.timers_ ↔ x ∈ s.timers_ ∨ ∃ e ∈ expired, ∃ t, s.heap e.2 = some t ∧
        t.interval ≠ 0 ∧ e ∉ s.cancelingTimers_ ∧ x = (now + t.interval, e.2)) ∧
      (∀ e ∈ expired, ∀ t, s.heap e.2 = some t →
        (t.interval = 0 ∨ e ∈ s.cancelingTimers_) → e.2 ∉ s'.timers_.map Prod.snd) ∧
      (∀ x ∈ s.timers_, x ∈ s'.timers_ ∧ s'.heap x.2 = s.heap x.2) := by
  obtain ⟨s', h⟩ := reset_total ts s expired now hheap hnd hdisj hpend
  obtain ⟨s1, m, hloop, _, hs'⟩ := reset_ok h
  obtain ⟨hmem, _, hsame, _⟩ := resetLoop_spec now expired s s1 hloop
  have h1 : s'.timers_ = s1.timers_ ∧ s'.heap = s1.heap := by
    rw [hs']
    split <;> exact ⟨rfl, rfl⟩
  have hrep : ∀ t : Timer, t.repeat = true ↔ t.interval ≠ 0 := by
    intro t
    unfold Timer.repeat
    simp
  have hmem' : ∀ x, x ∈ s'.timers_ ↔ x ∈ s.timers_ ∨ ∃ e ∈ expired, ∃ t,
      s.heap e.2 = some t ∧ t.interval ≠ 0 ∧ e ∉ s.cancelingTimers_ ∧
      x = (now + t.interval, e.2) := by
    intro x
    rw [h1.1, hmem x]
    constructor
    · rintro (hx | ⟨e, he, t, ht, hr, hc, hx⟩)
      · exact Or.inl hx
      · exact Or.inr ⟨e, he, t, ht, (hrep t).1 hr, hc, hx⟩
    · rintro (hx | ⟨e, he, t, ht, hr, hc, hx⟩)
      · exact Or.inl hx
      · exact Or.inr ⟨e, he, t, ht, (hrep t).2 hr, hc, hx⟩
  refine ⟨s', h, hmem', ?_, ?_⟩
  · intro e he t ht hskip hm
    obtain ⟨x, hx, hxe⟩ := List.mem_map.1 hm
    rcases (hmem' x).1 hx with hx' | ⟨e', he', t', ht', hr', hc', hxe'⟩
    · exact hdisj e he (List.mem_map.2 ⟨x, hx', hxe⟩)
    · have h2 : e'.2 = e.2 := by rw [← hxe, hxe']
      have hee : e' = e := List.inj_on_of_nodup_map hnd he' he h2
      subst hee
      rw [ht] at ht'
      injection ht' with ht'
      subst ht'
      rcases hskip with h0 | hc
      · exact hr' h0
      · exact hc' hc
  · intro x hx
    refine ⟨(hmem' x).2 (Or.inl hx), ?_⟩
    rw [h1.2]
    apply hsame
    rintro ⟨e, he, he2, _⟩
    exact hdisj e he (by rw [he2]; exact List.mem_map.2 ⟨x, hx, rfl⟩)

/-- C17 at a sample queue: `reset` at `now = 12` with the repeating timer at
address `1` expired. -/
theorem reset_reinserts_witness :
    ∃ s', TimerQueue.reset muduoTimestamp sampleFired [(10, 1)] 12 = .ok s' ∧
      (∀ x, x ∈ s'.timers_ ↔ x ∈ sampleFired.timers_ ∨ ∃ e ∈ [((10 : Timestamp), 1)], ∃ t,
        sampleFired.heap e.2 = some t ∧
        t.interval ≠ 0 ∧ e ∉ sampleFired.cancelingTimers_ ∧ x = (12 + t.interval, e.2)) ∧
      (∀ e ∈ [((10 : Timestamp), 1)], ∀ t, sampleFired.heap e.2 = some t →
        (t.interval = 0 ∨ e ∈ sampleFired.cancelingTimers_) → e.2 ∉ s'.timers_.map Prod.snd) ∧
      (∀ x ∈ sampleFired.timers_, x ∈ s'.timers_ ∧ s'.heap x.2 = sampleFired.heap x.2) :=
  reset_reinserts muduoTimestamp sampleFired [(10, 1)] 12
    (by simp [sampleFired, sampleRepeat]) (by decide) (by decide)
    (by simp [sampleFired, sampleRepeat])

/-- At the queue `sampleMixed`, `reset` at `now = 12` reinserts the timer at
address `3` only. -/
theorem sampleMixed_reset :
    (TimerQueue.reset muduoTimestamp sampleMixed [(10, 1), (11, 3), (12, 4)] 12).toOption.map
      (fun r => (r.timers_, r.timerfd_)) = some ([(17, 3), (20, 2)], some 17) := by
  decide

/-! ## C18: when `addTimerInLoop` re-arms the timerfd -/

/-- C18: on an ascending pending set and a timer `T` that is not pending,
`insert(T)` and `addTimerInLoop(T)` return; when `insert` returns `true`,
which it does exactly when the pending set was empty or `T.expiration` is
strictly below every pending expiration, the deadline of the timerfd after
`addTimerInLoop` is `T.expiration`; when it returns `false`, the deadline is
as it was.  The pending set after `addTimerInLoop` is the one `insert` left. -/
theorem addTimerInLoop_rearm (s : TimerQueue) (timer : TimerPtr) (t : Timer)
    (hs : s.timers_.Pairwise entryLt) (ht : s.heap timer = some t)
    (hn : timer ∉ s.timers_.map Prod.snd) :
    ∃ b s1 s', s.insert timer = .ok (b, s1) ∧ s.addTimerInLoop timer = .ok s' ∧
      (b = true ↔ (s.timers_ = [] ∨ ∀ x ∈ s.timers_, t.expiration < x.1)) ∧
      (b = true → s' = s1.resetTimerfd t.expiration ∧ s'.timerfd_ = some t.expiration) ∧
      (b = false → s' = s1 ∧ s'.timerfd_ = s.timerfd_) := by
  have hnm : (t.expiration, timer) ∉ s.timers_ := fun hm => hn (List.mem_map.2 ⟨_, hm, rfl⟩)
  have hins := insert_eq ht hnm
  have hadd : s.addTimerInLoop timer = .ok
      (if (match s.timers_ with
          | [] => true
          | it :: _ => decide (t.expiration < it.1)) = true
        then ({ s with timers_ := (setInsert (t.expiration, timer) s.timers_).1 } :
          TimerQueue).resetTimerfd t.expiration
        else { s with timers_ := (setInsert (t.expiration, timer) s.timers_).1 }) := by
    unfold TimerQueue.addTimerInLoop
    rw [hins]
    simp only
    split
    · rename_i hb
      simp only [ht, hb, if_true]
    · rename_i hb
      simp only [hb, if_false]
  refine ⟨_, _, _, hins, hadd, ?_, ?_, ?_⟩
  · cases hl : s.timers_ with
    | nil => simp
    | cons it rest =>
      rw [hl] at hs
      simp only [decide_eq_true_eq, List.mem_cons, forall_eq_or_imp]
      constructor
      · intro hlt
        refine Or.inr ⟨hlt, ?_⟩
        intro x hx
        exact lt_of_lt_of_le hlt (entryLt_fst_le ((List.pairwise_cons.1 hs).1 x hx))
      · rintro (h | h)
        · cases h
        · exact h.1
  · intro hb
    rw [if_pos hb]
    exact ⟨rfl, rfl⟩
  · intro hb
    rw [if_neg (by rw [hb]; decide)]
    exact ⟨rfl, rfl⟩

/-- C18 at the sample queue and the new timer at address `5`, which expires
after every pending timer: the deadline stays as it was. -/
theorem addTimerInLoop_rearm_witness :
    sampleFresh.timers_.Pairwise entryLt ∧ sampleFresh.heap 5 = some ⟨100, 0, 5⟩ ∧
    5 ∉ sampleFresh.timers_.map Prod.snd ∧
    ∃ b s1 s', sampleFresh.insert 5 = .ok (b, s1) ∧ sampleFresh.addTimerInLoop 5 = .ok s' ∧
      (b = true ↔ (sampleFresh.timers_ = [] ∨
        ∀ x ∈ sampleFresh.timers_, (100 : Timestamp) < x.1)) ∧
      (b = true → s' = s1.resetTimerfd 100 ∧ s'.timerfd_ = some 100) ∧
      (b = false → s' = s1 ∧ s'.timerfd_ = sampleFresh.timerfd_) :=
  ⟨by decide, rfl, by decide,
    addTimerInLoop_rearm sampleFresh 5 ⟨100, 0, 5⟩ (by decide) rfl (by decide)⟩

/-- Adding a timer for the time `3` to the sample queue, whose earliest
pending expiration is `5`, moves the deadline of the timerfd to `3`; adding
one for the time `5` leaves the deadline alone. -/
theorem sampleFour_rearm :
    ((sampleFour.addTimer 9 3 0).toOption.map (fun r => r.timerfd_) = some (some 3)) ∧
    ((sampleFour.addTimer 9 5 0).toOption.map (fun r => r.timerfd_) = some none) := by
  decide

/-! ## C19: every pending entry is keyed by the expiration of its timer -/

/-- C19: in every queue reached from the empty queue by `addTimer`, `cancel`
and `handleRead` operations, every pending entry `(key, T)` has the object of
`T` with `T.expiration = key`; so `cancelInLoop` on the handle of a pending
timer `T` finds the entry keyed by `T.expiration` and leaves `T` out of the
pending set; and a pass of `handleRead` leaves the object of every timer
that stays pending through it as it is. -/
theorem keys_consistent (ts : TimestampDecl) (ops : List Op) (s : TimerQueue)
    (h : TimerQueue.steps ts ops TimerQueue.empty = .ok s) :
    (∀ e ∈ s.timers_, ∃ t, s.heap e.2 = some t ∧ t.expiration = e.1) ∧
    (∀ T ∈ s.timers_.map Prod.snd, ∃ t s', s.heap T = some t ∧
      (t.expiration, T) ∈ s.timers_ ∧ s.cancelInLoop ⟨T⟩ = .ok s' ∧
      T ∉ s'.timers_.map Prod.snd) ∧
    (∀ (now : Timestamp) (cbs : TimerPtr → List Call) (s' : TimerQueue),
      TimerQueue.handleRead ts s now cbs = .ok s' →
      ∀ x ∈ s.timers_, now < x.1 → s'.heap x.2 = s.heap x.2) := by
  have hw := steps_wf ts ops TimerQueue.empty s empty_wf h
  refine ⟨hw.2.1, ?_, ?_⟩
  · intro T hT
    obtain ⟨t, ht, hmem, hrun, hgone⟩ := cancelInLoop_pending s T hw.1 hw.2.1 hT
    exact ⟨t, _, ht, hmem, hrun, hgone⟩
  · intro now cbs s' hr x hx hlate
    exact handleRead_heap_pending ts s s' now cbs hw.1 hw.2.1 hr x hx hlate

/-- C19 at the queue reached by two `addTimer` and a quiet pass that restarts
the repeating timer. -/
theorem keys_consistent_witness :
    ∃ s, TimerQueue.steps muduoTimestamp
        [Op.addTimer 1 10 7, Op.addTimer 2 20 0, Op.handleRead 12 (fun _ => [])]
        TimerQueue.empty = .ok s ∧
    (∀ e ∈ s.timers_, ∃ t, s.heap e.2 = some t ∧ t.expiration = e.1) ∧
    (∀ T ∈ s.timers_.map Prod.snd, ∃ t s', s.heap T = some t ∧
      (t.expiration, T) ∈ s.timers_ ∧ s.cancelInLoop ⟨T⟩ = .ok s' ∧
      T ∉ s'.timers_.map Prod.snd) ∧
    (∀ (now : Timestamp) (cbs : TimerPtr → List Call) (s' : TimerQueue),
      TimerQueue.handleRead muduoTimestamp s now cbs = .ok s' →
      ∀ x ∈ s.timers_, now < x.1 → s'.heap x.2 = s.heap x.2) :=
  ⟨_, rfl, keys_consistent muduoTimestamp
    [Op.addTimer 1 10 7, Op.addTimer 2 20 0, Op.handleRead 12 (fun _ => [])] _ rfl⟩

/-- The queue of that witness: the repeating timer is pending for `19`, and
its object says so. -/
theorem sampleRestarted :
    (TimerQueue.steps muduoTimestamp
        [Op.addTimer 1 10 7, Op.addTimer 2 20 0, Op.handleRead 12 (fun _ => [])]
        TimerQueue.empty).toOption.map
      (fun r => (r.timers_, (r.heap 1).map (fun t => t.expiration)))
    = some ([(19, 1), (20, 2)], some 19) := by decide

/-! ## C20: a firing timer cancelled by an earlier callback still fires -/

/-- C20: in a queue whose pending set is ascending and keyed by the
expirations of its timers, let the entries `a` of timer `A` and `b` of timer
`B` be due at `now`, `a` before `b`, and let the callback of `A` cancel the
handle of `B`.  A `handleRead` pass at `now` returns, provided the callbacks
create their timers at pairwise distinct non-null addresses that are not in
use; it invokes the callback of `A` and later the callback of `B`, whatever
the interval of `B`; the entry of `B` is in the canceling set when the pass
returns and `B` is not pending: `reset` did not reinsert it. -/
theorem cancelled_still_fires (ts : TimestampDecl) (s : TimerQueue) (now : Timestamp)
    (cbs : TimerPtr → List Call) (a b : Entry)
    (hs : s.timers_.Pairwise entryLt) (hk : s.KeysAgree)
    (ha : a ∈ s.timers_) (hb : b ∈ s.timers_) (hab : entryLt a b) (hbdue : b.1 ≤ now)
    (hcb : Call.cancel ⟨b.2⟩ ∈ cbs a.2) :
    ((passAllocs cbs (s.timers_.filter (fun e => decide (e.1 ≤ now)))).Nodup →
      (∀ p ∈ passAllocs cbs (s.timers_.filter (fun e => decide (e.1 ≤ now))),
        p ≠ 0 ∧ s.heap p = none) →
      ∃ s', TimerQueue.handleRead ts s now cbs = .ok s') ∧
    ∀ s', TimerQueue.handleRead ts s now cbs = .ok s' →
      (∃ l1 l2 l3, s'.ran = s.ran ++ (l1 ++ a.2 :: (l2 ++ b.2 :: l3))) ∧
      b ∈ s'.cancelingTimers_ ∧ b.2 ∉ s'.timers_.map Prod.snd := by
  refine ⟨handleRead_total ts s now cbs hs hk, ?_⟩
  intro s' h
  have hadue : a.1 ≤ now := le_trans (entryLt_fst_le hab) hbdue
  obtain ⟨hret, hcan⟩ := handleRead_cancelled ts s s' now cbs a b hs hk ha hadue hb hbdue hcb h
  refine ⟨?_, hcan, hret.1⟩
  obtain ⟨n, hg, hran⟩ := handleRead_ran h
  rw [getExpired_eq s now hs] at hg
  injection hg with hg
  have hE : s.timers_.take n = s.timers_.filter (fun x => decide (x.1 ≤ now)) :=
    (congrArg Prod.fst hg).symm
  have hsub : (s.timers_.filter (fun e => decide (e.1 ≤ now))).Pairwise entryLt :=
    hs.sublist (List.filter_sublist _)
  have haf : a ∈ s.timers_.filter (fun e => decide (e.1 ≤ now)) :=
    List.mem_filter.2 ⟨ha, by simpa using hadue⟩
  have hbf : b ∈ s.timers_.filter (fun e => decide (e.1 ≤ now)) :=
    List.mem_filter.2 ⟨hb, by simpa using hbdue⟩
  obtain ⟨l1, l2, l3, hsplit⟩ := sorted_split hsub haf hbf hab
  refine ⟨l1.map Prod.snd, l2.map Prod.snd, l3.map Prod.snd, ?_⟩
  rw [hran, hE, hsplit]
  simp

/-- C20 at a sample queue: in the pass at `now = 12` the callback of the timer
at address `1` cancels the repeating timer at address `2`, which fires all the
same and is not restarted. -/
theorem cancelled_still_fires_witness :
    ∃ s', TimerQueue.handleRead muduoTimestamp samplePair 12 cancelOther = .ok s' ∧
      (∃ l1 l2 l3, s'.ran = samplePair.ran ++ (l1 ++ 1 :: (l2 ++ 2 :: l3))) ∧
      ((11 : Timestamp), 2) ∈ s'.cancelingTimers_ ∧ 2 ∉ s'.timers_.map Prod.snd :=
  ⟨_, rfl, (cancelled_still_fires muduoTimestamp samplePair 12 cancelOther (10, 1) (11, 2)
    (by decide)
    (by
      intro e he
      simp only [samplePair, List.mem_cons, List.mem_singleton, List.not_mem_nil, or_false] at he
      rcases he with rfl | rfl <;> simp [samplePair])
    (by decide) (by decide) (by decide) (by decide) (by decide)).2 _ rfl⟩

/-- The pass of that witness: both callbacks are invoked, the timer at `1` is
restarted for `19`, the timer at `2` is not. -/
theorem samplePair_pass :
    (TimerQueue.handleRead muduoTimestamp samplePair 12 cancelOther).toOption.map
      (fun r => (r.ran, r.timers_, r.cancelingTimers_))
    = some ([1, 2], [(19, 1)], [(11, 2)]) := by decide

end muduo.net
